import Mathlib

/-!
# Subset load balancer builder

A shallow embedding of `pkg/upstream/cluster/subset_loadbalancer_builder.go`:
the metadata index (`initIndex`), the host filter (`filterHosts`,
`selectHosts`), the combination enumerator (`metadataCombinations`,
`doMetadataCombination`), the subset tree (`findOrCreateSubset`,
`createSubsets`), the fallback resolver (`createFallbackSubset`) and `Build`.

Conventions of the embedding.

* A Go `map[string]T` that is only read once it is built (the index, the
  metadata of a host) is an association list read with `mapGet` (first
  binding of the key) and written with `mapSet` (replace the binding, or add
  one).  Its key set is `mapKeys`.  Reading a nil map and reading an empty
  map give the same, so these maps need no nil.
* The maps of the subset tree are written by `findOrCreateSubset`, and a
  write into a nil map panics: they are `NilMap`s, `none` for the nil map
  and `some` list for a map that `make` or a literal built.
* A `range` over a map visits the keys in an order Go leaves unspecified and
  picks anew at every execution of the statement.  One execution has a
  `RangeOrder`, any function that permutes the key list.  The calls of
  `doMetadataCombination` within one `metadataCombinations` each execute the
  statement once and differ in their argument `kvs`, so their orders are a
  `CombinationOrder`, a range order for every `kvs`; a build has a
  `BuildOrder`: the order of the range in `subsetMergeKeys` and a combination
  order for every iteration of the outer loop of `createSubsets`.
* A run-time panic (slice index out of range, assignment to an entry in a nil
  map) is the result `none` of a function returning `Option`.
* Pointers into the subset tree are paths: the entry that
  `findOrCreateSubset` returns is the entry at the path it walked, and a write
  through the returned pointer is `updateEntry` at that path.  In
  `createSubsets` that path is `kvs`, the path walked when `idx` does not
  wrap, that is when `len(kvs) < 2^32`: the theorems on the tree and the
  count that `createSubsets` and `Build` return are for key-groups of fewer
  than `2^32` keys.
* `idx uint32` of `findOrCreateSubset` is a natural number below `2^32`, its
  arithmetic taken modulo `2^32` (`uint32`).  `idx int` of
  `doMetadataCombination` and `subSetCount int64` are natural numbers: a slice
  has fewer than `2^63` elements, and the count is of loop iterations.
-/

namespace Mosn

/-! ## Go maps -/

/-- A Go map with string keys, as an association list. -/
abbrev GoMap (β : Type) := List (String × β)

/-- The value of `m[k]` together with its `ok` flag. -/
def mapGet {β : Type} (m : GoMap β) (k : String) : Option β :=
  match m with
  | [] => none
  | (k1, v1) :: rest => if k1 = k then some v1 else mapGet rest k

/-- The map after `m[k] = v`. -/
def mapSet {β : Type} (m : GoMap β) (k : String) (v : β) : GoMap β :=
  match m with
  | [] => [(k, v)]
  | (k1, v1) :: rest => if k1 = k then (k, v) :: rest else (k1, v1) :: mapSet rest k v

/-- The keys of the map, each once. -/
def mapKeys {β : Type} (m : GoMap β) : List String :=
  (m.map Prod.fst).dedup

/-- The order in which one execution of a `range` statement visits the keys
of a map: some permutation of the keys, not specified by the language. -/
structure RangeOrder where
  visit : List String → List String
  visit_perm : ∀ l, (visit l).Perm l

/-- The range order that visits the keys as they are stored. -/
def RangeOrder.stored : RangeOrder := ⟨fun l => l, fun l => List.Perm.refl l⟩

/-- The range order that visits the keys in reverse. -/
def RangeOrder.reversed : RangeOrder := ⟨fun l => l.reverse, fun l => List.reverse_perm l⟩

/-- The keys of `m` in the order a `range m` visits them. -/
def rangeKeys {β : Type} (ord : RangeOrder) (m : GoMap β) : List String :=
  ord.visit (mapKeys m)

/-! ## `intsets.Sparse` (golang.org/x/tools/container/intsets) -/

/-- A sparse set of host ordinals: its elements in ascending order, which is
the order `AppendTo` lists them in. -/
abbrev Sparse := List Nat

/-- The set after `s.Insert(x)`. -/
def Sparse.Insert (s : Sparse) (x : Nat) : Sparse :=
  match s with
  | [] => [x]
  | y :: rest =>
    if x < y then x :: y :: rest
    else if x = y then y :: rest
    else y :: Sparse.Insert rest x

/-- The receiver after `s.Copy(x)`. -/
def Sparse.Copy (x : Sparse) : Sparse := x

/-- The receiver after `s.IntersectionWith(x)`. -/
def Sparse.IntersectionWith (s x : Sparse) : Sparse :=
  s.filter (fun n => decide (n ∈ x))

/-- The number of elements, `s.Len()`. -/
def Sparse.Len (s : Sparse) : Nat := s.length

/-- The slice `s.AppendTo(slice)`: the elements appended in ascending order. -/
def Sparse.AppendTo (s : Sparse) (slice : List Nat) : List Nat := slice ++ s

/-! ## Data model -/

/-- An ordered list of key/value pairs (`types.SubsetMetadata`, a slice of
`types.Pair`). -/
abbrev SubsetMetadata := List (String × String)

/-- An upstream host: its address and its metadata map. -/
structure Host where
  addr : String
  Metadata : GoMap String
deriving DecidableEq, Repr

/-- The `hostSet` of the package: an ordered sequence of hosts. -/
structure HostSet where
  allHosts : List Host
deriving DecidableEq, Repr

/-- The hosts of a host set, `hs.Hosts()`. -/
def HostSet.Hosts (hs : HostSet) : List Host := hs.allHosts

/-- The fallback policy (`types.FallBackPolicy`). -/
inductive FallBackPolicy where
  | NoFallBack
  | AnyEndPoint
  | DefaultSubset
deriving DecidableEq, Repr

/-- The subset configuration (`types.LBSubsetInfo`): the key-groups, the
default subset and the fallback policy. -/
structure LBSubsetInfo where
  SubsetKeys : List (List String)
  DefaultSubset : SubsetMetadata
  FallbackPolicy : FallBackPolicy
deriving DecidableEq, Repr

/-- The part of `types.ClusterInfo` the builder reads. -/
structure ClusterInfo where
  LbType : String
  LbSubsetInfo : LBSubsetInfo
deriving DecidableEq, Repr

/-- A load balancer, known by what it was constructed from. -/
structure LoadBalancer where
  lbType : String
  hosts : List Host
deriving DecidableEq, Repr

/-- Modelled from the spec: `NewLoadBalancer` of the package is not part of the
sources at hand.  The balancer construction contract
`CreateLoadBalancer(ClusterInfo, HostSet) -> Balancer` returns a balancer of
the configured type over the hosts of the host set. -/
def NewLoadBalancer (info : ClusterInfo) (hs : HostSet) : LoadBalancer :=
  ⟨info.LbType, hs.Hosts⟩

/-- The builder (`subsetLoadBalancerBuilder`). -/
structure subsetLoadBalancerBuilder where
  info : ClusterInfo
  indexer : GoMap (GoMap Sparse)
  hostSet : HostSet
  subSetCount : Nat
deriving DecidableEq, Repr

/-! ## The metadata index -/

/-- The loop of `subsetMergeKeys` over the keys of one key-group. -/
def mergeGroup (m : GoMap Unit) (keys : List String) : GoMap Unit :=
  keys.foldl (fun m key => mapSet m key ()) m

/-- The key set `subsetMergeKeys` collects, listed in range order. -/
def subsetMergeKeys (ord : RangeOrder) (subSetKeys : List (List String))
    (defaultSubset : SubsetMetadata) : List String :=
  let m : GoMap Unit := subSetKeys.foldl mergeGroup []
  let m := defaultSubset.foldl (fun m pair => mapSet m pair.1 ()) m
  rangeKeys ord m

/-- One iteration of the inner loop of `initIndex`: host `host` at ordinal
`i`, for the key `key`. -/
def indexHost (key : String) (valueMap : GoMap Sparse) (ih : Nat × Host) : GoMap Sparse :=
  match mapGet ih.2.Metadata key with
  | none => valueMap
  | some value =>
    match mapGet valueMap value with
    | none => mapSet valueMap value (Sparse.Insert [] ih.1)
    | some s => mapSet valueMap value (Sparse.Insert s ih.1)

/-- The value map `initIndex` builds for one key. -/
def indexKey (hosts : List Host) (key : String) : GoMap Sparse :=
  hosts.enum.foldl (indexHost key) []

/-- The index `initIndex` stores in the builder. -/
def initIndex (ord : RangeOrder) (info : ClusterInfo) (hostSet : HostSet) :
    GoMap (GoMap Sparse) :=
  let subsetInfo := info.LbSubsetInfo
  let keys := subsetMergeKeys ord subsetInfo.SubsetKeys subsetInfo.DefaultSubset
  let hosts := hostSet.Hosts
  keys.foldl (fun indexer key => mapSet indexer key (indexKey hosts key)) []

/-- The builder after `newSubsetLoadBalancerBuilder(info, hs)`. -/
def newSubsetLoadBalancerBuilder (ord : RangeOrder) (info : ClusterInfo) (hs : HostSet) :
    subsetLoadBalancerBuilder :=
  { info := info, indexer := initIndex ord info hs, hostSet := hs, subSetCount := 0 }

/-! ## The host filter -/

/-- The loop of `selectHosts`: `hosts[n]` for every offset, `none` when an
offset is out of range. -/
def readHosts (hosts : List Host) (offsets : List Nat) : Option (List Host) :=
  match offsets with
  | [] => some []
  | n :: rest =>
    match hosts[n]? with
    | none => none
    | some h => (readHosts hosts rest).map (fun ret => h :: ret)

/-- The hosts at the ordinals of the set, `b.selectHosts(s)`; the set pointer
may be nil. -/
def selectHosts (b : subsetLoadBalancerBuilder) (s : Option Sparse) : Option (List Host) :=
  match s with
  | none => some []
  | some s =>
    let hosts := b.hostSet.Hosts
    let offsets := Sparse.AppendTo s []
    readHosts hosts offsets

/-- The loop of `filterHosts` over the constraints, from the current set
`curSet` (nil before the first pair). -/
def filterLoop (b : subsetLoadBalancerBuilder) (kvs : SubsetMetadata) (curSet : Option Sparse) :
    Option (List Host) :=
  match kvs with
  | [] => selectHosts b curSet
  | (key, val) :: rest =>
    match mapGet b.indexer key with
    | none => some []
    | some valueMap =>
      match mapGet valueMap val with
      | none => some []
      | some set =>
        match curSet with
        | none => filterLoop b rest (some (Sparse.Copy set))
        | some cur => filterLoop b rest (some (Sparse.IntersectionWith cur set))

/-- The hosts `b.filterHosts(kvs)` returns. -/
def filterHosts (b : subsetLoadBalancerBuilder) (kvs : SubsetMetadata) : Option (List Host) :=
  let hosts := b.hostSet.Hosts
  if kvs.length = 0 then some hosts
  else filterLoop b kvs none

/-! ## The combination enumerator -/

/-- The values `range b.indexer[key]` visits: none when the key has no value
map. -/
def indexValues (ord : RangeOrder) (b : subsetLoadBalancerBuilder) (key : String) : List String :=
  match mapGet b.indexer key with
  | none => []
  | some valueMap => rangeKeys ord valueMap

/-- The orders of the `range` statements one `metadataCombinations` executes:
each call of `doMetadataCombination` executes the statement once, and the
calls differ in their argument `kvs`, so the call with the argument `kvs`
ranges in the order `ord kvs`. -/
abbrev CombinationOrder := SubsetMetadata → RangeOrder

/-- The combination order that visits every map as it is stored. -/
def CombinationOrder.stored : CombinationOrder := fun _ => RangeOrder.stored

/-- The combination order that visits every map in reverse. -/
def CombinationOrder.reversed : CombinationOrder := fun _ => RangeOrder.reversed

/-- A combination order that visits the same map in different orders: in
reverse in the first call and in the calls whose `kvs` starts with the value
`v2`, as stored in the others. -/
def CombinationOrder.mixed : CombinationOrder := fun kvs =>
  match kvs with
  | [] => RangeOrder.reversed
  | kv :: _ => if kv.2 = "v2" then RangeOrder.reversed else RangeOrder.stored

/-- The recursion of `doMetadataCombination`, on the number `fuel` of keys
from `idx` on: with none left, `keys[idx]` is out of range. -/
def doMetadataCombinationAux (ord : CombinationOrder) (b : subsetLoadBalancerBuilder)
    (keys : List String) (fuel : Nat) (idx : Nat) (kvs : SubsetMetadata) :
    Option (List SubsetMetadata) :=
  match fuel with
  | 0 => none
  | fuel + 1 =>
    match keys[idx]? with
    | none => none
    | some key =>
      (indexValues (ord kvs) b key).foldlM (fun ret value =>
        let newkvs := kvs ++ [(key, value)]
        if idx + 1 < keys.length then
          match doMetadataCombinationAux ord b keys fuel (idx + 1) newkvs with
          | none => none
          | some more => some (ret ++ more)
        else some (ret ++ [newkvs])) []

/-- The combinations `b.doMetadataCombination(keys, idx, kvs)` returns. -/
def doMetadataCombination (ord : CombinationOrder) (b : subsetLoadBalancerBuilder)
    (keys : List String) (idx : Nat) (kvs : SubsetMetadata) : Option (List SubsetMetadata) :=
  doMetadataCombinationAux ord b keys (keys.length - idx) idx kvs

/-- The combinations `b.metadataCombinations(keys)` returns. -/
def metadataCombinations (ord : CombinationOrder) (b : subsetLoadBalancerBuilder)
    (keys : List String) : Option (List SubsetMetadata) :=
  doMetadataCombination ord b keys 0 []

/-! ## The subset tree -/

/-- A Go map that is written as well as read: `none` is the nil map, which
reads as empty and panics when written, `some` list a map that `make` or a
literal built. -/
abbrev NilMap (β : Type) := Option (GoMap β)

/-- The value of `m[k]` together with its `ok` flag; a nil map has no key. -/
def nilGet {β : Type} (m : NilMap β) (k : String) : Option β :=
  match m with
  | none => none
  | some l => mapGet l k

/-- The map after `m[k] = v`; `none` is the panic of an assignment to an entry
in a nil map. -/
def nilSet {β : Type} (m : NilMap β) (k : String) (v : β) : Option (NilMap β) :=
  match m with
  | none => none
  | some l => some (some (mapSet l k v))

/-- An entry of the subset tree (`LBSubsetEntryImpl`): its children, a map
from key to value to entry, its balancer and its host set, both nil until
`CreateLoadBalancer`.  The children map and the value maps in it may be nil. -/
inductive LBSubsetEntryImpl where
  | mk (children : Option (List (String × Option (List (String × LBSubsetEntryImpl)))))
      (lb : Option LoadBalancer) (hostSet : Option HostSet)

/-- A map from value to entry (`types.ValueSubsetMap`). -/
abbrev ValueSubsetMap := NilMap LBSubsetEntryImpl

/-- A map from key to value to entry (`types.LbSubsetMap`). -/
abbrev LbSubsetMap := NilMap ValueSubsetMap

/-- The children of an entry, `entry.Children()`. -/
def LBSubsetEntryImpl.Children (e : LBSubsetEntryImpl) : LbSubsetMap :=
  match e with
  | .mk children _ _ => children

/-- The balancer of an entry, nil when none was created. -/
def LBSubsetEntryImpl.lb (e : LBSubsetEntryImpl) : Option LoadBalancer :=
  match e with
  | .mk _ lb _ => lb

/-- The host set of an entry. -/
def LBSubsetEntryImpl.hostSet (e : LBSubsetEntryImpl) : Option HostSet :=
  match e with
  | .mk _ _ hostSet => hostSet

/-- The entry with its children map replaced. -/
def LBSubsetEntryImpl.withChildren (e : LBSubsetEntryImpl) (children : LbSubsetMap) :
    LBSubsetEntryImpl :=
  match e with
  | .mk _ lb hostSet => .mk children lb hostSet

/-- Modelled from the spec: the method `CreateLoadBalancer` of the entry is not
part of the sources at hand.  Over a host set with a host it constructs a
scoped balancer through the balancer construction contract and attaches it to
the entry.  Over zero hosts it attaches none and the entry stays as it is: an
entry holds a balancer only if at least one host matched, and a fallback
entry whose filter yields zero hosts exists but carries no balancer. -/
def LBSubsetEntryImpl.CreateLoadBalancer (e : LBSubsetEntryImpl) (info : ClusterInfo)
    (hosts : HostSet) : LBSubsetEntryImpl :=
  match e with
  | .mk children lb hostSet =>
    match hosts.Hosts with
    | [] => .mk children lb hostSet
    | _ :: _ => .mk children (some (NewLoadBalancer info hosts)) (some hosts)

/-- The entry `&LBSubsetEntryImpl{children: make(map[string]types.ValueSubsetMap)}`. -/
def newEntry : LBSubsetEntryImpl := .mk (some []) none none

/-- The tree after a write through a pointer to the entry under `name`,
`value` has made that entry `e`.  A tree without such an entry is left as it
is. -/
def putEntry (subsets : LbSubsetMap) (name value : String) (e : LBSubsetEntryImpl) :
    LbSubsetMap :=
  match subsets with
  | none => none
  | some m =>
    match mapGet m name with
    | some (some vsMap) => some (mapSet m name (some (mapSet vsMap value e)))
    | _ => some m

/-- Modelled from the spec: the tree walk of the lookup, which is not part of
the sources at hand.  It follows the path one pair at a time, through
`subsets[key][value]` and then the children of that entry, and yields the
entry at the end of the path, if the tree has one. -/
def walk (subsets : LbSubsetMap) (path : SubsetMetadata) : Option LBSubsetEntryImpl :=
  match path with
  | [] => none
  | (name, value) :: rest =>
    match nilGet subsets name with
    | none => none
    | some vsMap =>
      match nilGet vsMap value with
      | none => none
      | some e =>
        match rest with
        | [] => some e
        | _ :: _ => walk e.Children rest

/-- A write `f` through the pointer to the entry at `path`. -/
def updateEntry (f : LBSubsetEntryImpl → LBSubsetEntryImpl) (subsets : LbSubsetMap)
    (path : SubsetMetadata) : LbSubsetMap :=
  match path with
  | [] => subsets
  | (name, value) :: rest =>
    match nilGet subsets name with
    | none => subsets
    | some vsMap =>
      match nilGet vsMap value with
      | none => subsets
      | some e =>
        match rest with
        | [] => putEntry subsets name value (f e)
        | _ :: _ => putEntry subsets name value (e.withChildren (updateEntry f e.Children rest))

/-- The first half of `findOrCreateSubset`: the entry under `name`, `value`,
created when the tree has none, and the tree after that.  Creating it writes
`vsMap[value]`, or `subsets[name]` when the key is new, and panics when that
map is nil. -/
def findOrCreateLevel (subsets : LbSubsetMap) (name value : String) :
    Option (LbSubsetMap × LBSubsetEntryImpl) :=
  match nilGet subsets name with
  | some vsMap =>
    match nilGet vsMap value with
    | some lbEntry => some (subsets, lbEntry)
    | none =>
      match nilSet vsMap value newEntry with
      | none => none
      | some vsMap1 =>
        match nilSet subsets name vsMap1 with
        | none => none
        | some subsets1 => some (subsets1, newEntry)
  | none =>
    match nilSet subsets name (some [(value, newEntry)]) with
    | none => none
    | some subsets1 => some (subsets1, newEntry)

/-- The `uint32` a natural number converts to, and the result of `uint32`
arithmetic that has the number as its exact value. -/
def uint32 (n : Nat) : Nat := n % 4294967296

/-- The recursion of `findOrCreateSubset`, on the number `fuel` of nested
calls allowed.  The result is the tree after the call and the entry returned.
`idx` is a `uint32`: `idx++` wraps and the comparison is with
`uint32(len(kvs))`.  The recursive call writes into the children map of the
entry of this level, a map the tree shares: the result puts the written map
back under `name`, `value`. -/
def findOrCreateSubsetAux (fuel : Nat) (subsets : LbSubsetMap) (kvs : SubsetMetadata)
    (idx : Nat) : Option (LbSubsetMap × LBSubsetEntryImpl) :=
  match fuel with
  | 0 => none
  | fuel + 1 =>
    match kvs[idx]? with
    | none => none
    | some (name, value) =>
      match findOrCreateLevel subsets name value with
      | none => none
      | some level =>
        if uint32 (idx + 1) = uint32 kvs.length then some level
        else
          match findOrCreateSubsetAux fuel level.2.Children kvs (uint32 (idx + 1)) with
          | none => none
          | some (children, entry) =>
            some (putEntry level.1 name value (level.2.withChildren children), entry)

/-- The tree after `b.findOrCreateSubset(subsets, kvs, idx)` and the entry it
returns, with `len(kvs) - idx` nested calls allowed: with `idx` out of range
that is none, and `kvs[idx]` panics. -/
def findOrCreateSubset (subsets : LbSubsetMap) (kvs : SubsetMetadata) (idx : Nat) :
    Option (LbSubsetMap × LBSubsetEntryImpl) :=
  findOrCreateSubsetAux (kvs.length - idx) subsets kvs idx

/-- The body of the inner loop of `createSubsets` for one combination, from
the tree and the subset count so far.  `entry.CreateLoadBalancer` writes
through the pointer `findOrCreateSubset` returned, to the entry at the path
`kvs` (for `len(kvs) < 2^32`). -/
def createSubsetsStep (b : subsetLoadBalancerBuilder) (st : LbSubsetMap × Nat)
    (kvs : SubsetMetadata) : Option (LbSubsetMap × Nat) :=
  match findOrCreateSubset st.1 kvs 0 with
  | none => none
  | some (subSets, _) =>
    match filterHosts b kvs with
    | none => none
    | some hosts =>
      if hosts.length > 0 then
        some (updateEntry (fun entry => entry.CreateLoadBalancer b.info ⟨hosts⟩) subSets kvs,
          st.2 + 1)
      else some (subSets, st.2)

/-- The body of the outer loop of `createSubsets` for one key-group, its
`metadataCombinations` ranging in the combination order `ord`. -/
def createSubsetsGroup (ord : CombinationOrder) (b : subsetLoadBalancerBuilder)
    (st : LbSubsetMap × Nat) (subSetKey : List String) : Option (LbSubsetMap × Nat) :=
  match metadataCombinations ord b subSetKey with
  | none => none
  | some combos => combos.foldlM (createSubsetsStep b) st

/-- The outer loop of `createSubsets` from its iteration `i` on, over the
key-groups left: iteration `i` ranges in the combination order `ord i`. -/
def createSubsetsLoop (ord : Nat → CombinationOrder) (b : subsetLoadBalancerBuilder)
    (i : Nat) (subSetKeys : List (List String)) (st : LbSubsetMap × Nat) :
    Option (LbSubsetMap × Nat) :=
  match subSetKeys with
  | [] => some st
  | subSetKey :: rest =>
    match createSubsetsGroup (ord i) b st subSetKey with
    | none => none
    | some st1 => createSubsetsLoop ord b (i + 1) rest st1

/-- The tree `b.createSubsets()` returns and the value of `b.subSetCount`
after it; the tree starts as `make(types.LbSubsetMap)`. -/
def createSubsets (ord : Nat → CombinationOrder) (b : subsetLoadBalancerBuilder) :
    Option (LbSubsetMap × Nat) :=
  createSubsetsLoop ord b 0 b.info.LbSubsetInfo.SubsetKeys (some [], b.subSetCount)

/-! ## The fallback resolver and `Build` -/

/-- The entry `b.createFallbackSubset(fullLb)` returns: the inner `none` is the
nil entry.  The entries it makes have the children map nil. -/
def createFallbackSubset (b : subsetLoadBalancerBuilder) (fullLb : LoadBalancer) :
    Option (Option LBSubsetEntryImpl) :=
  match b.info.LbSubsetInfo.FallbackPolicy with
  | .NoFallBack => some none
  | .AnyEndPoint => some (some (.mk none (some fullLb) (some b.hostSet)))
  | .DefaultSubset =>
    let subset : LBSubsetEntryImpl := .mk none none none
    match filterHosts b b.info.LbSubsetInfo.DefaultSubset with
    | none => none
    | some hosts => some (some (subset.CreateLoadBalancer b.info ⟨hosts⟩))

/-- The published balancer (`subsetLoadBalancer`); `LBSubsetsCreated` is the
value passed to `stats.LBSubsetsCreated.Update`. -/
structure subsetLoadBalancer where
  lbType : String
  LBSubsetsCreated : Nat
  hostSet : HostSet
  fullLb : LoadBalancer
  fallbackSubset : Option LBSubsetEntryImpl
  subSets : LbSubsetMap

/-- The balancer `b.Build()` returns, the iterations of `createSubsets`
ranging in the combination orders `ord`. -/
def Build (ord : Nat → CombinationOrder) (b : subsetLoadBalancerBuilder) :
    Option subsetLoadBalancer :=
  match filterHosts b [] with
  | none => none
  | some all =>
    let fullLb := NewLoadBalancer b.info ⟨all⟩
    match createFallbackSubset b fullLb with
    | none => none
    | some fallbackSubset =>
      match createSubsets ord b with
      | none => none
      | some (subsets, subSetCount) =>
        some { lbType := b.info.LbType, LBSubsetsCreated := subSetCount, hostSet := b.hostSet,
               fullLb := fullLb, fallbackSubset := fallbackSubset, subSets := subsets }

/-- The orders of the `range` statements of one build: that of the range in
`subsetMergeKeys`, and for every iteration of the outer loop of
`createSubsets` the combination order of its `metadataCombinations`. -/
structure BuildOrder where
  mergeKeys : RangeOrder
  combinations : Nat → CombinationOrder

/-- The build order that visits every map as it is stored. -/
def BuildOrder.stored : BuildOrder := ⟨RangeOrder.stored, fun _ => CombinationOrder.stored⟩

/-- The build order that visits every map in reverse. -/
def BuildOrder.reversed : BuildOrder := ⟨RangeOrder.reversed, fun _ => CombinationOrder.reversed⟩

/-- A build order that visits the same map in different orders: as stored in
the first iteration of `createSubsets`, mixed in the second, in reverse
after. -/
def BuildOrder.mixed : BuildOrder :=
  ⟨RangeOrder.reversed, fun i =>
    match i with
    | 0 => CombinationOrder.stored
    | 1 => CombinationOrder.mixed
    | _ => CombinationOrder.reversed⟩

/-- The balancer `NewSubsetLoadBalancerPreIndex(info, hostSet)` returns. -/
def NewSubsetLoadBalancerPreIndex (ord : BuildOrder) (info : ClusterInfo) (hostSet : HostSet) :
    Option subsetLoadBalancer :=
  Build ord.combinations (newSubsetLoadBalancerBuilder ord.mergeKeys info hostSet)

/-! ## Definitions for the statements -/

/-- Whether the host at ordinal `i` satisfies `p`; false when there is no
such host. -/
def hostAt (hosts : List Host) (p : Host → Bool) (i : Nat) : Bool :=
  match hosts[i]? with
  | none => false
  | some h => p h

/-- The ordinals, ascending, of the hosts that satisfy `p`. -/
def ordinalsOf (hosts : List Host) (p : Host → Bool) : List Nat :=
  (List.range hosts.length).filter (hostAt hosts p)

/-- Whether the metadata of the host has the key with that value. -/
def hasPair (key value : String) (h : Host) : Bool :=
  decide (mapGet h.Metadata key = some value)

/-- Whether the host carries every pair of the constraint list. -/
def hostMatches (kvs : SubsetMetadata) (h : Host) : Bool :=
  kvs.all (fun kv => hasPair kv.1 kv.2 h)

/-- The keys of the index: those `subsetMergeKeys` collects from the
configuration. -/
def indexedKeys (ord : RangeOrder) (info : ClusterInfo) : List String :=
  subsetMergeKeys ord info.LbSubsetInfo.SubsetKeys info.LbSubsetInfo.DefaultSubset

/-- The combinations that extend `kvs` by one pair per key of `keys`, the
values under a key in the order of the range that the call with that `kvs`
executes. -/
def expand (ord : CombinationOrder) (b : subsetLoadBalancerBuilder) (keys : List String)
    (kvs : SubsetMetadata) : List SubsetMetadata :=
  match keys with
  | [] => [kvs]
  | key :: rest =>
    (indexValues (ord kvs) b key).flatMap
      (fun value => expand ord b rest (kvs ++ [(key, value)]))

/-- Whether the index has the value under the key. -/
def valuePresent (b : subsetLoadBalancerBuilder) (key value : String) : Bool :=
  match mapGet b.indexer key with
  | none => false
  | some valueMap => (mapGet valueMap value).isSome

/-- The number of distinct values the index has under the key. -/
def valueCount (b : subsetLoadBalancerBuilder) (key : String) : Nat :=
  match mapGet b.indexer key with
  | none => 0
  | some valueMap => (mapKeys valueMap).length

/-- A combination of the key-group `keys`: the keys of the group, in their
order, each paired with a value the index has under it. -/
def isCombination (b : subsetLoadBalancerBuilder) (keys : List String)
    (kvs : SubsetMetadata) : Prop :=
  kvs.map Prod.fst = keys ∧ ∀ kv ∈ kvs, valuePresent b kv.1 kv.2 = true

/-- The entry `subsets[name][value]`, if the tree has it. -/
def entryAt (subsets : LbSubsetMap) (name value : String) : Option LBSubsetEntryImpl :=
  match nilGet subsets name with
  | none => none
  | some vsMap => nilGet vsMap value

/-- The walk from an entry down a path: the entry itself for the empty path. -/
def below (e : LBSubsetEntryImpl) (path : SubsetMetadata) : Option LBSubsetEntryImpl :=
  match path with
  | [] => some e
  | _ :: _ => walk e.Children path

/-- The balancer of an entry that may be missing. -/
def lbOf (entry : Option LBSubsetEntryImpl) : Option LoadBalancer :=
  match entry with
  | none => none
  | some e => e.lb

/-- The balancer of the entry at the path: none when the tree has no entry
there or the entry has no balancer. -/
def balancerAt (subsets : LbSubsetMap) (path : SubsetMetadata) : Option LoadBalancer :=
  lbOf (walk subsets path)

/-- A tree whose maps are not nil down to depth `d`: the map itself, the value
maps in it, and so the children of its entries. -/
def madeTo (d : Nat) (subsets : LbSubsetMap) : Prop :=
  match d with
  | 0 => True
  | d + 1 =>
    subsets ≠ none ∧ (∀ name, nilGet subsets name ≠ some none) ∧
      ∀ name value e, entryAt subsets name value = some e → madeTo d e.Children

/-- A tree without a nil map, as `make` and `findOrCreateSubset` build them. -/
def made (subsets : LbSubsetMap) : Prop := ∀ d, madeTo d subsets

/-- The number of combinations of a key-group whose filtered host set is not
empty, the combinations enumerated in the combination order `ord`. -/
def leafCount (ord : CombinationOrder) (b : subsetLoadBalancerBuilder) (keys : List String) :
    Nat :=
  match metadataCombinations ord b keys with
  | none => 0
  | some combos =>
    (combos.filter (fun kvs =>
      match filterHosts b kvs with
      | some (_ :: _) => true
      | _ => false)).length

/-- The sum over the key-groups of their `leafCount`, the group of iteration
`i` enumerated in the combination order `ord i`. -/
def leafCountFrom (ord : Nat → CombinationOrder) (b : subsetLoadBalancerBuilder) (i : Nat)
    (subSetKeys : List (List String)) : Nat :=
  match subSetKeys with
  | [] => 0
  | subSetKey :: rest => leafCount (ord i) b subSetKey + leafCountFrom ord b (i + 1) rest

/-! ## Concrete inputs -/

/-- The host set of the end-to-end scenario: `h0{version=v1,region=a}`,
`h1{version=v1,region=b}`, `h2{version=v2,region=a}`. -/
def scenarioHosts : HostSet :=
  ⟨[⟨"h0", [("version", "v1"), ("region", "a")]⟩,
    ⟨"h1", [("version", "v1"), ("region", "b")]⟩,
    ⟨"h2", [("version", "v2"), ("region", "a")]⟩]⟩

/-- The configuration of the end-to-end scenario: key-groups `[version]` and
`[version, region]`, fallback to any endpoint. -/
def scenarioInfo : ClusterInfo :=
  ⟨"LB_ROUNDROBIN", ⟨[["version"], ["version", "region"]], [], .AnyEndPoint⟩⟩

/-- The builder of the end-to-end scenario. -/
def scenarioBuilder : subsetLoadBalancerBuilder :=
  newSubsetLoadBalancerBuilder RangeOrder.stored scenarioInfo scenarioHosts

/-- A builder with the indexer of the comment in `metadataCombinations`:
`k1: {v1, v2}`, `k2: {v3}`, `k3: {v4, v5}`, `k4: {v6, v7, v8}`. -/
def commentBuilder : subsetLoadBalancerBuilder :=
  { info := ⟨"LB_ROUNDROBIN", ⟨[["k1", "k2", "k3"]], [], .NoFallBack⟩⟩,
    indexer := [("k1", [("v1", [0]), ("v2", [1])]), ("k2", [("v3", [0, 1])]),
      ("k3", [("v4", [0]), ("v5", [1])]), ("k4", [("v6", [0]), ("v7", [1]), ("v8", [2])])],
    hostSet := ⟨[]⟩,
    subSetCount := 0 }

/-- A host set with one host, which carries `zone=x`. -/
def zoneHosts : HostSet := ⟨[⟨"h0", [("zone", "x")]⟩]⟩

/-- A configuration whose only key-group is `[version]`. -/
def versionInfo : ClusterInfo :=
  ⟨"LB_ROUNDROBIN", ⟨[["version"]], [], .NoFallBack⟩⟩

/-- The configuration of the scenario with the default-subset fallback, the
default subset being `version=v9`, which no host carries. -/
def defaultSubsetInfo : ClusterInfo :=
  ⟨"LB_ROUNDROBIN", ⟨[["version"], ["version", "region"]], [("version", "v9")],
    .DefaultSubset⟩⟩

/-- The configuration of the scenario with the default-subset fallback, the
default subset being `version=v1`. -/
def defaultV1Info : ClusterInfo :=
  ⟨"LB_ROUNDROBIN", ⟨[["version"], ["version", "region"]], [("version", "v1")],
    .DefaultSubset⟩⟩

/-- A configuration with one key-group, which has no key. -/
def emptyGroupInfo : ClusterInfo :=
  ⟨"LB_ROUNDROBIN", ⟨[[]], [], .NoFallBack⟩⟩

/-- A configuration in which the key-group `[version]` occurs twice. -/
def twiceVersionInfo : ClusterInfo :=
  ⟨"LB_ROUNDROBIN", ⟨[["version"], ["version"]], [], .NoFallBack⟩⟩

/-- The configuration of the scenario with the default-subset fallback and an
empty default subset. -/
def defaultAllInfo : ClusterInfo :=
  ⟨"LB_ROUNDROBIN", ⟨[["version"], ["version", "region"]], [], .DefaultSubset⟩⟩

/-! # Theorems -/

/-! ## Go maps: reading after writing, and the key set -/

theorem mapGet_mapSet {β : Type} (m : GoMap β) (k k2 : String) (v : β) :
    mapGet (mapSet m k v) k2 = if k = k2 then some v else mapGet m k2 := by
  induction m with
  | nil =>
    by_cases h : k = k2 <;> simp [mapSet, mapGet, h]
  | cons p rest ih =>
    obtain ⟨k1, v1⟩ := p
    by_cases h1 : k1 = k
    · subst h1
      by_cases h : k1 = k2 <;> simp [mapSet, mapGet, h]
    · by_cases h : k = k2
      · subst h
        simp [mapSet, mapGet, h1, ih]
      · by_cases h3 : k1 = k2
        · subst h3
          simp [mapSet, mapGet, h1, h]
        · simp [mapSet, mapGet, h1, h, h3, ih]

theorem mapGet_mapSet_self {β : Type} (m : GoMap β) (k : String) (v : β) :
    mapGet (mapSet m k v) k = some v := by
  simp [mapGet_mapSet]

theorem mapGet_mapSet_ne {β : Type} (m : GoMap β) (k k2 : String) (v : β) (h : k ≠ k2) :
    mapGet (mapSet m k v) k2 = mapGet m k2 := by
  simp [mapGet_mapSet, h]

theorem mapGet_isSome_iff {β : Type} (m : GoMap β) (k : String) :
    (mapGet m k).isSome ↔ k ∈ m.map Prod.fst := by
  induction m with
  | nil => simp [mapGet]
  | cons p rest ih =>
    obtain ⟨k1, v1⟩ := p
    by_cases h : k1 = k
    · simp [mapGet, h]
    · have h2 : ¬ k = k1 := fun e => h e.symm
      simp [mapGet, h, h2, ih]

theorem mem_mapKeys {β : Type} (m : GoMap β) (k : String) :
    k ∈ mapKeys m ↔ (mapGet m k).isSome := by
  rw [mapGet_isSome_iff]
  simp [mapKeys]

theorem nodup_mapKeys {β : Type} (m : GoMap β) : (mapKeys m).Nodup :=
  List.nodup_dedup _

theorem mem_rangeKeys {β : Type} (ord : RangeOrder) (m : GoMap β) (k : String) :
    k ∈ rangeKeys ord m ↔ (mapGet m k).isSome := by
  rw [← mem_mapKeys]
  exact (ord.visit_perm (mapKeys m)).mem_iff

theorem nodup_rangeKeys {β : Type} (ord : RangeOrder) (m : GoMap β) :
    (rangeKeys ord m).Nodup :=
  (ord.visit_perm (mapKeys m)).nodup_iff.mpr (nodup_mapKeys m)

theorem length_rangeKeys {β : Type} (ord : RangeOrder) (m : GoMap β) :
    (rangeKeys ord m).length = (mapKeys m).length :=
  (ord.visit_perm (mapKeys m)).length_eq

/-- Writing `f key` under every key of a list: what a later read finds. -/
theorem mapGet_foldl_mapSet {β : Type} (f : String → β) (keys : List String) (m : GoMap β)
    (k : String) :
    mapGet (keys.foldl (fun acc key => mapSet acc key (f key)) m) k =
      if k ∈ keys then some (f k) else mapGet m k := by
  induction keys generalizing m with
  | nil => simp
  | cons key rest ih =>
    rw [List.foldl_cons, ih]
    by_cases h : k ∈ rest
    · simp [h]
    · by_cases h2 : key = k
      · subst h2
        simp [h, mapGet_mapSet]
      · have h3 : ¬ k = key := fun e => h2 e.symm
        simp [h, h2, h3, mapGet_mapSet]

/-! ## The key set of the index -/

theorem mergeGroup_isSome (keys : List String) (m : GoMap Unit) (k : String) :
    (mapGet (mergeGroup m keys) k).isSome ↔ k ∈ keys ∨ (mapGet m k).isSome := by
  unfold mergeGroup
  rw [mapGet_foldl_mapSet (fun _ => ()) keys m k]
  by_cases h : k ∈ keys <;> simp [h]

theorem mergeGroups_isSome (groups : List (List String)) (m : GoMap Unit) (k : String) :
    (mapGet (groups.foldl mergeGroup m) k).isSome ↔
      (∃ g ∈ groups, k ∈ g) ∨ (mapGet m k).isSome := by
  induction groups generalizing m with
  | nil => simp
  | cons g rest ih =>
    rw [List.foldl_cons, ih, mergeGroup_isSome]
    simp only [List.mem_cons, exists_eq_or_imp]
    constructor
    · rintro (h | h | h)
      · exact Or.inl (Or.inr h)
      · exact Or.inl (Or.inl h)
      · exact Or.inr h
    · rintro ((h | h) | h)
      · exact Or.inr (Or.inl h)
      · exact Or.inl h
      · exact Or.inr (Or.inr h)

theorem mergePairs_isSome (pairs : SubsetMetadata) (m : GoMap Unit) (k : String) :
    (mapGet (pairs.foldl (fun acc pair => mapSet acc pair.1 ()) m) k).isSome ↔
      k ∈ pairs.map Prod.fst ∨ (mapGet m k).isSome := by
  induction pairs generalizing m with
  | nil => simp
  | cons p rest ih =>
    rw [List.foldl_cons, ih, mapGet_mapSet]
    by_cases h : p.1 = k
    · simp [h]
    · have h2 : ¬ k = p.1 := fun e => h e.symm
      simp [h, h2]

/-- The keys `subsetMergeKeys` returns are the keys of the key-groups and of
the default subset. -/
theorem mem_subsetMergeKeys (ord : RangeOrder) (groups : List (List String))
    (dflt : SubsetMetadata) (k : String) :
    k ∈ subsetMergeKeys ord groups dflt ↔ (∃ g ∈ groups, k ∈ g) ∨ k ∈ dflt.map Prod.fst := by
  unfold subsetMergeKeys
  simp only []
  rw [mem_rangeKeys, mergePairs_isSome, mergeGroups_isSome]
  simp only [mapGet, Option.isSome_none, Bool.false_eq_true, or_false]
  exact Or.comm

/-! ## The value map of one key -/

theorem Sparse.Insert_last (s : Sparse) (x : Nat) (h : ∀ y ∈ s, y < x) :
    Sparse.Insert s x = s ++ [x] := by
  induction s with
  | nil => rfl
  | cons y rest ih =>
    have hy : y < x := h y (List.mem_cons_self _ _)
    have h1 : ¬ x < y := Nat.not_lt.mpr (Nat.le_of_lt hy)
    have h2 : ¬ x = y := fun e => Nat.lt_irrefl _ (e ▸ hy)
    have h3 := ih (fun z hz => h z (List.mem_cons_of_mem _ hz))
    simp [Sparse.Insert, h1, h2, h3]

theorem hostAt_append_lt (hosts : List Host) (h : Host) (p : Host → Bool) (i : Nat)
    (hi : i < hosts.length) : hostAt (hosts ++ [h]) p i = hostAt hosts p i := by
  unfold hostAt
  rw [List.getElem?_append_left hi]

theorem hostAt_append_length (hosts : List Host) (h : Host) (p : Host → Bool) :
    hostAt (hosts ++ [h]) p hosts.length = p h := by
  unfold hostAt
  simp

theorem ordinalsOf_append (hosts : List Host) (h : Host) (p : Host → Bool) :
    ordinalsOf (hosts ++ [h]) p =
      ordinalsOf hosts p ++ (if p h then [hosts.length] else []) := by
  unfold ordinalsOf
  rw [List.length_append, List.length_singleton, List.range_succ, List.filter_append]
  congr 1
  · apply List.filter_congr
    intro i hi
    exact hostAt_append_lt hosts h p i (List.mem_range.mp hi)
  · simp [List.filter_cons, hostAt_append_length]

theorem mem_ordinalsOf (hosts : List Host) (p : Host → Bool) (i : Nat) :
    i ∈ ordinalsOf hosts p ↔ ∃ h, hosts[i]? = some h ∧ p h = true := by
  unfold ordinalsOf hostAt
  rw [List.mem_filter, List.mem_range]
  constructor
  · rintro ⟨hi, hp⟩
    rw [List.getElem?_eq_getElem hi] at hp
    exact ⟨hosts[i], List.getElem?_eq_getElem hi, hp⟩
  · rintro ⟨h, hh, hp⟩
    have hi : i < hosts.length := by
      by_contra hc
      rw [List.getElem?_eq_none (Nat.not_lt.mp hc)] at hh
      exact Option.noConfusion hh
    refine ⟨hi, ?_⟩
    rw [hh]
    exact hp

theorem ordinalsOf_lt (hosts : List Host) (p : Host → Bool) (i : Nat)
    (h : i ∈ ordinalsOf hosts p) : i < hosts.length := by
  unfold ordinalsOf at h
  exact List.mem_range.mp (List.mem_filter.mp h).1

theorem ordinalsOf_eq_nil_iff (hosts : List Host) (p : Host → Bool) :
    ordinalsOf hosts p = [] ↔ ∀ h ∈ hosts, p h = false := by
  constructor
  · intro he h hh
    obtain ⟨i, hi, hget⟩ := List.getElem_of_mem hh
    by_contra hp
    have hm : i ∈ ordinalsOf hosts p :=
      (mem_ordinalsOf hosts p i).mpr
        ⟨h, by rw [List.getElem?_eq_getElem hi, hget], by simpa using hp⟩
    rw [he] at hm
    exact List.not_mem_nil _ hm
  · intro hall
    apply List.eq_nil_iff_forall_not_mem.mpr
    intro i hi
    obtain ⟨h, hh, hp⟩ := (mem_ordinalsOf hosts p i).mp hi
    have := hall h (List.getElem?_mem hh)
    rw [this] at hp
    exact Bool.noConfusion hp

theorem indexKey_append (hosts : List Host) (h : Host) (key : String) :
    indexKey (hosts ++ [h]) key = indexHost key (indexKey hosts key) (hosts.length, h) := by
  unfold indexKey
  simp [List.enum, List.enumFrom_append, List.foldl_append]

/-- The value map `initIndex` builds for a key binds a value to the ordinals
of the hosts that carry it, and binds no value that no host carries. -/
theorem mapGet_indexKey (hosts : List Host) (key value : String) :
    mapGet (indexKey hosts key) value =
      if ordinalsOf hosts (hasPair key value) = [] then none
      else some (ordinalsOf hosts (hasPair key value)) := by
  induction hosts using List.reverseRecOn generalizing value with
  | nil => simp [indexKey, ordinalsOf, mapGet]
  | append_singleton hosts h ih =>
    rw [indexKey_append, ordinalsOf_append]
    unfold indexHost
    simp only []
    cases hm : mapGet h.Metadata key with
    | none =>
      have hp : hasPair key value h = false := by simp [hasPair, hm]
      simp [hp, ih]
    | some v0 =>
      dsimp only
      have ih0 := ih v0
      by_cases hv : v0 = value
      · subst hv
        have hp : hasPair key v0 h = true := by simp [hasPair, hm]
        by_cases he : ordinalsOf hosts (hasPair key v0) = []
        · rw [he] at ih0 ⊢
          simp only [if_true] at ih0
          rw [ih0]
          simp [hp, mapGet_mapSet, Sparse.Insert]
        · rw [if_neg he] at ih0
          rw [ih0]
          simp only [hp, if_true, mapGet_mapSet]
          rw [Sparse.Insert_last _ _ (fun y hy => ordinalsOf_lt hosts _ y hy)]
          simp
      · have hp : hasPair key value h = false := by
          simp only [hasPair, hm, decide_eq_false_iff_not]
          intro e
          exact hv (Option.some.inj e)
        cases hg : mapGet (indexKey hosts key) v0 with
        | none => simp [hp, mapGet_mapSet, hv, ih]
        | some s => simp [hp, mapGet_mapSet, hv, ih]

/-! ## Reading the selected hosts -/

theorem readHosts_append (hosts : List Host) (xs ys : List Nat) (rx ry : List Host)
    (hx : readHosts hosts xs = some rx) (hy : readHosts hosts ys = some ry) :
    readHosts hosts (xs ++ ys) = some (rx ++ ry) := by
  induction xs generalizing rx with
  | nil =>
    simp only [readHosts, Option.some.injEq] at hx
    subst hx
    simpa using hy
  | cons n rest ih =>
    simp only [List.cons_append, readHosts] at hx ⊢
    cases hn : hosts[n]? with
    | none => simp [hn] at hx
    | some h =>
      simp only [hn] at hx ⊢
      cases hr : readHosts hosts rest with
      | none => simp [hr] at hx
      | some r =>
        simp only [hr, Option.map_some', Option.some.injEq] at hx
        subst hx
        simp [ih r hr]

theorem readHosts_more (hosts : List Host) (h : Host) (xs : List Nat) (rx : List Host)
    (hx : readHosts hosts xs = some rx) : readHosts (hosts ++ [h]) xs = some rx := by
  induction xs generalizing rx with
  | nil => simpa [readHosts] using hx
  | cons n rest ih =>
    simp only [readHosts] at hx ⊢
    cases hn : hosts[n]? with
    | none => simp [hn] at hx
    | some h1 =>
      have hlt : n < hosts.length := by
        by_contra hc
        rw [List.getElem?_eq_none (Nat.not_lt.mp hc)] at hn
        exact Option.noConfusion hn
      rw [List.getElem?_append_left hlt, hn]
      simp only [hn] at hx ⊢
      cases hr : readHosts hosts rest with
      | none => simp [hr] at hx
      | some r =>
        simp only [hr, Option.map_some', Option.some.injEq] at hx
        subst hx
        simp [ih r hr]

/-- Reading the hosts at the ordinals of those that satisfy `p` gives the
hosts that satisfy `p`, in host order: no ordinal is out of range. -/
theorem readHosts_ordinalsOf (hosts : List Host) (p : Host → Bool) :
    readHosts hosts (ordinalsOf hosts p) = some (hosts.filter p) := by
  induction hosts using List.reverseRecOn with
  | nil => simp [ordinalsOf, readHosts]
  | append_singleton hosts h ih =>
    rw [ordinalsOf_append, List.filter_append]
    apply readHosts_append
    · exact readHosts_more hosts h _ _ ih
    · by_cases hp : p h = true
      · simp [hp, readHosts, List.filter_cons]
      · simp [hp, readHosts, List.filter_cons]

theorem intersection_ordinalsOf (hosts : List Host) (p q : Host → Bool) :
    Sparse.IntersectionWith (ordinalsOf hosts p) (ordinalsOf hosts q) =
      ordinalsOf hosts (fun h => p h && q h) := by
  unfold Sparse.IntersectionWith
  unfold ordinalsOf
  rw [List.filter_filter]
  apply List.filter_congr
  intro i hi
  have hlt := List.mem_range.mp hi
  have hq : decide (i ∈ List.filter (hostAt hosts q) (List.range hosts.length)) =
      hostAt hosts q i := by
    rw [Bool.eq_iff_iff]
    simp [List.mem_filter, hlt]
  simp only [hq]
  unfold hostAt
  rw [List.getElem?_eq_getElem hlt]
  simp [Bool.and_comm]

/-! ## The host filter on the index of the builder -/

theorem mem_indexedKeys (ord : RangeOrder) (info : ClusterInfo) (k : String) :
    k ∈ indexedKeys ord info ↔
      (∃ g ∈ info.LbSubsetInfo.SubsetKeys, k ∈ g) ∨
        k ∈ info.LbSubsetInfo.DefaultSubset.map Prod.fst :=
  mem_subsetMergeKeys ord _ _ k

theorem mapGet_initIndex (ord : RangeOrder) (info : ClusterInfo) (hs : HostSet) (k : String) :
    mapGet (initIndex ord info hs) k =
      if k ∈ indexedKeys ord info then some (indexKey hs.Hosts k) else none := by
  unfold initIndex indexedKeys
  simp only []
  rw [mapGet_foldl_mapSet (fun key => indexKey hs.Hosts key)]
  simp [mapGet]

theorem filterLoop_some (ord : RangeOrder) (info : ClusterInfo) (hs : HostSet)
    (kvs : SubsetMetadata) (p : Host → Bool)
    (hk : ∀ kv ∈ kvs, kv.1 ∈ indexedKeys ord info) :
    filterLoop (newSubsetLoadBalancerBuilder ord info hs) kvs (some (ordinalsOf hs.Hosts p)) =
      some (hs.Hosts.filter (fun h => p h && hostMatches kvs h)) := by
  induction kvs generalizing p with
  | nil =>
    simp only [filterLoop, selectHosts, Sparse.AppendTo, List.nil_append,
      newSubsetLoadBalancerBuilder]
    rw [readHosts_ordinalsOf]
    simp [hostMatches]
  | cons kv rest ih =>
    obtain ⟨key, val⟩ := kv
    have hkey : key ∈ indexedKeys ord info := hk (key, val) (List.mem_cons_self _ _)
    have hrest : ∀ kv ∈ rest, kv.1 ∈ indexedKeys ord info :=
      fun kv h => hk kv (List.mem_cons_of_mem _ h)
    have hidx : mapGet (newSubsetLoadBalancerBuilder ord info hs).indexer key =
        some (indexKey hs.Hosts key) := by
      simp [newSubsetLoadBalancerBuilder, mapGet_initIndex, hkey]
    unfold filterLoop
    rw [hidx]
    dsimp only
    rw [mapGet_indexKey]
    by_cases he : ordinalsOf hs.Hosts (hasPair key val) = []
    · rw [if_pos he]
      dsimp only
      have hnone := (ordinalsOf_eq_nil_iff _ _).mp he
      symm
      rw [Option.some.injEq, List.filter_eq_nil_iff]
      intro h hh
      simp [hostMatches, hnone h hh]
    · rw [if_neg he]
      dsimp only
      rw [intersection_ordinalsOf, ih _ hrest]
      congr 1
      apply List.filter_congr
      intro h _
      simp [hostMatches, Bool.and_assoc]

/-- On the builder made from a host set and a configuration, `filterHosts`
of constraints on indexed keys is the host sequence filtered by the
constraints. -/
theorem filterHosts_indexed (ord : RangeOrder) (info : ClusterInfo) (hs : HostSet)
    (kvs : SubsetMetadata) (hk : ∀ kv ∈ kvs, kv.1 ∈ indexedKeys ord info) :
    filterHosts (newSubsetLoadBalancerBuilder ord info hs) kvs =
      some (hs.Hosts.filter (hostMatches kvs)) := by
  cases kvs with
  | nil =>
    have hall : hostMatches [] = fun _ => true := by
      funext h
      simp [hostMatches]
    simp [filterHosts, hall, newSubsetLoadBalancerBuilder]
  | cons kv rest =>
    obtain ⟨key, val⟩ := kv
    have hkey : key ∈ indexedKeys ord info := hk (key, val) (List.mem_cons_self _ _)
    have hrest : ∀ kv ∈ rest, kv.1 ∈ indexedKeys ord info :=
      fun kv h => hk kv (List.mem_cons_of_mem _ h)
    have hidx : mapGet (newSubsetLoadBalancerBuilder ord info hs).indexer key =
        some (indexKey hs.Hosts key) := by
      simp [newSubsetLoadBalancerBuilder, mapGet_initIndex, hkey]
    simp only [filterHosts, List.length_cons, Nat.succ_ne_zero, if_false]
    unfold filterLoop
    rw [hidx]
    dsimp only
    rw [mapGet_indexKey]
    by_cases he : ordinalsOf hs.Hosts (hasPair key val) = []
    · rw [if_pos he]
      dsimp only
      have hnone := (ordinalsOf_eq_nil_iff _ _).mp he
      symm
      rw [Option.some.injEq, List.filter_eq_nil_iff]
      intro h hh
      simp [hostMatches, hnone h hh]
    · rw [if_neg he]
      dsimp only
      rw [Sparse.Copy, filterLoop_some ord info hs rest _ hrest]
      congr 1

/-! ## The combination enumerator -/

theorem mem_indexValues (ord : RangeOrder) (b : subsetLoadBalancerBuilder)
    (key value : String) :
    value ∈ indexValues ord b key ↔ valuePresent b key value := by
  unfold indexValues valuePresent
  cases hm : mapGet b.indexer key with
  | none => simp
  | some valueMap => simp only [mem_rangeKeys]

theorem nodup_indexValues (ord : RangeOrder) (b : subsetLoadBalancerBuilder) (key : String) :
    (indexValues ord b key).Nodup := by
  unfold indexValues
  cases hm : mapGet b.indexer key with
  | none => exact List.nodup_nil
  | some valueMap => exact nodup_rangeKeys ord valueMap

theorem length_indexValues (ord : RangeOrder) (b : subsetLoadBalancerBuilder) (key : String) :
    (indexValues ord b key).length = valueCount b key := by
  unfold indexValues valueCount
  cases hm : mapGet b.indexer key with
  | none => rfl
  | some valueMap => exact length_rangeKeys ord valueMap

theorem foldlM_append_some {α β : Type} (g : α → List β) (l : List α) (init : List β) :
    l.foldlM (fun ret a => (some (ret ++ g a) : Option (List β))) init =
      some (init ++ l.flatMap g) := by
  induction l generalizing init with
  | nil => simp
  | cons a rest ih =>
    rw [List.foldlM_cons]
    simp only [Option.bind_eq_bind, Option.some_bind, ih, List.flatMap_cons, List.append_assoc]

theorem doMetadataCombinationAux_eq (ord : CombinationOrder) (b : subsetLoadBalancerBuilder)
    (keys : List String) (fuel idx : Nat) (kvs : SubsetMetadata)
    (hfuel : fuel = keys.length - idx) (hidx : idx < keys.length) :
    doMetadataCombinationAux ord b keys fuel idx kvs =
      some (expand ord b (keys.drop idx) kvs) := by
  induction fuel generalizing idx kvs with
  | zero => omega
  | succ fuel ih =>
    unfold doMetadataCombinationAux
    rw [List.getElem?_eq_getElem hidx]
    dsimp only
    rw [List.drop_eq_getElem_cons hidx]
    have hstep : (fun (ret : List SubsetMetadata) (value : String) =>
        if idx + 1 < keys.length then
          match doMetadataCombinationAux ord b keys fuel (idx + 1)
              (kvs ++ [(keys[idx], value)]) with
          | none => none
          | some more => some (ret ++ more)
        else some (ret ++ [kvs ++ [(keys[idx], value)]])) =
        fun ret value =>
          some (ret ++ expand ord b (keys.drop (idx + 1)) (kvs ++ [(keys[idx], value)])) := by
      funext ret value
      by_cases hlt : idx + 1 < keys.length
      · rw [if_pos hlt, ih (idx + 1) _ (by omega) hlt]
      · rw [if_neg hlt, List.drop_of_length_le (by omega)]
        rfl
    rw [hstep, foldlM_append_some]
    simp [expand]

/-- For a non-empty key list `metadataCombinations` returns, and what it
returns is the expansion of the keys. -/
theorem metadataCombinations_eq (ord : CombinationOrder) (b : subsetLoadBalancerBuilder)
    (keys : List String) (hne : keys ≠ []) :
    metadataCombinations ord b keys = some (expand ord b keys []) := by
  unfold metadataCombinations doMetadataCombination
  rw [doMetadataCombinationAux_eq ord b keys _ 0 [] rfl (List.length_pos.mpr hne)]
  simp

theorem metadataCombinations_nil (ord : CombinationOrder) (b : subsetLoadBalancerBuilder) :
    metadataCombinations ord b [] = none := rfl

theorem mem_expand (ord : CombinationOrder) (b : subsetLoadBalancerBuilder) (keys : List String)
    (pre kvs : SubsetMetadata) :
    kvs ∈ expand ord b keys pre ↔
      ∃ t, kvs = pre ++ t ∧ t.map Prod.fst = keys ∧ ∀ kv ∈ t, valuePresent b kv.1 kv.2 := by
  induction keys generalizing pre with
  | nil =>
    simp only [expand, List.mem_singleton, List.map_eq_nil_iff]
    constructor
    · intro h
      exact ⟨[], by simp [h], rfl, by simp⟩
    · rintro ⟨t, h1, h2, _⟩
      subst h2
      simpa using h1
  | cons key rest ih =>
    simp only [expand, List.mem_flatMap, ih, mem_indexValues]
    constructor
    · rintro ⟨value, hv, t, h1, h2, h3⟩
      refine ⟨(key, value) :: t, by simp [h1], by simp [h2], ?_⟩
      intro kv hkv
      rcases List.mem_cons.mp hkv with h | h
      · subst h
        exact hv
      · exact h3 kv h
    · rintro ⟨t, h1, h2, h3⟩
      cases t with
      | nil => simp at h2
      | cons kv t =>
        obtain ⟨k, v⟩ := kv
        simp only [List.map_cons, List.cons.injEq] at h2
        obtain ⟨hk, h2⟩ := h2
        subst hk
        exact ⟨v, h3 (k, v) (List.mem_cons_self _ _), t, by simp [h1], h2,
          fun kv h => h3 kv (List.mem_cons_of_mem _ h)⟩

theorem expand_take (ord : CombinationOrder) (b : subsetLoadBalancerBuilder) (keys : List String)
    (pre kvs : SubsetMetadata) (h : kvs ∈ expand ord b keys pre) :
    kvs.take pre.length = pre := by
  obtain ⟨t, h1, _, _⟩ := (mem_expand ord b keys pre kvs).mp h
  subst h1
  simp

theorem nodup_expand (ord : CombinationOrder) (b : subsetLoadBalancerBuilder) (keys : List String)
    (pre : SubsetMetadata) : (expand ord b keys pre).Nodup := by
  induction keys generalizing pre with
  | nil => simp [expand]
  | cons key rest ih =>
    simp only [expand]
    rw [List.nodup_flatMap]
    refine ⟨fun value _ => ih _, ?_⟩
    refine List.Pairwise.imp ?_ (nodup_indexValues (ord pre) b key)
    intro v1 v2 hne
    intro kvs h1 h2
    have e1 := expand_take ord b rest _ kvs h1
    have e2 := expand_take ord b rest _ kvs h2
    simp only [List.length_append, List.length_singleton] at e1 e2
    rw [e1] at e2
    have := List.append_cancel_left e2
    simp only [List.cons.injEq, Prod.mk.injEq, true_and, and_true] at this
    exact hne this

theorem length_expand (ord : CombinationOrder) (b : subsetLoadBalancerBuilder) (keys : List String)
    (pre : SubsetMetadata) :
    (expand ord b keys pre).length = (keys.map (valueCount b)).prod := by
  induction keys generalizing pre with
  | nil => simp [expand]
  | cons key rest ih =>
    simp only [expand, List.length_flatMap, List.map_cons, List.prod_cons]
    have : (List.length ∘ fun value => expand ord b rest (pre ++ [(key, value)])) =
        fun _ => (rest.map (valueCount b)).prod := by
      funext value
      exact ih _
    rw [this, List.map_const', List.sum_replicate, length_indexValues]
    rfl

theorem mem_expand_nil (ord : CombinationOrder) (b : subsetLoadBalancerBuilder)
    (keys : List String) (kvs : SubsetMetadata) :
    kvs ∈ expand ord b keys [] ↔ isCombination b keys kvs := by
  rw [mem_expand]
  unfold isCombination
  constructor
  · rintro ⟨t, h1, h2, h3⟩
    rw [List.nil_append] at h1
    subst h1
    exact ⟨h2, h3⟩
  · rintro ⟨h2, h3⟩
    exact ⟨kvs, by simp, h2, h3⟩

theorem isCombination_ne_nil (b : subsetLoadBalancerBuilder) (keys : List String)
    (kvs : SubsetMetadata) (hne : keys ≠ []) (h : isCombination b keys kvs) : kvs ≠ [] := by
  intro hnil
  have h1 := h.1
  rw [hnil] at h1
  exact hne h1.symm

/-- The expansions of a key list under two combination orders are
permutations of each other. -/
theorem expand_perm (ord1 ord2 : CombinationOrder) (b : subsetLoadBalancerBuilder)
    (keys : List String) : (expand ord1 b keys []).Perm (expand ord2 b keys []) :=
  (List.perm_ext_iff_of_nodup (nodup_expand ord1 b keys []) (nodup_expand ord2 b keys [])).mpr
    (fun kvs => by rw [mem_expand_nil, mem_expand_nil])


theorem isCombination_length (b : subsetLoadBalancerBuilder) (keys : List String)
    (kvs : SubsetMetadata) (h : isCombination b keys kvs) : kvs.length = keys.length := by
  rw [← h.1, List.length_map]

/-! ## Walking the subset tree -/

theorem walk_nil (subsets : LbSubsetMap) : walk subsets [] = none := rfl

theorem walk_cons (subsets : LbSubsetMap) (name value : String) (rest : SubsetMetadata) :
    walk subsets ((name, value) :: rest) =
      match entryAt subsets name value with
      | none => none
      | some e => below e rest := by
  unfold entryAt
  cases h1 : nilGet subsets name with
  | none => simp [walk, h1]
  | some vsMap =>
    cases h2 : nilGet vsMap value with
    | none => simp [walk, h1, h2]
    | some e => cases rest <;> simp [walk, h1, h2, below]

theorem entryAt_empty (name value : String) : entryAt (some []) name value = none := rfl

theorem entryAt_none (name value : String) : entryAt none name value = none := rfl

theorem walk_empty (path : SubsetMetadata) : walk (some []) path = none := by
  cases path with
  | nil => rfl
  | cons kv rest =>
    obtain ⟨name, value⟩ := kv
    rw [walk_cons, entryAt_empty]

theorem walk_none (path : SubsetMetadata) : walk none path = none := by
  cases path with
  | nil => rfl
  | cons kv rest =>
    obtain ⟨name, value⟩ := kv
    rw [walk_cons, entryAt_none]

/-- A tree with an entry under `name`, `value` is a map that has a value map
under `name`, which has the entry. -/
theorem entryAt_some (subsets : LbSubsetMap) (name value : String) (e : LBSubsetEntryImpl)
    (h : entryAt subsets name value = some e) :
    ∃ m vs, subsets = some m ∧ mapGet m name = some (some vs) ∧ mapGet vs value = some e := by
  unfold entryAt at h
  cases subsets with
  | none => simp [nilGet] at h
  | some m =>
    simp only [nilGet] at h
    cases h1 : mapGet m name with
    | none => simp [h1] at h
    | some vsMap =>
      rw [h1] at h
      dsimp only at h
      cases vsMap with
      | none => simp [nilGet] at h
      | some vs => exact ⟨m, vs, rfl, h1, h⟩

theorem entryAt_putEntry (subsets : LbSubsetMap) (name value : String)
    (e : LBSubsetEntryImpl) (n2 v2 : String)
    (hex : (entryAt subsets name value).isSome = true) :
    entryAt (putEntry subsets name value e) n2 v2 =
      if name = n2 ∧ value = v2 then some e else entryAt subsets n2 v2 := by
  obtain ⟨e0, he0⟩ := Option.isSome_iff_exists.mp hex
  obtain ⟨m, vs, hm, hvs, _⟩ := entryAt_some subsets name value e0 he0
  subst hm
  simp only [putEntry, hvs, entryAt, nilGet]
  rw [mapGet_mapSet]
  by_cases hn : name = n2
  · subst hn
    by_cases hv : value = v2
    · simp [hv, mapGet_mapSet]
    · simp [hv, mapGet_mapSet, hvs]
  · simp [hn]

theorem walk_putEntry (subsets : LbSubsetMap) (name value : String) (e : LBSubsetEntryImpl)
    (n2 v2 : String) (rest : SubsetMetadata)
    (hex : (entryAt subsets name value).isSome = true) :
    walk (putEntry subsets name value e) ((n2, v2) :: rest) =
      if name = n2 ∧ value = v2 then below e rest else walk subsets ((n2, v2) :: rest) := by
  rw [walk_cons, entryAt_putEntry subsets name value e n2 v2 hex, walk_cons]
  by_cases h : name = n2 ∧ value = v2
  · simp [h]
  · simp [h]

theorem nilGet_putEntry_ne_nil (subsets : LbSubsetMap) (name value : String)
    (e : LBSubsetEntryImpl) (h : ∀ n, nilGet subsets n ≠ some none) :
    ∀ n, nilGet (putEntry subsets name value e) n ≠ some none := by
  intro n
  cases subsets with
  | none => simp [putEntry, nilGet]
  | some m =>
    simp only [putEntry]
    cases h1 : mapGet m name with
    | none => exact h n
    | some vsMap =>
      cases vsMap with
      | none => exact h n
      | some vs =>
        simp only [nilGet, mapGet_mapSet]
        by_cases hn : name = n
        · simp [hn]
        · simp only [hn, if_false]
          exact h n

theorem putEntry_ne_none (subsets : LbSubsetMap) (name value : String)
    (e : LBSubsetEntryImpl) (h : subsets ≠ none) : putEntry subsets name value e ≠ none := by
  cases subsets with
  | none => exact absurd rfl h
  | some m =>
    simp only [putEntry]
    cases h1 : mapGet m name with
    | none => simp
    | some vsMap =>
      cases vsMap with
      | none => simp
      | some vs => simp

theorem lb_withChildren (e : LBSubsetEntryImpl) (children : LbSubsetMap) :
    (e.withChildren children).lb = e.lb := by
  cases e
  rfl

theorem Children_withChildren (e : LBSubsetEntryImpl) (children : LbSubsetMap) :
    (e.withChildren children).Children = children := by
  cases e
  rfl

theorem Children_CreateLoadBalancer (e : LBSubsetEntryImpl) (info : ClusterInfo)
    (hosts : HostSet) : (e.CreateLoadBalancer info hosts).Children = e.Children := by
  cases e with
  | mk children lb hostSet =>
    unfold LBSubsetEntryImpl.CreateLoadBalancer
    cases hosts.Hosts <;> rfl

/-- Over a host set with a host `CreateLoadBalancer` attaches the balancer
over it. -/
theorem lb_CreateLoadBalancer (e : LBSubsetEntryImpl) (info : ClusterInfo)
    (hosts : HostSet) (hne : hosts.Hosts ≠ []) :
    (e.CreateLoadBalancer info hosts).lb = some (NewLoadBalancer info hosts) := by
  cases e with
  | mk children lb hostSet =>
    unfold LBSubsetEntryImpl.CreateLoadBalancer
    cases hh : hosts.Hosts with
    | nil => exact absurd hh hne
    | cons h rest => rfl

/-- Over zero hosts `CreateLoadBalancer` leaves the entry as it is. -/
theorem CreateLoadBalancer_empty (e : LBSubsetEntryImpl) (info : ClusterInfo)
    (hosts : HostSet) (he : hosts.Hosts = []) : e.CreateLoadBalancer info hosts = e := by
  cases e with
  | mk children lb hostSet =>
    unfold LBSubsetEntryImpl.CreateLoadBalancer
    rw [he]

theorem below_newEntry (path : SubsetMetadata) : lbOf (below newEntry path) = none := by
  cases path with
  | nil => rfl
  | cons kv rest =>
    simp only [below, newEntry, LBSubsetEntryImpl.Children]
    rw [walk_empty]
    rfl

/-! ## Trees without a nil map -/

theorem made_empty : made (some []) := by
  intro d
  cases d with
  | zero => trivial
  | succ d =>
    refine ⟨by simp, ?_, ?_⟩
    · intro name
      simp [nilGet, mapGet]
    · intro name value e h
      rw [entryAt_empty] at h
      exact Option.noConfusion h

theorem made_ne_none (subsets : LbSubsetMap) (h : made subsets) : subsets ≠ none := (h 1).1

theorem made_values (subsets : LbSubsetMap) (h : made subsets) :
    ∀ name, nilGet subsets name ≠ some none := (h 1).2.1

theorem made_children (subsets : LbSubsetMap) (h : made subsets) (name value : String)
    (e : LBSubsetEntryImpl) (he : entryAt subsets name value = some e) : made e.Children :=
  fun d => (h (d + 1)).2.2 name value e he

theorem made_newEntry : made newEntry.Children := made_empty

/-- Replacing an entry of a tree without nil map by an entry whose children
have no nil map gives such a tree. -/
theorem made_putEntry (subsets : LbSubsetMap) (name value : String) (e : LBSubsetEntryImpl)
    (h : made subsets) (hex : (entryAt subsets name value).isSome = true)
    (he : made e.Children) : made (putEntry subsets name value e) := by
  intro d
  cases d with
  | zero => trivial
  | succ d =>
    refine ⟨putEntry_ne_none _ _ _ _ (made_ne_none _ h),
      nilGet_putEntry_ne_nil _ _ _ _ (made_values _ h), ?_⟩
    intro n2 v2 e2 h2
    rw [entryAt_putEntry subsets name value e n2 v2 hex] at h2
    by_cases hh : name = n2 ∧ value = v2
    · rw [if_pos hh] at h2
      have := Option.some.inj h2
      subst this
      exact he d
    · rw [if_neg hh] at h2
      exact made_children subsets h n2 v2 e2 h2 d

/-! ## `findOrCreateSubset` -/

theorem uint32_of_lt (n : Nat) (h : n < 4294967296) : uint32 n = n :=
  Nat.mod_eq_of_lt h

theorem made_of (subsets : LbSubsetMap) (h1 : subsets ≠ none)
    (h2 : ∀ name, nilGet subsets name ≠ some none)
    (h3 : ∀ name value e, entryAt subsets name value = some e → made e.Children) :
    made subsets := by
  intro d
  cases d with
  | zero => trivial
  | succ d => exact ⟨h1, h2, fun name value e he => h3 name value e he d⟩

/-- On a tree without nil map the first half of `findOrCreateSubset` returns:
the entry is the one the tree has under `name`, `value`, or a new one; the
tree afterwards has it there, has the other entries as before and has no nil
map. -/
theorem findOrCreateLevel_spec (subsets : LbSubsetMap) (name value : String)
    (hm : made subsets) :
    ∃ s1 e0, findOrCreateLevel subsets name value = some (s1, e0) ∧
      e0 = (match entryAt subsets name value with
        | none => newEntry
        | some e => e) ∧
      entryAt s1 name value = some e0 ∧
      (∀ n2 v2, ¬ (name = n2 ∧ value = v2) → entryAt s1 n2 v2 = entryAt subsets n2 v2) ∧
      made s1 := by
  have hval := made_values subsets hm
  cases subsets with
  | none => exact absurd rfl (made_ne_none _ hm)
  | some m =>
    cases h1 : mapGet m name with
    | none =>
      have hent : entryAt (some m) name value = none := by
        simp [entryAt, nilGet, h1]
      have hnew : ∀ n2 v2, entryAt (some (mapSet m name (some [(value, newEntry)]))) n2 v2 =
          if name = n2 ∧ value = v2 then some newEntry else entryAt (some m) n2 v2 := by
        intro n2 v2
        simp only [entryAt, nilGet, mapGet_mapSet]
        by_cases hn : name = n2
        · subst hn
          by_cases hv : value = v2
          · simp [hv, mapGet]
          · simp [hv, mapGet, h1]
        · simp [hn]
      refine ⟨some (mapSet m name (some [(value, newEntry)])), newEntry, ?_, ?_, ?_, ?_, ?_⟩
      · simp [findOrCreateLevel, nilGet, nilSet, h1]
      · rw [hent]
      · rw [hnew]
        simp
      · intro n2 v2 hh
        rw [hnew, if_neg hh]
      · apply made_of
        · simp
        · intro n
          simp only [nilGet, mapGet_mapSet]
          by_cases hn : name = n
          · simp [hn]
          · simp only [hn, if_false]
            exact hval n
        · intro n2 v2 e he
          rw [hnew] at he
          by_cases hh : name = n2 ∧ value = v2
          · rw [if_pos hh] at he
            have := Option.some.inj he
            subst this
            exact made_newEntry
          · rw [if_neg hh] at he
            exact made_children _ hm n2 v2 e he
    | some vsMap =>
      cases vsMap with
      | none =>
        exfalso
        apply hval name
        simp [nilGet, h1]
      | some vs =>
        cases h2 : mapGet vs value with
        | some e =>
          have hent : entryAt (some m) name value = some e := by
            simp [entryAt, nilGet, h1, h2]
          refine ⟨some m, e, ?_, ?_, hent, fun _ _ _ => rfl, hm⟩
          · simp [findOrCreateLevel, nilGet, h1, h2]
          · rw [hent]
        | none =>
          have hent : entryAt (some m) name value = none := by
            simp [entryAt, nilGet, h1, h2]
          have hnew : ∀ n2 v2,
              entryAt (some (mapSet m name (some (mapSet vs value newEntry)))) n2 v2 =
                if name = n2 ∧ value = v2 then some newEntry else entryAt (some m) n2 v2 := by
            intro n2 v2
            simp only [entryAt, nilGet, mapGet_mapSet]
            by_cases hn : name = n2
            · subst hn
              by_cases hv : value = v2
              · simp [hv, mapGet_mapSet]
              · simp [hv, h1, mapGet_mapSet]
            · simp [hn]
          refine ⟨some (mapSet m name (some (mapSet vs value newEntry))), newEntry,
            ?_, ?_, ?_, ?_, ?_⟩
          · simp [findOrCreateLevel, nilGet, nilSet, h1, h2]
          · rw [hent]
          · rw [hnew]
            simp
          · intro n2 v2 hh
            rw [hnew, if_neg hh]
          · apply made_of
            · simp
            · intro n
              simp only [nilGet, mapGet_mapSet]
              by_cases hn : name = n
              · simp [hn]
              · simp only [hn, if_false]
                exact hval n
            · intro n2 v2 e he
              rw [hnew] at he
              by_cases hh : name = n2 ∧ value = v2
              · rw [if_pos hh] at he
                have := Option.some.inj he
                subst this
                exact made_newEntry
              · rw [if_neg hh] at he
                exact made_children _ hm n2 v2 e he

/-- The balancers and the entries below the entry of a level, against those of
the tree before. -/
theorem level_below (subsets : LbSubsetMap) (name value : String) (rest : SubsetMetadata) :
    lbOf (below (match entryAt subsets name value with
        | none => newEntry
        | some e => e) rest) = balancerAt subsets ((name, value) :: rest) ∧
    ((walk subsets ((name, value) :: rest)).isSome = true →
      (below (match entryAt subsets name value with
        | none => newEntry
        | some e => e) rest).isSome = true) ∧
    ((below (match entryAt subsets name value with
        | none => newEntry
        | some e => e) rest).isSome = true →
      (walk subsets ((name, value) :: rest)).isSome = true ∨ rest = []) := by
  unfold balancerAt
  rw [walk_cons]
  cases he : entryAt subsets name value with
  | none =>
    dsimp only
    refine ⟨?_, ?_, ?_⟩
    · rw [below_newEntry]
      rfl
    · intro h
      simp at h
    · intro h
      cases rest with
      | nil => exact Or.inr rfl
      | cons kv rest2 =>
        simp only [below, newEntry, LBSubsetEntryImpl.Children] at h
        rw [walk_empty] at h
        simp at h
  | some e => exact ⟨rfl, fun h => h, fun h => Or.inl h⟩

/-- On a tree without nil map and with `idx` in range `findOrCreateSubset`
returns.  The entry it returns is the one at the path `kvs[idx:]` of the tree
afterwards, and is the entry the tree had there, if it had one; no path loses
its entry, no balancer changes, the new entries are along the path, and the
tree afterwards has no nil map. -/
theorem findOrCreateSubsetAux_spec (kvs : SubsetMetadata) (fuel idx : Nat)
    (subsets : LbSubsetMap) (hfuel : kvs.length - idx ≤ fuel) (hidx : idx < kvs.length)
    (hlen : kvs.length < 4294967296) (hm : made subsets) :
    ∃ after entry, findOrCreateSubsetAux fuel subsets kvs idx = some (after, entry) ∧
      walk after (kvs.drop idx) = some entry ∧
      (∀ e, walk subsets (kvs.drop idx) = some e → entry = e) ∧
      (∀ q, balancerAt after q = balancerAt subsets q) ∧
      (∀ q, (walk subsets q).isSome = true → (walk after q).isSome = true) ∧
      (∀ q, (walk after q).isSome = true →
        (walk subsets q).isSome = true ∨ ∃ d, 1 ≤ d ∧ q = (kvs.drop idx).take d) ∧
      made after := by
  induction fuel generalizing idx subsets with
  | zero => omega
  | succ fuel ih =>
    unfold findOrCreateSubsetAux
    rw [uint32_of_lt (idx + 1) (by omega), uint32_of_lt kvs.length hlen,
      List.getElem?_eq_getElem hidx, List.drop_eq_getElem_cons hidx]
    generalize kvs[idx] = kv
    obtain ⟨name, value⟩ := kv
    dsimp only
    obtain ⟨s1, e0, hlevel, he0, hat, hother, hmade1⟩ :=
      findOrCreateLevel_spec subsets name value hm
    rw [hlevel]
    dsimp only
    have hwalk1 : ∀ n2 v2 rest, walk s1 ((n2, v2) :: rest) =
        if name = n2 ∧ value = v2 then below e0 rest else walk subsets ((n2, v2) :: rest) := by
      intro n2 v2 rest
      by_cases hh : name = n2 ∧ value = v2
      · obtain ⟨h1, h2⟩ := hh
        subst h1
        subst h2
        simp only [and_self, if_true]
        rw [walk_cons, hat]
      · rw [if_neg hh, walk_cons, walk_cons, hother n2 v2 hh]
    have hlb : ∀ rest, lbOf (below e0 rest) = balancerAt subsets ((name, value) :: rest) := by
      intro rest
      rw [he0]
      exact (level_below subsets name value rest).1
    have hsm : ∀ rest, (walk subsets ((name, value) :: rest)).isSome = true →
        (below e0 rest).isSome = true := by
      intro rest
      rw [he0]
      exact (level_below subsets name value rest).2.1
    have hconv : ∀ rest, (below e0 rest).isSome = true →
        (walk subsets ((name, value) :: rest)).isSome = true ∨ rest = [] := by
      intro rest
      rw [he0]
      exact (level_below subsets name value rest).2.2
    have hreuse : ∀ rest e, walk subsets ((name, value) :: rest) = some e →
        below e0 rest = some e := by
      intro rest e he
      rw [walk_cons] at he
      rw [he0]
      cases hent : entryAt subsets name value with
      | none => simp [hent] at he
      | some e1 =>
        rw [hent] at he
        exact he
    have hmade0 : made e0.Children := made_children s1 hmade1 name value e0 hat
    by_cases hlast : idx + 1 = kvs.length
    · rw [if_pos hlast, List.drop_of_length_le (by omega)]
      refine ⟨s1, e0, rfl, ?_, ?_, ?_, ?_, ?_, hmade1⟩
      · rw [hwalk1]
        simp [below]
      · intro e he
        have := hreuse [] e he
        simp only [below, Option.some.injEq] at this
        exact this
      · intro q
        cases q with
        | nil => rfl
        | cons kv rest =>
          obtain ⟨n2, v2⟩ := kv
          unfold balancerAt
          rw [hwalk1]
          by_cases hh : name = n2 ∧ value = v2
          · obtain ⟨h1, h2⟩ := hh
            subst h1
            subst h2
            simp only [and_self, if_true]
            exact hlb rest
          · rw [if_neg hh]
      · intro q hq
        cases q with
        | nil => simp [walk] at hq
        | cons kv rest =>
          obtain ⟨n2, v2⟩ := kv
          rw [hwalk1]
          by_cases hh : name = n2 ∧ value = v2
          · obtain ⟨h1, h2⟩ := hh
            subst h1
            subst h2
            simp only [and_self, if_true]
            exact hsm rest hq
          · rw [if_neg hh]
            exact hq
      · intro q hq
        cases q with
        | nil => simp [walk] at hq
        | cons kv rest =>
          obtain ⟨n2, v2⟩ := kv
          rw [hwalk1] at hq
          by_cases hh : name = n2 ∧ value = v2
          · obtain ⟨h1, h2⟩ := hh
            subst h1
            subst h2
            simp only [and_self, if_true] at hq
            rcases hconv rest hq with h3 | h3
            · exact Or.inl h3
            · subst h3
              exact Or.inr ⟨1, Nat.le_refl 1, rfl⟩
          · rw [if_neg hh] at hq
            exact Or.inl hq
    · rw [if_neg hlast]
      have hlt : idx + 1 < kvs.length := by omega
      obtain ⟨children, entry, hrec, hwalk, hsame, hbal, hsome, honly, hmadec⟩ :=
        ih (idx + 1) e0.Children (by omega) hlt hmade0
      rw [hrec]
      dsimp only
      have hne : kvs.drop (idx + 1) ≠ [] := by
        intro hnil
        have := congrArg List.length hnil
        simp only [List.length_drop, List.length_nil] at this
        omega
      have hex : (entryAt s1 name value).isSome = true := by
        rw [hat]
        rfl
      have hwalk2 : ∀ n2 v2 rest,
          walk (putEntry s1 name value (e0.withChildren children)) ((n2, v2) :: rest) =
            if name = n2 ∧ value = v2 then below (e0.withChildren children) rest
            else walk subsets ((n2, v2) :: rest) := by
        intro n2 v2 rest
        rw [walk_putEntry s1 name value _ n2 v2 rest hex]
        by_cases hh : name = n2 ∧ value = v2
        · rw [if_pos hh, if_pos hh]
        · rw [if_neg hh, if_neg hh, hwalk1, if_neg hh]
      refine ⟨putEntry s1 name value (e0.withChildren children), entry, rfl, ?_, ?_, ?_, ?_,
        ?_, ?_⟩
      · rw [hwalk2]
        simp only [and_self, if_true]
        cases hd : kvs.drop (idx + 1) with
        | nil => exact absurd hd hne
        | cons kv rest =>
          simp only [below, Children_withChildren]
          rw [← hd]
          exact hwalk
      · intro e he
        have h1 := hreuse _ e he
        cases hd : kvs.drop (idx + 1) with
        | nil => exact absurd hd hne
        | cons kv rest =>
          rw [hd] at h1 hsame
          simp only [below] at h1
          exact hsame e h1
      · intro q
        cases q with
        | nil => rfl
        | cons kv rest =>
          obtain ⟨n2, v2⟩ := kv
          unfold balancerAt
          rw [hwalk2]
          by_cases hh : name = n2 ∧ value = v2
          · obtain ⟨h1, h2⟩ := hh
            subst h1
            subst h2
            simp only [and_self, if_true]
            have hl := hlb rest
            unfold balancerAt at hl
            rw [← hl]
            cases rest with
            | nil => simp [below, lbOf, lb_withChildren]
            | cons kv2 rest2 =>
              simp only [below, Children_withChildren]
              exact hbal (kv2 :: rest2)
          · rw [if_neg hh]
      · intro q hq
        cases q with
        | nil => simp [walk] at hq
        | cons kv rest =>
          obtain ⟨n2, v2⟩ := kv
          rw [hwalk2]
          by_cases hh : name = n2 ∧ value = v2
          · obtain ⟨h1, h2⟩ := hh
            subst h1
            subst h2
            simp only [and_self, if_true]
            have hl := hsm rest hq
            cases rest with
            | nil => simp [below]
            | cons kv2 rest2 =>
              simp only [below, Children_withChildren]
              exact hsome (kv2 :: rest2) hl
          · rw [if_neg hh]
            exact hq
      · intro q hq
        cases q with
        | nil => simp [walk] at hq
        | cons kv rest =>
          obtain ⟨n2, v2⟩ := kv
          rw [hwalk2] at hq
          by_cases hh : name = n2 ∧ value = v2
          · obtain ⟨h1, h2⟩ := hh
            subst h1
            subst h2
            simp only [and_self, if_true] at hq
            cases rest with
            | nil => exact Or.inr ⟨1, Nat.le_refl 1, by simp⟩
            | cons kv2 rest2 =>
              simp only [below, Children_withChildren] at hq
              rcases honly (kv2 :: rest2) hq with h3 | ⟨d, hd, h3⟩
              · left
                have h4 : (below e0 (kv2 :: rest2)).isSome = true := h3
                rcases hconv (kv2 :: rest2) h4 with h5 | h5
                · exact h5
                · exact absurd h5 (List.cons_ne_nil _ _)
              · right
                exact ⟨d + 1, by omega, by rw [List.take_succ_cons, h3]⟩
          · rw [if_neg hh] at hq
            exact Or.inl hq
      · apply made_putEntry s1 name value _ hmade1 hex
        rw [Children_withChildren]
        exact hmadec

theorem findOrCreateSubset_spec (kvs : SubsetMetadata) (subsets : LbSubsetMap)
    (hne : kvs ≠ []) (hlen : kvs.length < 4294967296) (hm : made subsets) :
    ∃ after entry, findOrCreateSubset subsets kvs 0 = some (after, entry) ∧
      walk after kvs = some entry ∧
      (∀ q, balancerAt after q = balancerAt subsets q) ∧
      (∀ q, (walk subsets q).isSome = true → (walk after q).isSome = true) ∧
      (∀ q, (walk after q).isSome = true →
        (walk subsets q).isSome = true ∨ ∃ d, 1 ≤ d ∧ q = kvs.take d) ∧
      made after := by
  obtain ⟨after, entry, h1, h2, _, h4, h5, h6, h7⟩ :=
    findOrCreateSubsetAux_spec kvs (kvs.length - 0) 0 subsets (Nat.le_refl _)
      (List.length_pos.mpr hne) hlen hm
  simp only [List.drop_zero] at h2 h6
  exact ⟨after, entry, h1, h2, h4, h5, h6, h7⟩

/-- With fewer nested calls than `len(kvs) - idx` allowed the recursion of
`findOrCreateSubset` does not return. -/
theorem findOrCreateSubsetAux_short (kvs : SubsetMetadata) (fuel idx : Nat)
    (subsets : LbSubsetMap) (hidx : idx < kvs.length) (hlen : kvs.length < 4294967296)
    (hfuel : fuel < kvs.length - idx) :
    findOrCreateSubsetAux fuel subsets kvs idx = none := by
  induction fuel generalizing idx subsets with
  | zero => rfl
  | succ fuel ih =>
    unfold findOrCreateSubsetAux
    rw [uint32_of_lt (idx + 1) (by omega), uint32_of_lt kvs.length hlen,
      List.getElem?_eq_getElem hidx]
    generalize kvs[idx] = kv
    obtain ⟨name, value⟩ := kv
    dsimp only
    cases hlevel : findOrCreateLevel subsets name value with
    | none => rfl
    | some level =>
      dsimp only
      have hlast : ¬ idx + 1 = kvs.length := by omega
      rw [if_neg hlast, ih (idx + 1) level.2.Children (by omega) (by omega)]

/-! ## The depth of the recursion of `findOrCreateSubset` -/

/-- On a tree without nil map the recursion of `findOrCreateSubset` returns
exactly when `len(kvs) - idx` nested calls are allowed. -/
theorem findOrCreateSubsetAux_isSome (kvs : SubsetMetadata) (fuel idx : Nat)
    (subsets : LbSubsetMap) (hidx : idx < kvs.length) (hlen : kvs.length < 4294967296)
    (hm : made subsets) :
    (findOrCreateSubsetAux fuel subsets kvs idx).isSome = true ↔ kvs.length - idx ≤ fuel := by
  constructor
  · intro h
    by_contra hc
    rw [findOrCreateSubsetAux_short kvs fuel idx subsets hidx hlen (by omega)] at h
    exact Bool.noConfusion h
  · intro h
    obtain ⟨after, entry, hrun, _⟩ := findOrCreateSubsetAux_spec kvs fuel idx subsets h hidx hlen hm
    rw [hrun]
    rfl

/-- When `idx + 1` and `len(kvs)` are the same `uint32` the recursion of
`findOrCreateSubset` returns from the call at `idx`, here on the empty tree
and at `idx = 0`. -/
theorem findOrCreateSubsetAux_wrap (kvs : SubsetMetadata) (name value : String)
    (h0 : kvs[0]? = some (name, value)) (h1 : uint32 (0 + 1) = uint32 kvs.length) :
    (findOrCreateSubsetAux 1 (some []) kvs 0).isSome = true := by
  have h2 : findOrCreateLevel (some []) name value =
      some (some [(name, some [(value, newEntry)])], newEntry) := rfl
  unfold findOrCreateSubsetAux
  rw [h0]
  dsimp only
  rw [h2]
  dsimp only
  rw [if_pos h1]
  rfl

theorem getElem?_replicate_zero (n : Nat) (kv : String × String) (h : 0 < n) :
    (List.replicate n kv)[0]? = some kv := by
  rw [List.getElem?_replicate, if_pos h]

/-! ## Writing through the pointer to an entry -/

theorem updateEntry_cons (f : LBSubsetEntryImpl → LBSubsetEntryImpl) (subsets : LbSubsetMap)
    (name value : String) (rest : SubsetMetadata) :
    updateEntry f subsets ((name, value) :: rest) =
      match entryAt subsets name value with
      | none => subsets
      | some e =>
        putEntry subsets name value
          (match rest with
            | [] => f e
            | _ :: _ => e.withChildren (updateEntry f e.Children rest)) := by
  unfold entryAt
  cases h1 : nilGet subsets name with
  | none => simp [updateEntry, h1]
  | some vsMap =>
    cases h2 : nilGet vsMap value with
    | none => simp [updateEntry, h1, h2]
    | some e => cases rest <;> simp [updateEntry, h1, h2]

/-- A write through the pointer to the entry at `path` that keeps the children
changes that entry, keeps every entry of the tree, adds none, changes no
balancer at another path and makes no map nil. -/
theorem updateEntry_spec (f : LBSubsetEntryImpl → LBSubsetEntryImpl)
    (hf : ∀ e, (f e).Children = e.Children) (path : SubsetMetadata) (subsets : LbSubsetMap)
    (e : LBSubsetEntryImpl) (hw : walk subsets path = some e) (hm : made subsets) :
    walk (updateEntry f subsets path) path = some (f e) ∧
      (∀ q, q ≠ path → balancerAt (updateEntry f subsets path) q = balancerAt subsets q) ∧
      (∀ q, (walk subsets q).isSome = true →
        (walk (updateEntry f subsets path) q).isSome = true) ∧
      (∀ q, (walk (updateEntry f subsets path) q).isSome = true →
        (walk subsets q).isSome = true) ∧
      made (updateEntry f subsets path) := by
  induction path generalizing subsets e with
  | nil => simp [walk] at hw
  | cons kv rest ih =>
    obtain ⟨name, value⟩ := kv
    rw [walk_cons] at hw
    rw [updateEntry_cons]
    cases he : entryAt subsets name value with
    | none => simp [he] at hw
    | some e1 =>
      rw [he] at hw
      dsimp only at hw ⊢
      have hex : (entryAt subsets name value).isSome = true := by
        rw [he]
        rfl
      have hmade1 : made e1.Children := made_children subsets hm name value e1 he
      have hold : ∀ rest2, walk subsets ((name, value) :: rest2) = below e1 rest2 := by
        intro rest2
        rw [walk_cons, he]
      cases rest with
      | nil =>
        simp only [below, Option.some.injEq] at hw
        subst hw
        dsimp only
        have hnew : ∀ n2 v2 rest2,
            walk (putEntry subsets name value (f e1)) ((n2, v2) :: rest2) =
              if name = n2 ∧ value = v2 then below (f e1) rest2
              else walk subsets ((n2, v2) :: rest2) :=
          fun n2 v2 rest2 => walk_putEntry subsets name value _ n2 v2 rest2 hex
        refine ⟨?_, ?_, ?_, ?_, ?_⟩
        · rw [hnew]
          simp [below]
        · intro q hq
          cases q with
          | nil => rfl
          | cons kv2 rest2 =>
            obtain ⟨n2, v2⟩ := kv2
            unfold balancerAt
            rw [hnew]
            by_cases hh : name = n2 ∧ value = v2
            · obtain ⟨h1, h2⟩ := hh
              subst h1
              subst h2
              simp only [and_self, if_true]
              rw [hold]
              cases rest2 with
              | nil => exact absurd rfl hq
              | cons kv3 rest3 => simp only [below, hf]
            · rw [if_neg hh]
        · intro q hq
          cases q with
          | nil => simp [walk] at hq
          | cons kv2 rest2 =>
            obtain ⟨n2, v2⟩ := kv2
            rw [hnew]
            by_cases hh : name = n2 ∧ value = v2
            · obtain ⟨h1, h2⟩ := hh
              subst h1
              subst h2
              simp only [and_self, if_true]
              rw [hold] at hq
              cases rest2 with
              | nil => simp [below]
              | cons kv3 rest3 =>
                simp only [below, hf] at hq ⊢
                exact hq
            · rw [if_neg hh]
              exact hq
        · intro q hq
          cases q with
          | nil => simp [walk] at hq
          | cons kv2 rest2 =>
            obtain ⟨n2, v2⟩ := kv2
            rw [hnew] at hq
            by_cases hh : name = n2 ∧ value = v2
            · obtain ⟨h1, h2⟩ := hh
              subst h1
              subst h2
              simp only [and_self, if_true] at hq
              rw [hold]
              cases rest2 with
              | nil => simp [below]
              | cons kv3 rest3 =>
                simp only [below, hf] at hq ⊢
                exact hq
            · rw [if_neg hh] at hq
              exact hq
        · apply made_putEntry subsets name value _ hm hex
          rw [hf]
          exact hmade1
      | cons kv1 rest1 =>
        simp only [below] at hw
        obtain ⟨hw1, hb1, hs1, ho1, hm1⟩ := ih e1.Children e hw hmade1
        dsimp only
        have hnew : ∀ n2 v2 rest2,
            walk (putEntry subsets name value
                (e1.withChildren (updateEntry f e1.Children (kv1 :: rest1))))
              ((n2, v2) :: rest2) =
              if name = n2 ∧ value = v2 then
                below (e1.withChildren (updateEntry f e1.Children (kv1 :: rest1))) rest2
              else walk subsets ((n2, v2) :: rest2) :=
          fun n2 v2 rest2 => walk_putEntry subsets name value _ n2 v2 rest2 hex
        refine ⟨?_, ?_, ?_, ?_, ?_⟩
        · rw [hnew]
          simp only [and_self, if_true, below, Children_withChildren]
          exact hw1
        · intro q hq
          cases q with
          | nil => rfl
          | cons kv2 rest2 =>
            obtain ⟨n2, v2⟩ := kv2
            unfold balancerAt
            rw [hnew]
            by_cases hh : name = n2 ∧ value = v2
            · obtain ⟨h1, h2⟩ := hh
              subst h1
              subst h2
              simp only [and_self, if_true]
              rw [hold]
              cases rest2 with
              | nil => simp [below, lbOf, lb_withChildren]
              | cons kv3 rest3 =>
                simp only [below, Children_withChildren]
                have hne : kv3 :: rest3 ≠ kv1 :: rest1 := by
                  intro heq
                  exact hq (by rw [heq])
                exact hb1 (kv3 :: rest3) hne
            · rw [if_neg hh]
        · intro q hq
          cases q with
          | nil => simp [walk] at hq
          | cons kv2 rest2 =>
            obtain ⟨n2, v2⟩ := kv2
            rw [hnew]
            by_cases hh : name = n2 ∧ value = v2
            · obtain ⟨h1, h2⟩ := hh
              subst h1
              subst h2
              simp only [and_self, if_true]
              rw [hold] at hq
              cases rest2 with
              | nil => simp [below]
              | cons kv3 rest3 =>
                simp only [below, Children_withChildren] at hq ⊢
                exact hs1 (kv3 :: rest3) hq
            · rw [if_neg hh]
              exact hq
        · intro q hq
          cases q with
          | nil => simp [walk] at hq
          | cons kv2 rest2 =>
            obtain ⟨n2, v2⟩ := kv2
            rw [hnew] at hq
            by_cases hh : name = n2 ∧ value = v2
            · obtain ⟨h1, h2⟩ := hh
              subst h1
              subst h2
              simp only [and_self, if_true] at hq
              rw [hold]
              cases rest2 with
              | nil => simp [below]
              | cons kv3 rest3 =>
                simp only [below, Children_withChildren] at hq ⊢
                exact ho1 (kv3 :: rest3) hq
            · rw [if_neg hh] at hq
              exact hq
        · apply made_putEntry subsets name value _ hm hex
          rw [Children_withChildren]
          exact hm1

/-! ## `createSubsets` -/

/-- One combination of `createSubsets`, on a tree without nil map: the path of
the combination has an entry afterwards, the balancer there is the one over
the filtered hosts when there are any, nothing else changes but for the
entries along the path, and the count grows by one exactly when a balancer is
created. -/
theorem createSubsetsStep_spec (b : subsetLoadBalancerBuilder) (tree : LbSubsetMap)
    (count : Nat) (kvs : SubsetMetadata) (hosts : List Host) (hne : kvs ≠ [])
    (hlen : kvs.length < 4294967296) (hf : filterHosts b kvs = some hosts) (hm : made tree) :
    ∃ after, createSubsetsStep b (tree, count) kvs =
        some (after, count + (if hosts = [] then 0 else 1)) ∧
      (walk after kvs).isSome = true ∧
      balancerAt after kvs =
        (if hosts = [] then balancerAt tree kvs
          else some (NewLoadBalancer b.info ⟨hosts⟩)) ∧
      (∀ q, q ≠ kvs → balancerAt after q = balancerAt tree q) ∧
      (∀ q, (walk tree q).isSome = true → (walk after q).isSome = true) ∧
      (∀ q, (walk after q).isSome = true →
        (walk tree q).isSome = true ∨ ∃ d, 1 ≤ d ∧ q = kvs.take d) ∧
      made after := by
  obtain ⟨mid, entry, hfoc, hwalk, hbal, hsome, honly, hmid⟩ :=
    findOrCreateSubset_spec kvs tree hne hlen hm
  unfold createSubsetsStep
  rw [hfoc, hf]
  dsimp only
  cases hosts with
  | nil =>
    refine ⟨mid, by simp, by simp [hwalk], by simp [hbal], fun q _ => hbal q, hsome, honly,
      hmid⟩
  | cons h rest =>
    obtain ⟨hw1, hb1, hs1, ho1, hm1⟩ := updateEntry_spec
      (fun entry => entry.CreateLoadBalancer b.info ⟨h :: rest⟩)
      (fun e => Children_CreateLoadBalancer e _ _) kvs mid entry hwalk hmid
    refine ⟨updateEntry (fun entry => entry.CreateLoadBalancer b.info ⟨h :: rest⟩) mid kvs,
      by simp, by rw [hw1]; rfl, ?_, ?_, ?_, ?_, hm1⟩
    · unfold balancerAt
      rw [hw1]
      simp only [lbOf, List.cons_ne_nil, if_false]
      exact lb_CreateLoadBalancer entry b.info ⟨h :: rest⟩ (List.cons_ne_nil _ _)
    · intro q hq
      rw [hb1 q hq, hbal q]
    · intro q hq
      exact hs1 q (hsome q hq)
    · intro q hq
      exact honly q (ho1 q hq)

/-- The inner loop of `createSubsets` over a list of combinations, each
non-empty, of fewer than `2^32` pairs and with filtered hosts `F`, on a tree
without nil map. -/
theorem createSubsets_fold (b : subsetLoadBalancerBuilder) (F : SubsetMetadata → List Host)
    (L : List SubsetMetadata)
    (hL : ∀ kvs ∈ L, kvs ≠ [] ∧ kvs.length < 4294967296 ∧
      filterHosts b kvs = some (F kvs))
    (tree : LbSubsetMap) (count : Nat) (hm : made tree) :
    ∃ after, L.foldlM (createSubsetsStep b) (tree, count) =
        some (after, count + (L.filter (fun kvs => decide (F kvs ≠ []))).length) ∧
      (∀ q, (walk tree q).isSome = true ∨ q ∈ L → (walk after q).isSome = true) ∧
      (∀ q ∈ L, F q ≠ [] → balancerAt after q = some (NewLoadBalancer b.info ⟨F q⟩)) ∧
      (∀ q, q ∉ L ∨ F q = [] → balancerAt after q = balancerAt tree q) ∧
      (∀ q, (walk after q).isSome = true →
        (walk tree q).isSome = true ∨ ∃ kvs ∈ L, ∃ d, 1 ≤ d ∧ q = kvs.take d) ∧
      made after := by
  induction L generalizing tree count with
  | nil =>
    refine ⟨tree, by simp, ?_, ?_, ?_, ?_, hm⟩
    · intro q hq
      rcases hq with h | h
      · exact h
      · exact absurd h (List.not_mem_nil _)
    · intro q hq
      exact absurd hq (List.not_mem_nil _)
    · intro q _
      rfl
    · intro q hq
      exact Or.inl hq
  | cons kvs rest ih =>
    obtain ⟨hne, hlen, hf⟩ := hL kvs (List.mem_cons_self _ _)
    obtain ⟨mid, hstep, hw, hb, hother, hkeep, honly, hmid⟩ :=
      createSubsetsStep_spec b tree count kvs (F kvs) hne hlen hf hm
    obtain ⟨after, hfold, hsome, hb1, hb2, honly2, hafter⟩ :=
      ih (fun q hq => hL q (List.mem_cons_of_mem _ hq)) mid
        (count + (if F kvs = [] then 0 else 1)) hmid
    refine ⟨after, ?_, ?_, ?_, ?_, ?_, hafter⟩
    · rw [List.foldlM_cons, hstep]
      simp only [Option.bind_eq_bind, Option.some_bind, hfold]
      by_cases he : F kvs = []
      · simp [List.filter_cons, he]
      · simp [List.filter_cons, he]
        omega
    · intro q hq
      apply hsome
      rcases hq with h | h
      · exact Or.inl (hkeep q h)
      · rcases List.mem_cons.mp h with h1 | h1
        · subst h1
          exact Or.inl hw
        · exact Or.inr h1
    · intro q hq hFq
      by_cases hr : q ∈ rest
      · exact hb1 q hr hFq
      · rcases List.mem_cons.mp hq with h1 | h1
        · subst h1
          rw [hb2 q (Or.inl hr), hb, if_neg hFq]
        · exact absurd h1 hr
    · intro q hq
      have hq2 : q ∉ rest ∨ F q = [] := by
        rcases hq with h | h
        · exact Or.inl (fun hr => h (List.mem_cons_of_mem _ hr))
        · exact Or.inr h
      rw [hb2 q hq2]
      by_cases hk : q = kvs
      · subst hk
        rcases hq with h | h
        · exact absurd (List.mem_cons_self _ _) h
        · rw [hb, if_pos h]
      · exact hother q hk
    · intro q hq
      rcases honly2 q hq with h3 | ⟨k, hk, d, hd, hq2⟩
      · rcases honly q h3 with h4 | ⟨d, hd, hq2⟩
        · exact Or.inl h4
        · exact Or.inr ⟨kvs, List.mem_cons_self _ _, d, hd, hq2⟩
      · exact Or.inr ⟨k, List.mem_cons_of_mem _ hk, d, hd, hq2⟩

theorem leafCountFrom_cons (ord : Nat → CombinationOrder) (b : subsetLoadBalancerBuilder)
    (i : Nat) (g : List String) (rest : List (List String)) :
    leafCountFrom ord b i (g :: rest) =
      leafCount (ord i) b g + leafCountFrom ord b (i + 1) rest := rfl

theorem createSubsetsLoop_cons (ord : Nat → CombinationOrder) (b : subsetLoadBalancerBuilder)
    (i : Nat) (g : List String) (rest : List (List String)) (st : LbSubsetMap × Nat) :
    createSubsetsLoop ord b i (g :: rest) st =
      match createSubsetsGroup (ord i) b st g with
      | none => none
      | some st1 => createSubsetsLoop ord b (i + 1) rest st1 := rfl

theorem leafCount_eq (ord : CombinationOrder) (b : subsetLoadBalancerBuilder)
    (F : SubsetMetadata → List Host) (keys : List String) (hne : keys ≠ [])
    (hF : ∀ kvs, isCombination b keys kvs → filterHosts b kvs = some (F kvs)) :
    leafCount ord b keys =
      ((expand ord b keys []).filter (fun kvs => decide (F kvs ≠ []))).length := by
  unfold leafCount
  rw [metadataCombinations_eq ord b keys hne]
  dsimp only
  congr 1
  apply List.filter_congr
  intro kvs hk
  rw [hF kvs ((mem_expand_nil ord b keys kvs).mp hk)]
  cases F kvs <;> simp

/-- The number of combinations with hosts does not depend on the combination
order. -/
theorem leafCount_order (ord1 ord2 : CombinationOrder) (b : subsetLoadBalancerBuilder)
    (F : SubsetMetadata → List Host) (keys : List String) (hne : keys ≠ [])
    (hF : ∀ kvs, isCombination b keys kvs → filterHosts b kvs = some (F kvs)) :
    leafCount ord1 b keys = leafCount ord2 b keys := by
  rw [leafCount_eq ord1 b F keys hne hF, leafCount_eq ord2 b F keys hne hF]
  exact ((expand_perm ord1 ord2 b keys).filter _).length_eq

/-- The outer loop of `createSubsets` over non-empty key-groups of fewer than
`2^32` keys whose combinations have filtered hosts `F`, from its iteration
`i` on and on a tree without nil map. -/
theorem createSubsets_groups (ord : Nat → CombinationOrder) (b : subsetLoadBalancerBuilder)
    (F : SubsetMetadata → List Host) (groups : List (List String))
    (hG : ∀ g ∈ groups, g ≠ [] ∧ g.length < 4294967296 ∧
      ∀ kvs, isCombination b g kvs → filterHosts b kvs = some (F kvs))
    (i : Nat) (tree : LbSubsetMap) (count : Nat) (hm : made tree) :
    ∃ after, createSubsetsLoop ord b i groups (tree, count) =
        some (after, count + leafCountFrom ord b i groups) ∧
      (∀ q, (walk tree q).isSome = true ∨ (∃ g ∈ groups, isCombination b g q) →
        (walk after q).isSome = true) ∧
      (∀ q, (∃ g ∈ groups, isCombination b g q) → F q ≠ [] →
        balancerAt after q = some (NewLoadBalancer b.info ⟨F q⟩)) ∧
      (∀ q, (¬ ∃ g ∈ groups, isCombination b g q) ∨ F q = [] →
        balancerAt after q = balancerAt tree q) ∧
      (∀ q, (walk after q).isSome = true →
        (walk tree q).isSome = true ∨
          ∃ g ∈ groups, ∃ kvs, isCombination b g kvs ∧ ∃ d, 1 ≤ d ∧ q = kvs.take d) ∧
      made after := by
  induction groups generalizing i tree count with
  | nil =>
    refine ⟨tree, by simp [createSubsetsLoop, leafCountFrom], ?_, ?_, ?_, ?_, hm⟩
    · intro q hq
      rcases hq with h | ⟨g, hg, _⟩
      · exact h
      · exact absurd hg (List.not_mem_nil _)
    · rintro q ⟨g, hg, _⟩
      exact absurd hg (List.not_mem_nil _)
    · intro q _
      rfl
    · intro q hq
      exact Or.inl hq
  | cons g rest ih =>
    obtain ⟨hne, hlen, hcombos⟩ := hG g (List.mem_cons_self _ _)
    have hmem : ∀ q, q ∈ expand (ord i) b g [] ↔ isCombination b g q :=
      fun q => mem_expand_nil (ord i) b g q
    obtain ⟨mid, hfold, hsome, hb1, hb2, honly, hmid⟩ :=
      createSubsets_fold b F (expand (ord i) b g [])
        (fun kvs hk => ⟨isCombination_ne_nil b g kvs hne ((hmem kvs).mp hk),
          by rw [isCombination_length b g kvs ((hmem kvs).mp hk)]; exact hlen,
          hcombos kvs ((hmem kvs).mp hk)⟩) tree count hm
    obtain ⟨after, hrest, hsomeR, hb1R, hb2R, honlyR, hafter⟩ :=
      ih (fun g2 hg2 => hG g2 (List.mem_cons_of_mem _ hg2)) (i + 1) mid
        (count + ((expand (ord i) b g []).filter (fun kvs => decide (F kvs ≠ []))).length) hmid
    refine ⟨after, ?_, ?_, ?_, ?_, ?_, hafter⟩
    · have hhead : createSubsetsGroup (ord i) b (tree, count) g =
          some (mid, count +
            ((expand (ord i) b g []).filter (fun kvs => decide (F kvs ≠ []))).length) := by
        unfold createSubsetsGroup
        rw [metadataCombinations_eq (ord i) b g hne]
        exact hfold
      rw [createSubsetsLoop_cons, hhead]
      dsimp only
      rw [hrest, leafCountFrom_cons, leafCount_eq (ord i) b F g hne hcombos, Nat.add_assoc]
    · intro q hq
      apply hsomeR
      rcases hq with h | ⟨g2, hg2, hq2⟩
      · exact Or.inl (hsome q (Or.inl h))
      · rcases List.mem_cons.mp hg2 with h1 | h1
        · subst h1
          exact Or.inl (hsome q (Or.inr ((hmem q).mpr hq2)))
        · exact Or.inr ⟨g2, h1, hq2⟩
    · rintro q ⟨g2, hg2, hq2⟩ hFq
      by_cases hr : ∃ g3 ∈ rest, isCombination b g3 q
      · exact hb1R q hr hFq
      · rcases List.mem_cons.mp hg2 with h1 | h1
        · subst h1
          rw [hb2R q (Or.inl hr)]
          exact hb1 q ((hmem q).mpr hq2) hFq
        · exact absurd ⟨g2, h1, hq2⟩ hr
    · intro q hq
      have hq2 : (¬ ∃ g3 ∈ rest, isCombination b g3 q) ∨ F q = [] := by
        rcases hq with h | h
        · exact Or.inl (fun ⟨g3, hg3, hq3⟩ => h ⟨g3, List.mem_cons_of_mem _ hg3, hq3⟩)
        · exact Or.inr h
      rw [hb2R q hq2]
      apply hb2
      rcases hq with h | h
      · exact Or.inl (fun hq3 => h ⟨g, List.mem_cons_self _ _, (hmem q).mp hq3⟩)
      · exact Or.inr h
    · intro q hq
      rcases honlyR q hq with h3 | ⟨g2, hg2, k, hk, hd⟩
      · rcases honly q h3 with h4 | ⟨k, hk, hd⟩
        · exact Or.inl h4
        · exact Or.inr ⟨g, List.mem_cons_self _ _, k, (hmem k).mp hk, hd⟩
      · exact Or.inr ⟨g2, List.mem_cons_of_mem _ hg2, k, hk, hd⟩

/-- The sum of the leaf counts does not depend on the combination orders. -/
theorem leafCountFrom_order (ord1 ord2 : Nat → CombinationOrder)
    (b : subsetLoadBalancerBuilder) (F : SubsetMetadata → List Host)
    (groups : List (List String))
    (hG : ∀ g ∈ groups, g ≠ [] ∧
      ∀ kvs, isCombination b g kvs → filterHosts b kvs = some (F kvs))
    (i j : Nat) : leafCountFrom ord1 b i groups = leafCountFrom ord2 b j groups := by
  induction groups generalizing i j with
  | nil => rfl
  | cons g rest ih =>
    obtain ⟨hne, hcombos⟩ := hG g (List.mem_cons_self _ _)
    rw [leafCountFrom_cons, leafCountFrom_cons,
      leafCount_order (ord1 i) (ord2 j) b F g hne hcombos,
      ih (fun g2 hg2 => hG g2 (List.mem_cons_of_mem _ hg2)) (i + 1) (j + 1)]

theorem createSubsets_fails (ord : Nat → CombinationOrder) (b : subsetLoadBalancerBuilder)
    (groups : List (List String)) (hex : ∃ g ∈ groups, g = []) (i : Nat)
    (st : LbSubsetMap × Nat) :
    createSubsetsLoop ord b i groups st = none := by
  induction groups generalizing i st with
  | nil =>
    obtain ⟨g, hg, _⟩ := hex
    exact absurd hg (List.not_mem_nil _)
  | cons g rest ih =>
    rw [createSubsetsLoop_cons]
    by_cases hg : g = []
    · subst hg
      simp [createSubsetsGroup, metadataCombinations_nil]
    · have hrest : ∃ g2 ∈ rest, g2 = [] := by
        obtain ⟨g2, hg2, he⟩ := hex
        rcases List.mem_cons.mp hg2 with h | h
        · exact absurd (h ▸ he) hg
        · exact ⟨g2, h, he⟩
      cases hstep : createSubsetsGroup (ord i) b st g with
      | none => rfl
      | some st2 => exact ih hrest (i + 1) st2

/-! ## The builder made from a host set and a configuration -/

theorem filterHosts_nil (b : subsetLoadBalancerBuilder) :
    filterHosts b [] = some b.hostSet.Hosts := rfl

theorem walk_take_isSome (path : SubsetMetadata) (subsets : LbSubsetMap) (d : Nat)
    (hd : 1 ≤ d) (h : (walk subsets path).isSome) : (walk subsets (path.take d)).isSome := by
  induction path generalizing subsets d with
  | nil => simp [walk] at h
  | cons kv rest ih =>
    obtain ⟨name, value⟩ := kv
    obtain ⟨d1, rfl⟩ : ∃ d1, d = d1 + 1 := ⟨d - 1, by omega⟩
    rw [List.take_succ_cons, walk_cons]
    rw [walk_cons] at h
    cases he : entryAt subsets name value with
    | none => simp [he] at h
    | some e =>
      rw [he] at h
      dsimp only at h ⊢
      cases hr : rest.take d1 with
      | nil => simp [below]
      | cons kv1 rest1 =>
        cases rest with
        | nil => simp at hr
        | cons kv2 rest2 =>
          have hd1 : 1 ≤ d1 := by
            cases d1 with
            | zero => simp at hr
            | succ n => omega
          simp only [below] at h ⊢
          rw [← hr]
          exact ih e.Children d1 hd1 h

theorem filterLoop_unknown (b : subsetLoadBalancerBuilder) (kvs : SubsetMetadata)
    (curSet : Option Sparse) (key val : String) (hmem : (key, val) ∈ kvs)
    (hun : valuePresent b key val = false) : filterLoop b kvs curSet = some [] := by
  induction kvs generalizing curSet with
  | nil => exact absurd hmem (List.not_mem_nil _)
  | cons kv rest ih =>
    obtain ⟨k0, v0⟩ := kv
    unfold filterLoop
    cases h1 : mapGet b.indexer k0 with
    | none => rfl
    | some valueMap =>
      dsimp only
      cases h2 : mapGet valueMap v0 with
      | none => rfl
      | some set =>
        dsimp only
        have hrest : (key, val) ∈ rest := by
          rcases List.mem_cons.mp hmem with h | h
          · simp only [Prod.mk.injEq] at h
            obtain ⟨hk, hv⟩ := h
            subst hk
            subst hv
            simp [valuePresent, h1, h2] at hun
          · exact h
        cases curSet with
        | none => exact ih _ hrest
        | some cur => exact ih _ hrest

theorem filterHosts_unknown (b : subsetLoadBalancerBuilder) (kvs : SubsetMetadata)
    (key val : String) (hmem : (key, val) ∈ kvs) (hun : valuePresent b key val = false) :
    filterHosts b kvs = some [] := by
  unfold filterHosts
  have hlen : kvs.length ≠ 0 := by
    intro h0
    rw [List.length_eq_zero] at h0
    rw [h0] at hmem
    exact List.not_mem_nil _ hmem
  simp only [hlen, if_false]
  exact filterLoop_unknown b kvs none key val hmem hun

theorem valuePresent_unindexed (ord : RangeOrder) (info : ClusterInfo) (hs : HostSet)
    (key val : String) (hk : key ∉ indexedKeys ord info) :
    valuePresent (newSubsetLoadBalancerBuilder ord info hs) key val = false := by
  unfold valuePresent
  have : mapGet (newSubsetLoadBalancerBuilder ord info hs).indexer key = none := by
    simp [newSubsetLoadBalancerBuilder, mapGet_initIndex, hk]
  rw [this]

/-- On the builder made from a host set and a configuration, `filterHosts` of
a list with a key that is not indexed is empty. -/
theorem filterHosts_unindexed (ord : RangeOrder) (info : ClusterInfo) (hs : HostSet)
    (kvs : SubsetMetadata) (hk : ¬ ∀ kv ∈ kvs, kv.1 ∈ indexedKeys ord info) :
    filterHosts (newSubsetLoadBalancerBuilder ord info hs) kvs = some [] := by
  have hex : ∃ kv ∈ kvs, kv.1 ∉ indexedKeys ord info := by
    by_contra hc
    apply hk
    intro kv hkv
    by_contra hn
    exact hc ⟨kv, hkv, hn⟩
  obtain ⟨kv, hkv, hn⟩ := hex
  exact filterHosts_unknown _ kvs kv.1 kv.2 hkv (valuePresent_unindexed ord info hs kv.1 kv.2 hn)

/-- On the builder made from a host set and a configuration, `filterHosts`
always returns, and what it returns is the host sequence filtered by some
predicate. -/
theorem filterHosts_builder_filter (ord : RangeOrder) (info : ClusterInfo) (hs : HostSet)
    (kvs : SubsetMetadata) :
    ∃ p : Host → Bool, filterHosts (newSubsetLoadBalancerBuilder ord info hs) kvs =
      some (hs.Hosts.filter p) := by
  by_cases hk : ∀ kv ∈ kvs, kv.1 ∈ indexedKeys ord info
  · exact ⟨hostMatches kvs, filterHosts_indexed ord info hs kvs hk⟩
  · refine ⟨fun _ => false, ?_⟩
    rw [filterHosts_unindexed ord info hs kvs hk]
    simp

theorem indexedKeys_mem_congr (ord1 ord2 : RangeOrder) (info : ClusterInfo) (k : String) :
    k ∈ indexedKeys ord1 info ↔ k ∈ indexedKeys ord2 info := by
  rw [mem_indexedKeys, mem_indexedKeys]

theorem hostMatches_congr (kvs1 kvs2 : SubsetMetadata) (hset : ∀ p, p ∈ kvs1 ↔ p ∈ kvs2)
    (h : Host) : hostMatches kvs1 h = hostMatches kvs2 h := by
  unfold hostMatches
  rw [Bool.eq_iff_iff, List.all_eq_true, List.all_eq_true]
  constructor
  · intro hall kv hkv
    exact hall kv ((hset kv).mpr hkv)
  · intro hall kv hkv
    exact hall kv ((hset kv).mp hkv)

theorem pairwise_lt_ordinalsOf (hosts : List Host) (p : Host → Bool) :
    (ordinalsOf hosts p).Pairwise (fun i j => i < j) := by
  unfold ordinalsOf
  exact List.Pairwise.sublist (List.filter_sublist _) (List.pairwise_lt_range _)

theorem filterHosts_default (ord : RangeOrder) (info : ClusterInfo) (hs : HostSet) :
    filterHosts (newSubsetLoadBalancerBuilder ord info hs) info.LbSubsetInfo.DefaultSubset =
      some (hs.Hosts.filter (hostMatches info.LbSubsetInfo.DefaultSubset)) :=
  filterHosts_indexed ord info hs _ (fun kv h =>
    (mem_indexedKeys ord info kv.1).mpr (Or.inr (List.mem_map_of_mem Prod.fst h)))

/-- The fallback entry does not depend on the range order. -/
theorem createFallbackSubset_order (ord1 ord2 : RangeOrder) (info : ClusterInfo)
    (hs : HostSet) (fullLb : LoadBalancer) :
    createFallbackSubset (newSubsetLoadBalancerBuilder ord1 info hs) fullLb =
      createFallbackSubset (newSubsetLoadBalancerBuilder ord2 info hs) fullLb := by
  have h1 : filterHosts (newSubsetLoadBalancerBuilder ord1 info hs)
      (newSubsetLoadBalancerBuilder ord1 info hs).info.LbSubsetInfo.DefaultSubset =
      some (hs.Hosts.filter (hostMatches info.LbSubsetInfo.DefaultSubset)) :=
    filterHosts_default ord1 info hs
  have h2 : filterHosts (newSubsetLoadBalancerBuilder ord2 info hs)
      (newSubsetLoadBalancerBuilder ord2 info hs).info.LbSubsetInfo.DefaultSubset =
      some (hs.Hosts.filter (hostMatches info.LbSubsetInfo.DefaultSubset)) :=
    filterHosts_default ord2 info hs
  unfold createFallbackSubset
  rw [h1, h2]
  rfl

/-- On the builder `createFallbackSubset` always returns. -/
theorem createFallbackSubset_returns (ord : RangeOrder) (info : ClusterInfo) (hs : HostSet)
    (fullLb : LoadBalancer) :
    ∃ fb, createFallbackSubset (newSubsetLoadBalancerBuilder ord info hs) fullLb = some fb := by
  have h1 : filterHosts (newSubsetLoadBalancerBuilder ord info hs)
      (newSubsetLoadBalancerBuilder ord info hs).info.LbSubsetInfo.DefaultSubset =
      some (hs.Hosts.filter (hostMatches info.LbSubsetInfo.DefaultSubset)) :=
    filterHosts_default ord info hs
  unfold createFallbackSubset
  rw [h1]
  cases (newSubsetLoadBalancerBuilder ord info hs).info.LbSubsetInfo.FallbackPolicy with
  | NoFallBack => exact ⟨_, rfl⟩
  | AnyEndPoint => exact ⟨_, rfl⟩
  | DefaultSubset => exact ⟨_, rfl⟩

theorem valuePresent_order (ord1 ord2 : RangeOrder) (info : ClusterInfo) (hs : HostSet)
    (key val : String) :
    valuePresent (newSubsetLoadBalancerBuilder ord1 info hs) key val =
      valuePresent (newSubsetLoadBalancerBuilder ord2 info hs) key val := by
  unfold valuePresent
  have h1 : mapGet (newSubsetLoadBalancerBuilder ord1 info hs).indexer key =
      mapGet (newSubsetLoadBalancerBuilder ord2 info hs).indexer key := by
    simp only [newSubsetLoadBalancerBuilder, mapGet_initIndex]
    by_cases hk : key ∈ indexedKeys ord1 info
    · rw [if_pos hk, if_pos ((indexedKeys_mem_congr ord1 ord2 info key).mp hk)]
    · rw [if_neg hk, if_neg (fun h => hk ((indexedKeys_mem_congr ord1 ord2 info key).mpr h))]
  rw [h1]

/-! ## `createSubsets` and `Build` on the builder -/

theorem isCombination_order (ord1 ord2 : RangeOrder) (info : ClusterInfo) (hs : HostSet)
    (g : List String) (kvs : SubsetMetadata) :
    isCombination (newSubsetLoadBalancerBuilder ord1 info hs) g kvs ↔
      isCombination (newSubsetLoadBalancerBuilder ord2 info hs) g kvs := by
  unfold isCombination
  constructor
  · rintro ⟨h1, h2⟩
    exact ⟨h1, fun kv hkv => by
      rw [← valuePresent_order ord1 ord2 info hs]
      exact h2 kv hkv⟩
  · rintro ⟨h1, h2⟩
    exact ⟨h1, fun kv hkv => by
      rw [valuePresent_order ord1 ord2 info hs]
      exact h2 kv hkv⟩

/-- On the builder `filterHosts` of a combination of a configured key-group is
the host sequence filtered by the combination. -/
theorem builder_combos (ord : RangeOrder) (info : ClusterInfo) (hs : HostSet)
    (g : List String) (hg : g ∈ info.LbSubsetInfo.SubsetKeys) (kvs : SubsetMetadata)
    (hk : isCombination (newSubsetLoadBalancerBuilder ord info hs) g kvs) :
    filterHosts (newSubsetLoadBalancerBuilder ord info hs) kvs =
      some (hs.Hosts.filter (hostMatches kvs)) := by
  apply filterHosts_indexed
  intro kv hkv
  rw [mem_indexedKeys]
  refine Or.inl ⟨g, hg, ?_⟩
  rw [← hk.1]
  exact List.mem_map_of_mem Prod.fst hkv

theorem builder_groups (ord : RangeOrder) (info : ClusterInfo) (hs : HostSet)
    (hne : ∀ g ∈ info.LbSubsetInfo.SubsetKeys, g ≠ [] ∧ g.length < 4294967296) :
    ∀ g ∈ info.LbSubsetInfo.SubsetKeys, g ≠ [] ∧ g.length < 4294967296 ∧
      ∀ kvs, isCombination (newSubsetLoadBalancerBuilder ord info hs) g kvs →
        filterHosts (newSubsetLoadBalancerBuilder ord info hs) kvs =
          some (hs.Hosts.filter (hostMatches kvs)) :=
  fun g hg => ⟨(hne g hg).1, (hne g hg).2,
    fun kvs hk => builder_combos ord info hs g hg kvs hk⟩

/-- With every key-group non-empty and of fewer than `2^32` keys
`createSubsets` returns, in whatever order its ranges visit the maps.  The count is the number of combinations with
hosts, the paths of the tree are the non-empty initial segments of the
combinations, the balancer at a path is the one over the hosts of a
combination with hosts and none otherwise, and the tree has no nil map. -/
theorem createSubsets_builder (ord : RangeOrder) (cord : Nat → CombinationOrder)
    (info : ClusterInfo) (hs : HostSet)
    (hne : ∀ g ∈ info.LbSubsetInfo.SubsetKeys, g ≠ [] ∧ g.length < 4294967296) :
    ∃ tree, createSubsets cord (newSubsetLoadBalancerBuilder ord info hs) =
        some (tree, leafCountFrom cord (newSubsetLoadBalancerBuilder ord info hs) 0
          info.LbSubsetInfo.SubsetKeys) ∧
      (∀ q, (walk tree q).isSome = true ↔
        ∃ g ∈ info.LbSubsetInfo.SubsetKeys, ∃ kvs,
          isCombination (newSubsetLoadBalancerBuilder ord info hs) g kvs ∧
            ∃ d, 1 ≤ d ∧ q = kvs.take d) ∧
      (∀ q, (∃ g ∈ info.LbSubsetInfo.SubsetKeys,
          isCombination (newSubsetLoadBalancerBuilder ord info hs) g q) →
        hs.Hosts.filter (hostMatches q) ≠ [] →
        balancerAt tree q = some (NewLoadBalancer info ⟨hs.Hosts.filter (hostMatches q)⟩)) ∧
      (∀ q, (¬ ∃ g ∈ info.LbSubsetInfo.SubsetKeys,
          isCombination (newSubsetLoadBalancerBuilder ord info hs) g q) ∨
          hs.Hosts.filter (hostMatches q) = [] →
        balancerAt tree q = none) ∧
      made tree := by
  obtain ⟨tree, hrun, hsome, hb1, hb2, honly, hmade⟩ :=
    createSubsets_groups cord (newSubsetLoadBalancerBuilder ord info hs)
      (fun kvs => hs.Hosts.filter (hostMatches kvs)) info.LbSubsetInfo.SubsetKeys
      (builder_groups ord info hs hne) 0 (some []) 0 made_empty
  refine ⟨tree, ?_, ?_, ?_, ?_, hmade⟩
  · unfold createSubsets
    simpa [newSubsetLoadBalancerBuilder] using hrun
  · intro q
    constructor
    · intro hq
      rcases honly q hq with h1 | h1
      · rw [walk_empty] at h1
        simp at h1
      · exact h1
    · rintro ⟨g, hg, kvs, hk, d, hd, hq⟩
      rw [hq]
      exact walk_take_isSome kvs tree d hd (hsome kvs (Or.inr ⟨g, hg, hk⟩))
  · intro q hq hF
    exact hb1 q hq hF
  · intro q hq
    rw [hb2 q hq]
    unfold balancerAt
    rw [walk_empty]
    rfl

/-- The tree and the count `createSubsets` returns on the builder are those
of `createSubsets_builder`. -/
theorem createSubsets_builder_of (ord : RangeOrder) (cord : Nat → CombinationOrder)
    (info : ClusterInfo) (hs : HostSet)
    (hne : ∀ g ∈ info.LbSubsetInfo.SubsetKeys, g ≠ [] ∧ g.length < 4294967296)
    (tree : LbSubsetMap) (n : Nat)
    (h : createSubsets cord (newSubsetLoadBalancerBuilder ord info hs) = some (tree, n)) :
    n = leafCountFrom cord (newSubsetLoadBalancerBuilder ord info hs) 0
        info.LbSubsetInfo.SubsetKeys ∧
      (∀ q, (walk tree q).isSome = true ↔
        ∃ g ∈ info.LbSubsetInfo.SubsetKeys, ∃ kvs,
          isCombination (newSubsetLoadBalancerBuilder ord info hs) g kvs ∧
            ∃ d, 1 ≤ d ∧ q = kvs.take d) ∧
      (∀ q, (∃ g ∈ info.LbSubsetInfo.SubsetKeys,
          isCombination (newSubsetLoadBalancerBuilder ord info hs) g q) →
        hs.Hosts.filter (hostMatches q) ≠ [] →
        balancerAt tree q = some (NewLoadBalancer info ⟨hs.Hosts.filter (hostMatches q)⟩)) ∧
      (∀ q, (¬ ∃ g ∈ info.LbSubsetInfo.SubsetKeys,
          isCombination (newSubsetLoadBalancerBuilder ord info hs) g q) ∨
          hs.Hosts.filter (hostMatches q) = [] →
        balancerAt tree q = none) := by
  obtain ⟨tree2, hrun, hp, hb1, hb2, _⟩ := createSubsets_builder ord cord info hs hne
  rw [h] at hrun
  have ht : tree = tree2 := congrArg Prod.fst (Option.some.inj hrun)
  have hn := congrArg Prod.snd (Option.some.inj hrun)
  subst ht
  exact ⟨hn, hp, hb1, hb2⟩

/-- What `Build` returns when `createSubsets` and `createFallbackSubset`
return. -/
theorem Build_of_parts (ord : RangeOrder) (cord : Nat → CombinationOrder)
    (info : ClusterInfo) (hs : HostSet)
    (tree : LbSubsetMap) (n : Nat) (fb : Option LBSubsetEntryImpl)
    (hcs : createSubsets cord (newSubsetLoadBalancerBuilder ord info hs) = some (tree, n))
    (hfb : createFallbackSubset (newSubsetLoadBalancerBuilder ord info hs)
      (NewLoadBalancer info ⟨hs.Hosts⟩) = some fb) :
    Build cord (newSubsetLoadBalancerBuilder ord info hs) =
      some { lbType := info.LbType, LBSubsetsCreated := n, hostSet := hs,
             fullLb := NewLoadBalancer info ⟨hs.Hosts⟩, fallbackSubset := fb,
             subSets := tree } := by
  have hfb2 : createFallbackSubset (newSubsetLoadBalancerBuilder ord info hs)
      (NewLoadBalancer (newSubsetLoadBalancerBuilder ord info hs).info
        ⟨(newSubsetLoadBalancerBuilder ord info hs).hostSet.Hosts⟩) = some fb := hfb
  unfold Build
  rw [filterHosts_nil]
  dsimp only
  rw [hfb2, hcs]
  rfl

/-- When `Build` returns on the builder, `createSubsets` and
`createFallbackSubset` returned its parts. -/
theorem Build_parts (ord : RangeOrder) (cord : Nat → CombinationOrder)
    (info : ClusterInfo) (hs : HostSet) (sslb : subsetLoadBalancer)
    (h : Build cord (newSubsetLoadBalancerBuilder ord info hs) = some sslb) :
    createSubsets cord (newSubsetLoadBalancerBuilder ord info hs) =
        some (sslb.subSets, sslb.LBSubsetsCreated) ∧
      createFallbackSubset (newSubsetLoadBalancerBuilder ord info hs)
        (NewLoadBalancer info ⟨hs.Hosts⟩) = some sslb.fallbackSubset ∧
      sslb.fullLb = NewLoadBalancer info ⟨hs.Hosts⟩ := by
  obtain ⟨fb, hfb⟩ :=
    createFallbackSubset_returns ord info hs (NewLoadBalancer info ⟨hs.Hosts⟩)
  have hfb2 : createFallbackSubset (newSubsetLoadBalancerBuilder ord info hs)
      (NewLoadBalancer (newSubsetLoadBalancerBuilder ord info hs).info
        ⟨(newSubsetLoadBalancerBuilder ord info hs).hostSet.Hosts⟩) = some fb := hfb
  unfold Build at h
  rw [filterHosts_nil] at h
  dsimp only at h
  rw [hfb2] at h
  dsimp only at h
  cases hcs : createSubsets cord (newSubsetLoadBalancerBuilder ord info hs) with
  | none => simp [hcs] at h
  | some r =>
    obtain ⟨tree, n⟩ := r
    rw [hcs] at h
    have := Option.some.inj h
    subst this
    exact ⟨rfl, hfb, rfl⟩

/-- With an empty key-group `Build` fails, whatever the builder and the
orders. -/
theorem Build_fails (cord : Nat → CombinationOrder) (b : subsetLoadBalancerBuilder)
    (hex : ∃ g ∈ b.info.LbSubsetInfo.SubsetKeys, g = []) : Build cord b = none := by
  have hcs : createSubsets cord b = none := by
    unfold createSubsets
    exact createSubsets_fails cord b _ hex 0 _
  unfold Build
  rw [filterHosts_nil]
  dsimp only
  cases createFallbackSubset b (NewLoadBalancer b.info ⟨b.hostSet.Hosts⟩) with
  | none => rfl
  | some fb =>
    dsimp only
    rw [hcs]

/-- With every key-group non-empty and of fewer than `2^32` keys `Build`
returns on the builder, under every order. -/
theorem Build_returns (ord : RangeOrder) (cord : Nat → CombinationOrder)
    (info : ClusterInfo) (hs : HostSet)
    (hne : ∀ g ∈ info.LbSubsetInfo.SubsetKeys, g ≠ [] ∧ g.length < 4294967296) :
    ∃ sslb, Build cord (newSubsetLoadBalancerBuilder ord info hs) = some sslb := by
  obtain ⟨tree, hrun, _⟩ := createSubsets_builder ord cord info hs hne
  obtain ⟨fb, hfb⟩ :=
    createFallbackSubset_returns ord info hs (NewLoadBalancer info ⟨hs.Hosts⟩)
  exact ⟨_, Build_of_parts ord cord info hs tree _ fb hrun hfb⟩

/-- The sum of the leaf counts is the same on the builders of two range orders
and under any combination orders. -/
theorem leafCountFrom_builders (ord1 ord2 : RangeOrder) (cord1 cord2 : Nat → CombinationOrder)
    (info : ClusterInfo) (hs : HostSet) (groups : List (List String))
    (hsub : ∀ g ∈ groups, g ∈ info.LbSubsetInfo.SubsetKeys ∧ g ≠ []) (i j : Nat) :
    leafCountFrom cord1 (newSubsetLoadBalancerBuilder ord1 info hs) i groups =
      leafCountFrom cord2 (newSubsetLoadBalancerBuilder ord2 info hs) j groups := by
  induction groups generalizing i j with
  | nil => rfl
  | cons g rest ih =>
    obtain ⟨hg, hne⟩ := hsub g (List.mem_cons_self _ _)
    rw [leafCountFrom_cons, leafCountFrom_cons,
      ih (fun g2 hg2 => hsub g2 (List.mem_cons_of_mem _ hg2)) (i + 1) (j + 1)]
    congr 1
    rw [leafCount_eq (cord1 i) _ (fun kvs => hs.Hosts.filter (hostMatches kvs)) g hne
        (fun kvs hk => builder_combos ord1 info hs g hg kvs hk),
      leafCount_eq (cord2 j) _ (fun kvs => hs.Hosts.filter (hostMatches kvs)) g hne
        (fun kvs hk => builder_combos ord2 info hs g hg kvs hk)]
    apply List.Perm.length_eq
    apply List.Perm.filter
    exact (List.perm_ext_iff_of_nodup (nodup_expand (cord1 i) _ g [])
      (nodup_expand (cord2 j) _ g [])).mpr
      (fun kvs => by
        rw [mem_expand_nil, mem_expand_nil]
        exact isCombination_order ord1 ord2 info hs g kvs)

/-- With the same combination order in every iteration the sum of the leaf
counts is the sum of the list of the leaf counts. -/
theorem leafCountFrom_const (m : CombinationOrder) (b : subsetLoadBalancerBuilder) (i : Nat)
    (groups : List (List String)) :
    leafCountFrom (fun _ => m) b i groups = (groups.map (leafCount m b)).sum := by
  induction groups generalizing i with
  | nil => rfl
  | cons g rest ih => rw [leafCountFrom_cons, ih (i + 1), List.map_cons, List.sum_cons]

/-! ## The claims -/

/-- C1, as stated, fails: with the only key-group `[version]` the key `zone` is
not indexed, so `filterHosts` of `zone=x` returns no host although the host
`h0` carries `zone=x`. -/
theorem filterHosts_unindexed_key :
    filterHosts (newSubsetLoadBalancerBuilder RangeOrder.stored versionInfo zoneHosts)
        [("zone", "x")] = some [] ∧
      zoneHosts.Hosts.filter (hostMatches [("zone", "x")]) = [⟨"h0", [("zone", "x")]⟩] := by
  decide

/-- C1, amended: for every host set, configuration and constraint list whose
keys all occur in a configured key-group or in the default subset,
`filterHosts` returns exactly the hosts of the host set, in host order, whose
metadata has every key of the list with the value paired to it. -/
theorem filterHosts_exact_of_configured_keys (ord : RangeOrder) (info : ClusterInfo)
    (hs : HostSet) (kvs : SubsetMetadata)
    (hk : ∀ kv ∈ kvs, (∃ g ∈ info.LbSubsetInfo.SubsetKeys, kv.1 ∈ g) ∨
      kv.1 ∈ info.LbSubsetInfo.DefaultSubset.map Prod.fst) :
    filterHosts (newSubsetLoadBalancerBuilder ord info hs) kvs =
      some (hs.Hosts.filter (hostMatches kvs)) :=
  filterHosts_indexed ord info hs kvs (fun kv h => (mem_indexedKeys ord info kv.1).mpr (hk kv h))

/-- The amended C1 on the scenario, for the constraints `version=v1`,
`region=a`, both configured keys. -/
theorem filterHosts_exact_of_configured_keys_witness :
    filterHosts scenarioBuilder [("version", "v1"), ("region", "a")] =
      some (scenarioHosts.Hosts.filter (hostMatches [("version", "v1"), ("region", "a")])) :=
  filterHosts_exact_of_configured_keys RangeOrder.stored scenarioInfo scenarioHosts
    [("version", "v1"), ("region", "a")] (by decide)


/-- C2: with every key-group non-empty (and of fewer than `2^32` keys)
`createSubsets` returns a tree, in whatever order each of its ranges visits
its map, in which, for every key-group and every combination an execution of
`metadataCombinations` returns for it, the entry at the path of the
combination carries the balancer built over `filterHosts` of the combination
when that is non-empty, and no balancer when it is empty. -/
theorem createSubsets_leaf_balancers (ord : BuildOrder) (info : ClusterInfo) (hs : HostSet)
    (hne : ∀ g ∈ info.LbSubsetInfo.SubsetKeys, g ≠ [] ∧ g.length < 4294967296) :
    ∃ tree count,
      createSubsets ord.combinations (newSubsetLoadBalancerBuilder ord.mergeKeys info hs) =
        some (tree, count) ∧
      ∀ g ∈ info.LbSubsetInfo.SubsetKeys, ∀ m : CombinationOrder,
        ∃ combos,
          metadataCombinations m (newSubsetLoadBalancerBuilder ord.mergeKeys info hs) g =
            some combos ∧
          ∀ kvs ∈ combos, ∃ hosts entry,
            filterHosts (newSubsetLoadBalancerBuilder ord.mergeKeys info hs) kvs = some hosts ∧
            walk tree kvs = some entry ∧
            (hosts ≠ [] → entry.lb = some (NewLoadBalancer info ⟨hosts⟩)) ∧
            (hosts = [] → entry.lb = none) := by
  obtain ⟨tree, hrun, hsome, hb1, hb2, _⟩ :=
    createSubsets_builder ord.mergeKeys ord.combinations info hs hne
  refine ⟨tree, _, hrun, ?_⟩
  intro g hg m
  refine ⟨_, metadataCombinations_eq m _ g (hne g hg).1, ?_⟩
  intro kvs hk
  have hc := (mem_expand_nil m _ g kvs).mp hk
  have hf := builder_combos ord.mergeKeys info hs g hg kvs hc
  have hw : (walk tree kvs).isSome = true :=
    (hsome kvs).mpr ⟨g, hg, kvs, hc, kvs.length,
      List.length_pos.mpr (isCombination_ne_nil _ g kvs (hne g hg).1 hc),
      (List.take_length kvs).symm⟩
  obtain ⟨entry, he⟩ := Option.isSome_iff_exists.mp hw
  refine ⟨_, entry, hf, he, ?_, ?_⟩
  · intro hF
    have := hb1 kvs ⟨g, hg, hc⟩ hF
    unfold balancerAt at this
    rw [he] at this
    exact this
  · intro hF
    have := hb2 kvs (Or.inr hF)
    unfold balancerAt at this
    rw [he] at this
    exact this

/-- C2 on the end-to-end scenario, built in an order that visits the same map
differently from one range to the next: the key-groups are non-empty, and the
six leaves carry `{h0,h1}`, `{h2}`, `{h0}`, `{h1}`, `{h2}` and, for `(v2,b)`,
no balancer. -/
theorem createSubsets_leaf_balancers_witness :
    (∀ g ∈ scenarioInfo.LbSubsetInfo.SubsetKeys, g ≠ [] ∧ g.length < 4294967296) ∧
    (∃ tree count,
      createSubsets BuildOrder.mixed.combinations
          (newSubsetLoadBalancerBuilder BuildOrder.mixed.mergeKeys scenarioInfo scenarioHosts) =
        some (tree, count) ∧
      ∀ g ∈ scenarioInfo.LbSubsetInfo.SubsetKeys, ∀ m : CombinationOrder,
        ∃ combos,
          metadataCombinations m
              (newSubsetLoadBalancerBuilder BuildOrder.mixed.mergeKeys scenarioInfo
                scenarioHosts) g = some combos ∧
          ∀ kvs ∈ combos, ∃ hosts entry,
            filterHosts (newSubsetLoadBalancerBuilder BuildOrder.mixed.mergeKeys scenarioInfo
              scenarioHosts) kvs = some hosts ∧
            walk tree kvs = some entry ∧
            (hosts ≠ [] → entry.lb = some (NewLoadBalancer scenarioInfo ⟨hosts⟩)) ∧
            (hosts = [] → entry.lb = none)) ∧
    (createSubsets BuildOrder.mixed.combinations
        (newSubsetLoadBalancerBuilder BuildOrder.mixed.mergeKeys scenarioInfo
          scenarioHosts)).map (fun r =>
        [(walk r.1 [("version", "v1")]).map (fun e => e.lb.map (fun lb => lb.hosts.map Host.addr)),
         (walk r.1 [("version", "v2")]).map (fun e => e.lb.map (fun lb => lb.hosts.map Host.addr)),
         (walk r.1 [("version", "v1"), ("region", "a")]).map
            (fun e => e.lb.map (fun lb => lb.hosts.map Host.addr)),
         (walk r.1 [("version", "v1"), ("region", "b")]).map
            (fun e => e.lb.map (fun lb => lb.hosts.map Host.addr)),
         (walk r.1 [("version", "v2"), ("region", "a")]).map
            (fun e => e.lb.map (fun lb => lb.hosts.map Host.addr)),
         (walk r.1 [("version", "v2"), ("region", "b")]).map
            (fun e => e.lb.map (fun lb => lb.hosts.map Host.addr))]) =
      some [some (some ["h0", "h1"]), some (some ["h2"]), some (some ["h0"]),
        some (some ["h1"]), some (some ["h2"]), some none] :=
  ⟨by decide,
    createSubsets_leaf_balancers BuildOrder.mixed scenarioInfo scenarioHosts (by decide),
    by decide⟩

/-- C3: with every key-group non-empty (and of fewer than `2^32` keys) `Build`
returns, in whatever order each of its ranges visits its map, and the value it
passes to `stats.LBSubsetsCreated.Update` is the sum over the key-groups of
the number of combinations of the group whose `filterHosts` is non-empty, the
combinations enumerated in any order. -/
theorem Build_LBSubsetsCreated (ord : BuildOrder) (info : ClusterInfo) (hs : HostSet)
    (hne : ∀ g ∈ info.LbSubsetInfo.SubsetKeys, g ≠ [] ∧ g.length < 4294967296) :
    ∃ sslb, NewSubsetLoadBalancerPreIndex ord info hs = some sslb ∧
      (∀ cnt : Nat → CombinationOrder, sslb.LBSubsetsCreated =
        leafCountFrom cnt (newSubsetLoadBalancerBuilder ord.mergeKeys info hs) 0
          info.LbSubsetInfo.SubsetKeys) ∧
      ∀ m : CombinationOrder, sslb.LBSubsetsCreated =
        (info.LbSubsetInfo.SubsetKeys.map
          (leafCount m (newSubsetLoadBalancerBuilder ord.mergeKeys info hs))).sum := by
  obtain ⟨tree, hrun, _⟩ := createSubsets_builder ord.mergeKeys ord.combinations info hs hne
  obtain ⟨fb, hfb⟩ :=
    createFallbackSubset_returns ord.mergeKeys info hs (NewLoadBalancer info ⟨hs.Hosts⟩)
  have hcnt : ∀ cnt : Nat → CombinationOrder,
      leafCountFrom ord.combinations (newSubsetLoadBalancerBuilder ord.mergeKeys info hs) 0
          info.LbSubsetInfo.SubsetKeys =
        leafCountFrom cnt (newSubsetLoadBalancerBuilder ord.mergeKeys info hs) 0
          info.LbSubsetInfo.SubsetKeys :=
    fun cnt => leafCountFrom_builders ord.mergeKeys ord.mergeKeys ord.combinations cnt info hs
      info.LbSubsetInfo.SubsetKeys (fun g hg => ⟨hg, (hne g hg).1⟩) 0 0
  refine ⟨_, Build_of_parts ord.mergeKeys ord.combinations info hs tree _ fb hrun hfb,
    hcnt, ?_⟩
  intro m
  exact (hcnt (fun _ => m)).trans (leafCountFrom_const m _ 0 _)

/-- C3 on the end-to-end scenario, built in an order that visits the same map
differently from one range to the next: the value passed to the counter is
5. -/
theorem Build_LBSubsetsCreated_witness :
    (∀ g ∈ scenarioInfo.LbSubsetInfo.SubsetKeys, g ≠ [] ∧ g.length < 4294967296) ∧
    (∃ sslb, NewSubsetLoadBalancerPreIndex BuildOrder.mixed scenarioInfo scenarioHosts =
        some sslb ∧
      (∀ cnt : Nat → CombinationOrder, sslb.LBSubsetsCreated =
        leafCountFrom cnt
          (newSubsetLoadBalancerBuilder BuildOrder.mixed.mergeKeys scenarioInfo scenarioHosts) 0
          scenarioInfo.LbSubsetInfo.SubsetKeys) ∧
      ∀ m : CombinationOrder, sslb.LBSubsetsCreated =
        (scenarioInfo.LbSubsetInfo.SubsetKeys.map
          (leafCount m (newSubsetLoadBalancerBuilder BuildOrder.mixed.mergeKeys scenarioInfo
            scenarioHosts))).sum) ∧
    (NewSubsetLoadBalancerPreIndex BuildOrder.mixed scenarioInfo scenarioHosts).map
        (fun sslb => sslb.LBSubsetsCreated) = some 5 ∧
    (scenarioInfo.LbSubsetInfo.SubsetKeys.map
      (leafCount CombinationOrder.stored scenarioBuilder)).sum = 5 :=
  ⟨by decide, Build_LBSubsetsCreated BuildOrder.mixed scenarioInfo scenarioHosts (by decide),
    by decide, by decide⟩

/-- C4: `createFallbackSubset` resolves the fallback entry by policy.  Under
`NoFallBack` it returns the nil entry; under `AnyEndPoint` an entry without
children whose balancer is the full-host balancer, which `Build` constructs
over `filterHosts(nil)`, all hosts of the host set; under `DefaultSubset`
with `filterHosts(DefaultSubset)` non-empty an entry whose balancer is built
over exactly that host sequence. -/
theorem createFallbackSubset_policy (ord : RangeOrder) (info : ClusterInfo) (hs : HostSet)
    (fullLb : LoadBalancer) :
    (info.LbSubsetInfo.FallbackPolicy = .NoFallBack →
      createFallbackSubset (newSubsetLoadBalancerBuilder ord info hs) fullLb = some none) ∧
    (info.LbSubsetInfo.FallbackPolicy = .AnyEndPoint →
      ∃ entry, createFallbackSubset (newSubsetLoadBalancerBuilder ord info hs) fullLb =
          some (some entry) ∧
        entry.Children = none ∧ entry.lb = some fullLb) ∧
    (info.LbSubsetInfo.FallbackPolicy = .DefaultSubset →
      ∃ hosts, filterHosts (newSubsetLoadBalancerBuilder ord info hs)
          info.LbSubsetInfo.DefaultSubset = some hosts ∧
        (hosts ≠ [] →
          ∃ entry, createFallbackSubset (newSubsetLoadBalancerBuilder ord info hs) fullLb =
              some (some entry) ∧
            entry.lb = some (NewLoadBalancer info ⟨hosts⟩))) ∧
    filterHosts (newSubsetLoadBalancerBuilder ord info hs) [] = some hs.Hosts ∧
    (∀ (cord : Nat → CombinationOrder) (sslb : subsetLoadBalancer),
      Build cord (newSubsetLoadBalancerBuilder ord info hs) = some sslb →
      sslb.fullLb = NewLoadBalancer info ⟨hs.Hosts⟩ ∧
      createFallbackSubset (newSubsetLoadBalancerBuilder ord info hs) sslb.fullLb =
        some sslb.fallbackSubset) := by
  have hd : filterHosts (newSubsetLoadBalancerBuilder ord info hs)
      (newSubsetLoadBalancerBuilder ord info hs).info.LbSubsetInfo.DefaultSubset =
      some (hs.Hosts.filter (hostMatches info.LbSubsetInfo.DefaultSubset)) :=
    filterHosts_default ord info hs
  have hp0 : (newSubsetLoadBalancerBuilder ord info hs).info.LbSubsetInfo.FallbackPolicy =
      info.LbSubsetInfo.FallbackPolicy := rfl
  refine ⟨?_, ?_, ?_, rfl, ?_⟩
  · intro hp
    unfold createFallbackSubset
    rw [hp0, hp]
  · intro hp
    unfold createFallbackSubset
    rw [hp0, hp]
    exact ⟨_, rfl, rfl, rfl⟩
  · intro hp
    refine ⟨_, hd, ?_⟩
    intro hne
    unfold createFallbackSubset
    rw [hp0, hp]
    dsimp only
    rw [hd]
    exact ⟨_, rfl, lb_CreateLoadBalancer _ _ _ hne⟩
  · intro cord sslb hb
    obtain ⟨_, hfb, hfull⟩ := Build_parts ord cord info hs sslb hb
    rw [hfull]
    exact ⟨rfl, hfb⟩

/-- C4 on concrete inputs: the scenario under `AnyEndPoint`, the scenario under
`DefaultSubset` with the default subset `version=v1`, and a configuration
under `NoFallBack`. -/
theorem createFallbackSubset_policy_witness :
    (∃ entry, createFallbackSubset scenarioBuilder (NewLoadBalancer scenarioInfo scenarioHosts) =
        some (some entry) ∧
      entry.Children = none ∧ entry.lb = some (NewLoadBalancer scenarioInfo scenarioHosts)) ∧
    (∃ entry, createFallbackSubset
        (newSubsetLoadBalancerBuilder RangeOrder.stored defaultV1Info scenarioHosts)
        (NewLoadBalancer defaultV1Info scenarioHosts) = some (some entry) ∧
      entry.lb = some ⟨"LB_ROUNDROBIN",
        [⟨"h0", [("version", "v1"), ("region", "a")]⟩,
         ⟨"h1", [("version", "v1"), ("region", "b")]⟩]⟩) ∧
    createFallbackSubset (newSubsetLoadBalancerBuilder RangeOrder.stored versionInfo zoneHosts)
      (NewLoadBalancer versionInfo zoneHosts) = some none :=
  ⟨(createFallbackSubset_policy RangeOrder.stored scenarioInfo scenarioHosts
      (NewLoadBalancer scenarioInfo scenarioHosts)).2.1 rfl,
    by
      obtain ⟨hosts, hf, h⟩ := (createFallbackSubset_policy RangeOrder.stored defaultV1Info
        scenarioHosts (NewLoadBalancer defaultV1Info scenarioHosts)).2.2.1 rfl
      have hv : filterHosts (newSubsetLoadBalancerBuilder RangeOrder.stored defaultV1Info
          scenarioHosts) defaultV1Info.LbSubsetInfo.DefaultSubset =
          some [⟨"h0", [("version", "v1"), ("region", "a")]⟩,
            ⟨"h1", [("version", "v1"), ("region", "b")]⟩] := by decide
      rw [hv] at hf
      have he := Option.some.inj hf
      subst he
      exact h (by simp),
    (createFallbackSubset_policy RangeOrder.stored versionInfo zoneHosts
      (NewLoadBalancer versionInfo zoneHosts)).1 rfl⟩

/-- C5: under `DefaultSubset`, when `filterHosts(DefaultSubset)` yields zero
hosts, `createFallbackSubset` returns an entry, not nil, and the entry has no
balancer (and no host set and no children). -/
theorem createFallbackSubset_default_empty (ord : RangeOrder) (info : ClusterInfo)
    (hs : HostSet) (fullLb : LoadBalancer)
    (hp : info.LbSubsetInfo.FallbackPolicy = .DefaultSubset)
    (he : filterHosts (newSubsetLoadBalancerBuilder ord info hs)
      info.LbSubsetInfo.DefaultSubset = some []) :
    ∃ entry, createFallbackSubset (newSubsetLoadBalancerBuilder ord info hs) fullLb =
        some (some entry) ∧
      entry.lb = none ∧ entry.hostSet = none ∧ entry.Children = none := by
  have hp0 : (newSubsetLoadBalancerBuilder ord info hs).info.LbSubsetInfo.FallbackPolicy =
      info.LbSubsetInfo.FallbackPolicy := rfl
  have he0 : filterHosts (newSubsetLoadBalancerBuilder ord info hs)
      (newSubsetLoadBalancerBuilder ord info hs).info.LbSubsetInfo.DefaultSubset = some [] := he
  unfold createFallbackSubset
  rw [hp0, hp]
  dsimp only
  rw [he0]
  exact ⟨_, rfl, rfl, rfl, rfl⟩

/-- C5 on the scenario with the default subset `version=v9`, which no host
carries: the filter yields zero hosts, and the fallback entry is there,
without balancer. -/
theorem createFallbackSubset_default_empty_witness :
    filterHosts (newSubsetLoadBalancerBuilder RangeOrder.stored defaultSubsetInfo scenarioHosts)
        defaultSubsetInfo.LbSubsetInfo.DefaultSubset = some [] ∧
    ∃ entry, createFallbackSubset
        (newSubsetLoadBalancerBuilder RangeOrder.stored defaultSubsetInfo scenarioHosts)
        (NewLoadBalancer defaultSubsetInfo scenarioHosts) = some (some entry) ∧
      entry.lb = none ∧ entry.hostSet = none ∧ entry.Children = none :=
  ⟨by decide,
    createFallbackSubset_default_empty RangeOrder.stored defaultSubsetInfo scenarioHosts
      (NewLoadBalancer defaultSubsetInfo scenarioHosts) rfl (by decide)⟩

/-- C6: with every key-group non-empty (and of fewer than `2^32` keys) the tree
`createSubsets` returns, in whatever order each of its ranges visits its map,
has, for every key-group and every choice of one indexed value per key, an
entry at every depth from one to the length of the group along the path of
the choice, whether or not a host matches it. -/
theorem createSubsets_materializes_paths (ord : BuildOrder) (info : ClusterInfo)
    (hs : HostSet)
    (hne : ∀ g ∈ info.LbSubsetInfo.SubsetKeys, g ≠ [] ∧ g.length < 4294967296) :
    ∃ tree count,
      createSubsets ord.combinations (newSubsetLoadBalancerBuilder ord.mergeKeys info hs) =
        some (tree, count) ∧
      ∀ g ∈ info.LbSubsetInfo.SubsetKeys, ∀ kvs : SubsetMetadata,
        kvs.map Prod.fst = g →
        (∀ kv ∈ kvs,
          valuePresent (newSubsetLoadBalancerBuilder ord.mergeKeys info hs) kv.1 kv.2 = true) →
        ∀ d, 1 ≤ d → d ≤ g.length → (walk tree (kvs.take d)).isSome = true := by
  obtain ⟨tree, hrun, hsome, _⟩ :=
    createSubsets_builder ord.mergeKeys ord.combinations info hs hne
  refine ⟨tree, _, hrun, ?_⟩
  intro g hg kvs hkeys hvals d hd _
  exact (hsome (kvs.take d)).mpr ⟨g, hg, kvs, ⟨hkeys, hvals⟩, d, hd, rfl⟩

/-- C6 on the end-to-end scenario, built in an order that visits the same map
differently from one range to the next: no host matches `(v2,b)`, and the
tree has an entry at both depths of that path. -/
theorem createSubsets_materializes_paths_witness :
    (∀ g ∈ scenarioInfo.LbSubsetInfo.SubsetKeys, g ≠ [] ∧ g.length < 4294967296) ∧
    (∃ tree count,
      createSubsets BuildOrder.mixed.combinations
          (newSubsetLoadBalancerBuilder BuildOrder.mixed.mergeKeys scenarioInfo scenarioHosts) =
        some (tree, count) ∧
      ∀ g ∈ scenarioInfo.LbSubsetInfo.SubsetKeys, ∀ kvs : SubsetMetadata,
        kvs.map Prod.fst = g →
        (∀ kv ∈ kvs,
          valuePresent (newSubsetLoadBalancerBuilder BuildOrder.mixed.mergeKeys scenarioInfo
            scenarioHosts) kv.1 kv.2 = true) →
        ∀ d, 1 ≤ d → d ≤ g.length → (walk tree (kvs.take d)).isSome = true) ∧
    scenarioHosts.Hosts.filter (hostMatches [("version", "v2"), ("region", "b")]) = [] ∧
    (createSubsets BuildOrder.mixed.combinations
        (newSubsetLoadBalancerBuilder BuildOrder.mixed.mergeKeys scenarioInfo
          scenarioHosts)).map (fun r =>
        ((walk r.1 [("version", "v2")]).isSome,
         (walk r.1 [("version", "v2"), ("region", "b")]).isSome)) = some (true, true) :=
  ⟨by decide,
    createSubsets_materializes_paths BuildOrder.mixed scenarioInfo scenarioHosts (by decide),
    by decide, by decide⟩

/-- C7: for a non-empty key list `metadataCombinations` returns, each exactly
once and in whatever order each of its ranges visits its map, the sequences
that pair the keys, in their order, with values the index has under them, and
nothing else. -/
theorem metadataCombinations_spec (ord : CombinationOrder) (b : subsetLoadBalancerBuilder)
    (keys : List String) (hne : keys ≠ []) :
    ∃ combos, metadataCombinations ord b keys = some combos ∧ combos.Nodup ∧
      (∀ kvs : SubsetMetadata, kvs ∈ combos ↔
        (kvs.map Prod.fst = keys ∧ ∀ kv ∈ kvs, valuePresent b kv.1 kv.2 = true)) ∧
      ∀ kvs ∈ combos, kvs.length = keys.length ∧
        ∀ i (hi : i < kvs.length), (kvs.get ⟨i, hi⟩).1 = keys[i]? :=
  ⟨_, metadataCombinations_eq ord b keys hne, nodup_expand ord b keys [],
    fun kvs => mem_expand_nil ord b keys kvs,
    fun kvs hk => by
      have hc := (mem_expand_nil ord b keys kvs).mp hk
      refine ⟨isCombination_length b keys kvs hc, ?_⟩
      intro i hi
      rw [← hc.1, List.getElem?_map, List.getElem?_eq_getElem hi]
      rfl⟩

/-- C7 on the indexer of the comment in `metadataCombinations`: the keys
`[k1, k2, k3]` give the four combinations listed there, in the order of the
comment when every range visits its map as stored, and in an order no single
permutation per map gives when the ranges differ. -/
theorem metadataCombinations_spec_witness :
    ["k1", "k2", "k3"] ≠ [] ∧
    (∃ combos, metadataCombinations CombinationOrder.mixed commentBuilder ["k1", "k2", "k3"] =
        some combos ∧ combos.Nodup ∧
      (∀ kvs : SubsetMetadata, kvs ∈ combos ↔
        (kvs.map Prod.fst = ["k1", "k2", "k3"] ∧
          ∀ kv ∈ kvs, valuePresent commentBuilder kv.1 kv.2 = true)) ∧
      ∀ kvs ∈ combos, kvs.length = ["k1", "k2", "k3"].length ∧
        ∀ i (hi : i < kvs.length), (kvs.get ⟨i, hi⟩).1 = ["k1", "k2", "k3"][i]?) ∧
    metadataCombinations CombinationOrder.stored commentBuilder ["k1", "k2", "k3"] =
      some [[("k1", "v1"), ("k2", "v3"), ("k3", "v4")],
        [("k1", "v1"), ("k2", "v3"), ("k3", "v5")],
        [("k1", "v2"), ("k2", "v3"), ("k3", "v4")],
        [("k1", "v2"), ("k2", "v3"), ("k3", "v5")]] ∧
    metadataCombinations CombinationOrder.mixed commentBuilder ["k1", "k2", "k3"] =
      some [[("k1", "v2"), ("k2", "v3"), ("k3", "v5")],
        [("k1", "v2"), ("k2", "v3"), ("k3", "v4")],
        [("k1", "v1"), ("k2", "v3"), ("k3", "v4")],
        [("k1", "v1"), ("k2", "v3"), ("k3", "v5")]] :=
  ⟨by decide,
    metadataCombinations_spec CombinationOrder.mixed commentBuilder ["k1", "k2", "k3"]
      (by decide),
    by decide, by decide⟩

/-- C8: for a non-empty key list the number of combinations
`metadataCombinations` returns, in whatever order each of its ranges visits
its map, is the product over the keys of the number of distinct values the
index has under the key, and is zero when some key has no value. -/
theorem metadataCombinations_length (ord : CombinationOrder) (b : subsetLoadBalancerBuilder)
    (keys : List String) (hne : keys ≠ []) :
    ∃ combos, metadataCombinations ord b keys = some combos ∧
      combos.length = (keys.map (valueCount b)).prod ∧
      ((∃ k ∈ keys, valueCount b k = 0) → combos.length = 0) := by
  refine ⟨_, metadataCombinations_eq ord b keys hne, length_expand ord b keys [], ?_⟩
  rintro ⟨k, hk, h0⟩
  rw [length_expand]
  apply List.prod_eq_zero
  rw [← h0]
  exact List.mem_map_of_mem _ hk

/-- C8 on the indexer of the comment in `metadataCombinations`, the ranges
visiting the same map in different orders: four combinations for
`[k1, k2, k3]`, none when a key has no value. -/
theorem metadataCombinations_length_witness :
    ["k1", "k2", "k3"] ≠ [] ∧
    (∃ combos, metadataCombinations CombinationOrder.mixed commentBuilder ["k1", "k2", "k3"] =
        some combos ∧
      combos.length = (["k1", "k2", "k3"].map (valueCount commentBuilder)).prod ∧
      ((∃ k ∈ ["k1", "k2", "k3"], valueCount commentBuilder k = 0) → combos.length = 0)) ∧
    (["k1", "k2", "k3"].map (valueCount commentBuilder)).prod = 4 ∧
    (metadataCombinations CombinationOrder.mixed commentBuilder ["k1", "k9"]).map List.length =
      some 0 :=
  ⟨by decide,
    metadataCombinations_length CombinationOrder.mixed commentBuilder ["k1", "k2", "k3"]
      (by decide),
    by decide, by decide⟩

/-- C9: the index `initIndex` builds has exactly the keys of the key-groups and
of the default subset; under such a key the ordinal `i` is in the set of the
value `v` exactly when host `i` exists and its metadata has the key with value
`v`; a host lacking the key is in no set under it; every value under the key
is carried by some host; and with no host the value map is empty. -/
theorem initIndex_spec (ord : RangeOrder) (info : ClusterInfo) (hs : HostSet) :
    (∀ k, (mapGet (initIndex ord info hs) k).isSome = true ↔
      ((∃ g ∈ info.LbSubsetInfo.SubsetKeys, k ∈ g) ∨
        k ∈ info.LbSubsetInfo.DefaultSubset.map Prod.fst)) ∧
    (∀ k valueMap, mapGet (initIndex ord info hs) k = some valueMap →
      (∀ v i, (∃ s, mapGet valueMap v = some s ∧ i ∈ s) ↔
        (∃ h, hs.Hosts[i]? = some h ∧ mapGet h.Metadata k = some v)) ∧
      (∀ i h, hs.Hosts[i]? = some h → mapGet h.Metadata k = none →
        ∀ v s, mapGet valueMap v = some s → i ∉ s) ∧
      (∀ v s, mapGet valueMap v = some s →
        ∃ i h, i ∈ s ∧ hs.Hosts[i]? = some h ∧ mapGet h.Metadata k = some v) ∧
      (hs.Hosts = [] → valueMap = [])) := by
  have hmem : ∀ (k v : String) (i : Nat), i ∈ ordinalsOf hs.Hosts (hasPair k v) ↔
      ∃ h, hs.Hosts[i]? = some h ∧ mapGet h.Metadata k = some v := by
    intro k v i
    rw [mem_ordinalsOf]
    simp [hasPair]
  have hiff : ∀ (k v : String) (i : Nat),
      (∃ s, mapGet (indexKey hs.Hosts k) v = some s ∧ i ∈ s) ↔
        ∃ h, hs.Hosts[i]? = some h ∧ mapGet h.Metadata k = some v := by
    intro k v i
    rw [mapGet_indexKey, ← hmem]
    by_cases he : ordinalsOf hs.Hosts (hasPair k v) = []
    · simp [he]
    · simp [he]
  constructor
  · intro k
    rw [mapGet_initIndex, ← mem_indexedKeys ord info k]
    by_cases h : k ∈ indexedKeys ord info <;> simp [h]
  · intro k valueMap hk
    rw [mapGet_initIndex] at hk
    by_cases hin : k ∈ indexedKeys ord info
    · rw [if_pos hin] at hk
      have hv := Option.some.inj hk
      subst hv
      refine ⟨hiff k, ?_, ?_, ?_⟩
      · intro i h hh hnone v s hs1 hi
        obtain ⟨h2, hh2, hm2⟩ := (hiff k v i).mp ⟨s, hs1, hi⟩
        rw [hh] at hh2
        have := Option.some.inj hh2
        subst this
        rw [hnone] at hm2
        exact Option.noConfusion hm2
      · intro v s hs1
        rw [mapGet_indexKey] at hs1
        by_cases he : ordinalsOf hs.Hosts (hasPair k v) = []
        · rw [if_pos he] at hs1
          exact Option.noConfusion hs1
        · rw [if_neg he] at hs1
          have := Option.some.inj hs1
          subst this
          obtain ⟨i, hi⟩ := List.exists_mem_of_ne_nil _ he
          obtain ⟨h, hh, hm⟩ := (hmem k v i).mp hi
          exact ⟨i, h, hi, hh, hm⟩
      · intro hnil
        rw [hnil]
        rfl
    · rw [if_neg hin] at hk
      exact Option.noConfusion hk

/-- C9 on the end-to-end scenario, for the key `region`, and on the empty
host set. -/
theorem initIndex_spec_witness :
    mapGet (initIndex RangeOrder.stored scenarioInfo scenarioHosts) "region" =
      some [("a", [0, 2]), ("b", [1])] ∧
    ((∃ s, mapGet [("a", [0, 2]), ("b", [1])] "a" = some s ∧ 2 ∈ s) ↔
      (∃ h, scenarioHosts.Hosts[2]? = some h ∧ mapGet h.Metadata "region" = some "a")) ∧
    (mapGet (initIndex RangeOrder.stored scenarioInfo ⟨[]⟩) "region" = some []) :=
  ⟨by decide,
    ((initIndex_spec RangeOrder.stored scenarioInfo scenarioHosts).2 "region"
      [("a", [0, 2]), ("b", [1])] (by decide)).1 "a" 2,
    by decide⟩

/-- C10: when a constraint list contains a pair whose key the index does not
have, or whose value the index does not have under the key, `filterHosts`
returns the empty sequence, not an error, whatever the other pairs are and
wherever the pair stands. -/
theorem filterHosts_unknown_pair (b : subsetLoadBalancerBuilder) (kvs : SubsetMetadata)
    (key val : String) (hmem : (key, val) ∈ kvs) (hun : valuePresent b key val = false) :
    filterHosts b kvs = some [] := by
  unfold filterHosts
  have hlen : kvs.length ≠ 0 := by
    intro h0
    rw [List.length_eq_zero] at h0
    rw [h0] at hmem
    exact List.not_mem_nil _ hmem
  simp only [hlen, if_false]
  exact filterLoop_unknown b kvs none key val hmem hun

/-- C10 on the scenario: an unknown value in the middle of the list, and an
unknown key at its end. -/
theorem filterHosts_unknown_pair_witness :
    filterHosts scenarioBuilder [("version", "v1"), ("region", "c"), ("region", "a")] =
        some [] ∧
      filterHosts scenarioBuilder [("version", "v1"), ("zone", "x")] = some [] :=
  ⟨filterHosts_unknown_pair scenarioBuilder _ "region" "c" (by decide) (by decide),
    filterHosts_unknown_pair scenarioBuilder _ "zone" "x" (by decide) (by decide)⟩

/-! ## The claims, continued -/

/-- C11: `filterHosts` of the empty constraint list, which is also what a nil
list is, returns the host sequence of the host set: the same hosts, in the
same number and order.  This holds on the builder made from any host set and
configuration, and in every state of a builder. -/
theorem filterHosts_identity (ord : RangeOrder) (info : ClusterInfo) (hs : HostSet) :
    filterHosts (newSubsetLoadBalancerBuilder ord info hs) [] = some hs.Hosts ∧
      ∀ b : subsetLoadBalancerBuilder, filterHosts b [] = some b.hostSet.Hosts :=
  ⟨rfl, fun _ => rfl⟩

/-- C12: for every constraint list `filterHosts` returns a subsequence of the
host sequence: the hosts read at strictly increasing ordinals, all below the
number of hosts. -/
theorem filterHosts_subsequence (ord : RangeOrder) (info : ClusterInfo) (hs : HostSet)
    (kvs : SubsetMetadata) :
    ∃ result ords, filterHosts (newSubsetLoadBalancerBuilder ord info hs) kvs = some result ∧
      result.Sublist hs.Hosts ∧
      ords.Pairwise (fun i j => i < j) ∧
      (∀ i ∈ ords, i < hs.Hosts.length) ∧
      readHosts hs.Hosts ords = some result := by
  obtain ⟨p, hp⟩ := filterHosts_builder_filter ord info hs kvs
  exact ⟨hs.Hosts.filter p, ordinalsOf hs.Hosts p, hp, List.filter_sublist _,
    pairwise_lt_ordinalsOf _ _, fun i hi => ordinalsOf_lt _ _ i hi, readHosts_ordinalsOf _ _⟩

/-- C15: for a constraint list whose keys are all keys of the index,
`filterHosts` is exactly the sequence, in host order, of the hosts whose
metadata has every key of the list with the value paired to it.  A single
pair gives the hosts that carry it, and a further pair on an indexed key
narrows the result to the hosts that carry that pair too. -/
theorem filterHosts_and_semantics (ord : RangeOrder) (info : ClusterInfo) (hs : HostSet)
    (kvs : SubsetMetadata)
    (hk : ∀ kv ∈ kvs,
      (mapGet (newSubsetLoadBalancerBuilder ord info hs).indexer kv.1).isSome = true) :
    filterHosts (newSubsetLoadBalancerBuilder ord info hs) kvs =
        some (hs.Hosts.filter (fun h =>
          kvs.all (fun kv => decide (mapGet h.Metadata kv.1 = some kv.2)))) ∧
      ∀ key val,
        (mapGet (newSubsetLoadBalancerBuilder ord info hs).indexer key).isSome = true →
        filterHosts (newSubsetLoadBalancerBuilder ord info hs) [(key, val)] =
            some (hs.Hosts.filter (fun h => decide (mapGet h.Metadata key = some val))) ∧
          filterHosts (newSubsetLoadBalancerBuilder ord info hs) (kvs ++ [(key, val)]) =
            (filterHosts (newSubsetLoadBalancerBuilder ord info hs) kvs).map
              (fun result => result.filter
                (fun h => decide (mapGet h.Metadata key = some val))) := by
  have hidx : ∀ k, (mapGet (newSubsetLoadBalancerBuilder ord info hs).indexer k).isSome = true →
      k ∈ indexedKeys ord info := by
    intro k hsome
    by_contra hc
    simp [newSubsetLoadBalancerBuilder, mapGet_initIndex, hc] at hsome
  have hk2 : ∀ kv ∈ kvs, kv.1 ∈ indexedKeys ord info := fun kv h => hidx kv.1 (hk kv h)
  have hmain := filterHosts_indexed ord info hs kvs hk2
  refine ⟨hmain, ?_⟩
  intro key val hkey
  have hkey2 := hidx key hkey
  constructor
  · rw [filterHosts_indexed ord info hs [(key, val)] (by simpa using hkey2)]
    congr 1
    apply List.filter_congr
    intro h _
    simp [hostMatches, hasPair]
  · rw [filterHosts_indexed ord info hs (kvs ++ [(key, val)])
      (by
        intro kv hkv
        rcases List.mem_append.mp hkv with h | h
        · exact hk2 kv h
        · simp only [List.mem_singleton] at h
          rw [h]
          exact hkey2), hmain]
    simp only [Option.map_some', Option.some.injEq, List.filter_filter]
    apply List.filter_congr
    intro h _
    simp [hostMatches, hasPair, Bool.and_comm]

/-- C15 on the scenario, for the constraints `version=v1`, `region=a`. -/
theorem filterHosts_and_semantics_witness :
    filterHosts scenarioBuilder [("version", "v1"), ("region", "a")] =
      some [⟨"h0", [("version", "v1"), ("region", "a")]⟩] ∧
    filterHosts scenarioBuilder [("version", "v1")] =
      some [⟨"h0", [("version", "v1"), ("region", "a")]⟩,
        ⟨"h1", [("version", "v1"), ("region", "b")]⟩] := by
  have h := filterHosts_and_semantics RangeOrder.stored scenarioInfo scenarioHosts
    [("version", "v1"), ("region", "a")] (by decide)
  have h2 := (h.2 "version" "v1" (by decide)).1
  refine ⟨?_, ?_⟩
  · exact h.1.trans (by decide)
  · exact h2.trans (by decide)

/-- C19: `filterHosts` does not depend on the order or on the multiplicity of
its constraints: two lists with the same set of pairs give the same result,
and one more pair at the end never adds a host. -/
theorem filterHosts_order_multiplicity (ord : RangeOrder) (info : ClusterInfo)
    (hs : HostSet) :
    (∀ kvs kvs2 : SubsetMetadata, (∀ p, p ∈ kvs ↔ p ∈ kvs2) →
      filterHosts (newSubsetLoadBalancerBuilder ord info hs) kvs2 =
        filterHosts (newSubsetLoadBalancerBuilder ord info hs) kvs) ∧
    (∀ (kvs : SubsetMetadata) (p : String × String), ∃ more fewer,
      filterHosts (newSubsetLoadBalancerBuilder ord info hs) kvs = some more ∧
      filterHosts (newSubsetLoadBalancerBuilder ord info hs) (kvs ++ [p]) = some fewer ∧
      fewer.Sublist more) := by
  constructor
  · intro kvs kvs2 hset
    by_cases hk : ∀ kv ∈ kvs, kv.1 ∈ indexedKeys ord info
    · have hk2 : ∀ kv ∈ kvs2, kv.1 ∈ indexedKeys ord info :=
        fun kv h => hk kv ((hset kv).mpr h)
      rw [filterHosts_indexed ord info hs kvs hk, filterHosts_indexed ord info hs kvs2 hk2]
      congr 1
      apply List.filter_congr
      intro h _
      exact hostMatches_congr kvs2 kvs (fun p => (hset p).symm) h
    · have hk2 : ¬ ∀ kv ∈ kvs2, kv.1 ∈ indexedKeys ord info :=
        fun hall => hk (fun kv h => hall kv ((hset kv).mp h))
      rw [filterHosts_unindexed ord info hs kvs hk, filterHosts_unindexed ord info hs kvs2 hk2]
  · intro kvs p
    by_cases hk : ∀ kv ∈ kvs ++ [p], kv.1 ∈ indexedKeys ord info
    · have hk1 : ∀ kv ∈ kvs, kv.1 ∈ indexedKeys ord info :=
        fun kv h => hk kv (List.mem_append_left _ h)
      refine ⟨_, _, filterHosts_indexed ord info hs kvs hk1,
        filterHosts_indexed ord info hs (kvs ++ [p]) hk, ?_⟩
      have hfil : hs.Hosts.filter (hostMatches (kvs ++ [p])) =
          (hs.Hosts.filter (hostMatches kvs)).filter (hasPair p.1 p.2) := by
        rw [List.filter_filter]
        apply List.filter_congr
        intro h _
        simp [hostMatches, Bool.and_comm]
      rw [hfil]
      exact List.filter_sublist _
    · obtain ⟨q, hq⟩ := filterHosts_builder_filter ord info hs kvs
      exact ⟨_, _, hq, filterHosts_unindexed ord info hs (kvs ++ [p]) hk, List.nil_sublist _⟩

/-- C19 on the scenario: a list, the list reversed with a pair repeated, and
the list with one more pair. -/
theorem filterHosts_order_multiplicity_witness :
    filterHosts scenarioBuilder [("region", "a"), ("version", "v1"), ("region", "a")] =
      filterHosts scenarioBuilder [("version", "v1"), ("region", "a")] ∧
    (∃ more fewer,
      filterHosts scenarioBuilder [("version", "v1")] = some more ∧
      filterHosts scenarioBuilder ([("version", "v1")] ++ [("region", "b")]) = some fewer ∧
      fewer.Sublist more) ∧
    filterHosts scenarioBuilder [("region", "a"), ("version", "v1"), ("region", "a")] =
      some [⟨"h0", [("version", "v1"), ("region", "a")]⟩] :=
  ⟨(filterHosts_order_multiplicity RangeOrder.stored scenarioInfo scenarioHosts).1
      [("version", "v1"), ("region", "a")]
      [("region", "a"), ("version", "v1"), ("region", "a")]
      (by
        intro p
        simp only [List.mem_cons, List.mem_singleton, List.not_mem_nil, or_false]
        tauto),
    (filterHosts_order_multiplicity RangeOrder.stored scenarioInfo scenarioHosts).2
      [("version", "v1")] ("region", "b"),
    by decide⟩

/-- C20: under the `DefaultSubset` policy with an empty default subset
`filterHosts(DefaultSubset)` is the host sequence of the host set, so the
hosts handed to `CreateLoadBalancer` for the fallback entry are all hosts in
their order, the sequence the full-host balancer of `Build` is constructed
over, for every host set.  A balancer of the fallback entry is that
balancer, and with a host in the host set the entry has it. -/
theorem createFallbackSubset_default_all (ord : RangeOrder) (info : ClusterInfo)
    (hs : HostSet) (fullLb : LoadBalancer)
    (hp : info.LbSubsetInfo.FallbackPolicy = .DefaultSubset)
    (hd : info.LbSubsetInfo.DefaultSubset = []) :
    filterHosts (newSubsetLoadBalancerBuilder ord info hs) info.LbSubsetInfo.DefaultSubset =
      some hs.Hosts ∧
    ∃ entry, createFallbackSubset (newSubsetLoadBalancerBuilder ord info hs) fullLb =
        some (some entry) ∧
      entry = (LBSubsetEntryImpl.mk none none none).CreateLoadBalancer info ⟨hs.Hosts⟩ ∧
      (∀ lb, entry.lb = some lb → lb = NewLoadBalancer info ⟨hs.Hosts⟩) ∧
      (hs.Hosts ≠ [] → entry.lb = some (NewLoadBalancer info ⟨hs.Hosts⟩)) ∧
      (NewLoadBalancer info ⟨hs.Hosts⟩).hosts = hs.Hosts ∧
      ∀ (cord : Nat → CombinationOrder) (sslb : subsetLoadBalancer),
        Build cord (newSubsetLoadBalancerBuilder ord info hs) = some sslb →
        sslb.fullLb = NewLoadBalancer info ⟨hs.Hosts⟩ ∧
          (∀ lb, entry.lb = some lb → lb = sslb.fullLb) ∧
          (hs.Hosts ≠ [] → entry.lb = some sslb.fullLb) := by
  have hp0 : (newSubsetLoadBalancerBuilder ord info hs).info.LbSubsetInfo.FallbackPolicy =
      .DefaultSubset := hp
  have hd0 : (newSubsetLoadBalancerBuilder ord info hs).info.LbSubsetInfo.DefaultSubset = [] :=
    hd
  have hcf : createFallbackSubset (newSubsetLoadBalancerBuilder ord info hs) fullLb =
      some (some ((LBSubsetEntryImpl.mk none none none).CreateLoadBalancer info
        ⟨hs.Hosts⟩)) := by
    unfold createFallbackSubset
    rw [hp0]
    dsimp only
    rw [hd0, filterHosts_nil]
    rfl
  have hany : ∀ lb,
      ((LBSubsetEntryImpl.mk none none none).CreateLoadBalancer info ⟨hs.Hosts⟩).lb = some lb →
        lb = NewLoadBalancer info ⟨hs.Hosts⟩ := by
    intro lb hlb
    by_cases he : hs.Hosts = []
    · rw [CreateLoadBalancer_empty _ info ⟨hs.Hosts⟩ he] at hlb
      exact Option.noConfusion hlb
    · rw [lb_CreateLoadBalancer _ info ⟨hs.Hosts⟩ he] at hlb
      exact (Option.some.inj hlb).symm
  refine ⟨by rw [hd]; rfl, _, hcf, rfl, hany,
    fun he => lb_CreateLoadBalancer _ info ⟨hs.Hosts⟩ he, rfl, ?_⟩
  intro cord sslb hb
  obtain ⟨_, _, hfull⟩ := Build_parts ord cord info hs sslb hb
  rw [hfull]
  exact ⟨rfl, hany, fun he => lb_CreateLoadBalancer _ info ⟨hs.Hosts⟩ he⟩

/-- C20 on the scenario with the default-subset fallback and an empty default
subset: the fallback entry carries the balancer over the three hosts, which is
the full-host balancer of the build. -/
theorem createFallbackSubset_default_all_witness :
    (filterHosts (newSubsetLoadBalancerBuilder RangeOrder.stored defaultAllInfo scenarioHosts)
        defaultAllInfo.LbSubsetInfo.DefaultSubset = some scenarioHosts.Hosts ∧
      ∃ entry, createFallbackSubset
          (newSubsetLoadBalancerBuilder RangeOrder.stored defaultAllInfo scenarioHosts)
          (NewLoadBalancer defaultAllInfo scenarioHosts) = some (some entry) ∧
        entry = (LBSubsetEntryImpl.mk none none none).CreateLoadBalancer defaultAllInfo
          ⟨scenarioHosts.Hosts⟩ ∧
        (∀ lb, entry.lb = some lb → lb = NewLoadBalancer defaultAllInfo ⟨scenarioHosts.Hosts⟩) ∧
        (scenarioHosts.Hosts ≠ [] →
          entry.lb = some (NewLoadBalancer defaultAllInfo ⟨scenarioHosts.Hosts⟩)) ∧
        (NewLoadBalancer defaultAllInfo ⟨scenarioHosts.Hosts⟩).hosts = scenarioHosts.Hosts ∧
        ∀ (cord : Nat → CombinationOrder) (sslb : subsetLoadBalancer),
          Build cord
              (newSubsetLoadBalancerBuilder RangeOrder.stored defaultAllInfo scenarioHosts) =
            some sslb →
          sslb.fullLb = NewLoadBalancer defaultAllInfo ⟨scenarioHosts.Hosts⟩ ∧
            (∀ lb, entry.lb = some lb → lb = sslb.fullLb) ∧
            (scenarioHosts.Hosts ≠ [] → entry.lb = some sslb.fullLb)) ∧
    (NewSubsetLoadBalancerPreIndex BuildOrder.stored defaultAllInfo scenarioHosts).map
        (fun sslb => (sslb.fallbackSubset.map
            (fun e => e.lb.map (fun lb => lb.hosts.map Host.addr)),
          sslb.fullLb.hosts.map Host.addr)) =
      some (some (some ["h0", "h1", "h2"]), ["h0", "h1", "h2"]) :=
  ⟨createFallbackSubset_default_all RangeOrder.stored defaultAllInfo scenarioHosts
      (NewLoadBalancer defaultAllInfo scenarioHosts) rfl rfl,
    by decide⟩

/-- C14 fails on the code: with a key-group that has no key
`metadataCombinations` reads `keys[0]` out of range, and
`NewSubsetLoadBalancerPreIndex` does not return a structure, in whatever order
the ranges visit the maps. -/
theorem Build_empty_key_group :
    metadataCombinations CombinationOrder.stored
        (newSubsetLoadBalancerBuilder RangeOrder.stored emptyGroupInfo scenarioHosts) [] =
      none ∧
    (NewSubsetLoadBalancerPreIndex BuildOrder.stored emptyGroupInfo scenarioHosts).isSome =
      false ∧
    ∀ ord : BuildOrder, NewSubsetLoadBalancerPreIndex ord emptyGroupInfo scenarioHosts = none :=
  ⟨by decide, by decide,
    fun ord => Build_fails ord.combinations
      (newSubsetLoadBalancerBuilder ord.mergeKeys emptyGroupInfo scenarioHosts)
      ⟨[], List.mem_cons_self _ _, rfl⟩⟩

/-- C16, as stated, fails: on the nil tree, on a tree whose value map under
the key is nil, and on the children of a fallback entry, which are nil,
`findOrCreateSubset` with a non-empty `kvs` and `idx = 0` does not return: it
writes into a nil map.  And on a `kvs` of `2^32 + 1` pairs it returns from
its first call, not after `len(kvs)` nested calls: `idx++` gives 1, which is
`uint32(len(kvs))`. -/
theorem findOrCreateSubset_nil_map_and_wrap :
    findOrCreateSubset none [("version", "v1")] 0 = none ∧
    findOrCreateSubset (some [("version", none)]) [("version", "v1")] 0 = none ∧
    (createFallbackSubset scenarioBuilder (NewLoadBalancer scenarioInfo scenarioHosts)).map
        (fun fb => fb.map (fun e =>
          (e.Children, findOrCreateSubset e.Children [("version", "v1")] 0))) =
      some (some (none, none)) ∧
    (findOrCreateSubsetAux 1 (some []) (List.replicate 4294967297 ("version", "v1")) 0).isSome =
      true ∧
    ¬ ((List.replicate 4294967297 ("version", "v1")).length - 0 ≤ 1) :=
  ⟨rfl, rfl, rfl,
    findOrCreateSubsetAux_wrap _ "version" "v1"
      (getElem?_replicate_zero 4294967297 ("version", "v1") (by decide))
      (by rw [List.length_replicate]; decide),
    by rw [List.length_replicate]; decide⟩

/-- C16, amended: for every tree without a nil map, every `kvs` of fewer than
`2^32` pairs and every `idx` below the length of `kvs`, which is then
non-empty, `findOrCreateSubset(tree, kvs, idx)` returns after nesting exactly
`len(kvs) - idx` calls; the entry it returns is the one at the path
`kvs[idx:]` of the tree afterwards; an entry the tree already had there is
the entry returned, no entry is lost, every balancer is kept, and the tree
afterwards has no nil map. -/
theorem findOrCreateSubset_terminates (tree : LbSubsetMap) (kvs : SubsetMetadata)
    (idx : Nat) (hm : made tree) (hidx : idx < kvs.length)
    (hlen : kvs.length < 4294967296) :
    (∀ fuel, (findOrCreateSubsetAux fuel tree kvs idx).isSome = true ↔
      kvs.length - idx ≤ fuel) ∧
    ∃ after entry, findOrCreateSubset tree kvs idx = some (after, entry) ∧
      walk after (kvs.drop idx) = some entry ∧
      (∀ e, walk tree (kvs.drop idx) = some e → entry = e) ∧
      (∀ q, balancerAt after q = balancerAt tree q) ∧
      (∀ q, (walk tree q).isSome = true → (walk after q).isSome = true) ∧
      made after := by
  refine ⟨fun fuel => findOrCreateSubsetAux_isSome kvs fuel idx tree hidx hlen hm, ?_⟩
  obtain ⟨after, entry, hrun, hwalk, hsame, hbal, hsome, _, hmade⟩ :=
    findOrCreateSubsetAux_spec kvs (kvs.length - idx) idx tree (Nat.le_refl _) hidx hlen hm
  exact ⟨after, entry, hrun, hwalk, hsame, hbal, hsome, hmade⟩

/-- The amended C16 on the empty tree that `make` builds, and on the tree of
the scenario: the path `(v1,b)` is made in two nested calls and not in one,
and in the tree of the scenario it is found again, its balancer kept. -/
theorem findOrCreateSubset_terminates_witness :
    ((∀ fuel, (findOrCreateSubsetAux fuel (some []) [("version", "v1"), ("region", "b")]
        0).isSome = true ↔ [("version", "v1"), ("region", "b")].length - 0 ≤ fuel) ∧
      ∃ after entry,
        findOrCreateSubset (some []) [("version", "v1"), ("region", "b")] 0 =
          some (after, entry) ∧
        walk after ([("version", "v1"), ("region", "b")].drop 0) = some entry ∧
        (∀ e, walk (some []) ([("version", "v1"), ("region", "b")].drop 0) = some e →
          entry = e) ∧
        (∀ q, balancerAt after q = balancerAt (some []) q) ∧
        (∀ q, (walk (some []) q).isSome = true → (walk after q).isSome = true) ∧
        made after) ∧
    (findOrCreateSubsetAux 1 (some []) [("version", "v1"), ("region", "b")] 0).isSome = false ∧
    (findOrCreateSubsetAux 2 (some []) [("version", "v1"), ("region", "b")] 0).isSome = true ∧
    ((createSubsets BuildOrder.stored.combinations scenarioBuilder).bind (fun r =>
        findOrCreateSubset r.1 [("version", "v1"), ("region", "b")] 0)).map
      (fun r => (r.2.lb.map (fun lb => lb.hosts.map Host.addr),
        (walk r.1 [("version", "v1")]).map
          (fun e => e.lb.map (fun lb => lb.hosts.map Host.addr)))) =
      some (some ["h1"], some (some ["h0", "h1"])) :=
  ⟨findOrCreateSubset_terminates (some []) [("version", "v1"), ("region", "b")] 0 made_empty
      (by decide) (by decide),
    by decide, by decide, by decide⟩

/-- C18: `Build` fails exactly when some key-group has no key, the failure
being `keys[0]` out of range in `doMetadataCombination`, for key-groups of
fewer than `2^32` keys and in whatever order the ranges visit the maps.  With
every key-group non-empty every combination handed to `findOrCreateSubset`
is non-empty; every ordinal in a set of the index is below the number of
hosts, and `filterHosts` returns for every constraint list, on every host
set. -/
theorem Build_fails_iff_empty_key_group (ord : BuildOrder) (info : ClusterInfo)
    (hs : HostSet) (hlen : ∀ g ∈ info.LbSubsetInfo.SubsetKeys, g.length < 4294967296) :
    (NewSubsetLoadBalancerPreIndex ord info hs = none ↔
      ∃ g ∈ info.LbSubsetInfo.SubsetKeys, g = []) ∧
    (∀ m : CombinationOrder,
      metadataCombinations m (newSubsetLoadBalancerBuilder ord.mergeKeys info hs) [] = none) ∧
    ((∀ g ∈ info.LbSubsetInfo.SubsetKeys, g ≠ []) →
      ∀ g ∈ info.LbSubsetInfo.SubsetKeys, ∀ m : CombinationOrder,
        ∃ combos,
          metadataCombinations m (newSubsetLoadBalancerBuilder ord.mergeKeys info hs) g =
            some combos ∧
          ∀ kvs ∈ combos, kvs ≠ []) ∧
    (∀ k valueMap v s,
      mapGet (newSubsetLoadBalancerBuilder ord.mergeKeys info hs).indexer k = some valueMap →
      mapGet valueMap v = some s → ∀ i ∈ s, i < hs.Hosts.length) ∧
    (∀ kvs,
      (filterHosts (newSubsetLoadBalancerBuilder ord.mergeKeys info hs) kvs).isSome = true) := by
  refine ⟨?_, fun _ => rfl, ?_, ?_, ?_⟩
  · constructor
    · intro hnone
      by_contra hc
      have hne : ∀ g ∈ info.LbSubsetInfo.SubsetKeys, g ≠ [] ∧ g.length < 4294967296 :=
        fun g hg => ⟨fun he => hc ⟨g, hg, he⟩, hlen g hg⟩
      obtain ⟨sslb, hb⟩ := Build_returns ord.mergeKeys ord.combinations info hs hne
      unfold NewSubsetLoadBalancerPreIndex at hnone
      rw [hb] at hnone
      exact Option.noConfusion hnone
    · intro hex
      exact Build_fails ord.combinations (newSubsetLoadBalancerBuilder ord.mergeKeys info hs) hex
  · intro hne g hg m
    refine ⟨_, metadataCombinations_eq m _ g (hne g hg), ?_⟩
    intro kvs hk
    exact isCombination_ne_nil _ g kvs (hne g hg) ((mem_expand_nil m _ g kvs).mp hk)
  · intro k valueMap v s hk hv i hi
    have hk2 : mapGet (initIndex ord.mergeKeys info hs) k = some valueMap := hk
    rw [mapGet_initIndex] at hk2
    by_cases hin : k ∈ indexedKeys ord.mergeKeys info
    · rw [if_pos hin] at hk2
      have := Option.some.inj hk2
      subst this
      rw [mapGet_indexKey] at hv
      by_cases he : ordinalsOf hs.Hosts (hasPair k v) = []
      · rw [if_pos he] at hv
        exact Option.noConfusion hv
      · rw [if_neg he] at hv
        have := Option.some.inj hv
        subst this
        exact ordinalsOf_lt _ _ i hi
    · rw [if_neg hin] at hk2
      exact Option.noConfusion hk2
  · intro kvs
    obtain ⟨p, hp⟩ := filterHosts_builder_filter ord.mergeKeys info hs kvs
    rw [hp]
    rfl

/-- C18 on the scenario, which builds, and on a configuration with a key-group
without keys, which does not, both on the empty host set and in an order that
visits the same map differently from one range to the next. -/
theorem Build_fails_iff_empty_key_group_witness :
    (∀ g ∈ emptyGroupInfo.LbSubsetInfo.SubsetKeys, g.length < 4294967296) ∧
    (NewSubsetLoadBalancerPreIndex BuildOrder.mixed emptyGroupInfo ⟨[]⟩ = none ↔
      ∃ g ∈ emptyGroupInfo.LbSubsetInfo.SubsetKeys, g = []) ∧
    (∀ g ∈ scenarioInfo.LbSubsetInfo.SubsetKeys, ∀ m : CombinationOrder,
      ∃ combos,
        metadataCombinations m
            (newSubsetLoadBalancerBuilder BuildOrder.mixed.mergeKeys scenarioInfo ⟨[]⟩) g =
          some combos ∧
        ∀ kvs ∈ combos, kvs ≠ []) ∧
    (NewSubsetLoadBalancerPreIndex BuildOrder.mixed scenarioInfo ⟨[]⟩).isSome = true ∧
    (NewSubsetLoadBalancerPreIndex BuildOrder.mixed emptyGroupInfo ⟨[]⟩).isSome = false :=
  ⟨by decide,
    (Build_fails_iff_empty_key_group BuildOrder.mixed emptyGroupInfo ⟨[]⟩ (by decide)).1,
    (Build_fails_iff_empty_key_group BuildOrder.mixed scenarioInfo ⟨[]⟩ (by decide)).2.2.1
      (by decide),
    by decide, by decide⟩

/-- C13: building twice from the same host set and configuration (key-groups
of fewer than `2^32` keys), each range of either build visiting its map in an
order of its own, gives either two failures or two results with the same set
of tree paths, the same balancer, hence the same host sequence, at every
path, the same fallback entry, the same full-host balancer and the same value
of `LBSubsetsCreated`. -/
theorem Build_rebuild_stable (ord1 ord2 : BuildOrder) (info : ClusterInfo) (hs : HostSet)
    (hlen : ∀ g ∈ info.LbSubsetInfo.SubsetKeys, g.length < 4294967296) :
    (NewSubsetLoadBalancerPreIndex ord1 info hs = none ↔
      NewSubsetLoadBalancerPreIndex ord2 info hs = none) ∧
    ((∀ g ∈ info.LbSubsetInfo.SubsetKeys, g ≠ []) →
      ∃ first second, NewSubsetLoadBalancerPreIndex ord1 info hs = some first ∧
        NewSubsetLoadBalancerPreIndex ord2 info hs = some second ∧
        (∀ q, (walk first.subSets q).isSome = (walk second.subSets q).isSome) ∧
        (∀ q, balancerAt first.subSets q = balancerAt second.subSets q) ∧
        first.fallbackSubset = second.fallbackSubset ∧
        first.fullLb = second.fullLb ∧
        first.LBSubsetsCreated = second.LBSubsetsCreated) := by
  have hboth : (∀ g ∈ info.LbSubsetInfo.SubsetKeys, g ≠ []) →
      ∃ first second, NewSubsetLoadBalancerPreIndex ord1 info hs = some first ∧
        NewSubsetLoadBalancerPreIndex ord2 info hs = some second ∧
        (∀ q, (walk first.subSets q).isSome = (walk second.subSets q).isSome) ∧
        (∀ q, balancerAt first.subSets q = balancerAt second.subSets q) ∧
        first.fallbackSubset = second.fallbackSubset ∧
        first.fullLb = second.fullLb ∧
        first.LBSubsetsCreated = second.LBSubsetsCreated := by
    intro hne0
    have hne : ∀ g ∈ info.LbSubsetInfo.SubsetKeys, g ≠ [] ∧ g.length < 4294967296 :=
      fun g hg => ⟨hne0 g hg, hlen g hg⟩
    obtain ⟨tree1, hrun1, hp1, ha1, hn1, _⟩ :=
      createSubsets_builder ord1.mergeKeys ord1.combinations info hs hne
    obtain ⟨tree2, hrun2, hp2, ha2, hn2, _⟩ :=
      createSubsets_builder ord2.mergeKeys ord2.combinations info hs hne
    obtain ⟨fb, hfb1⟩ :=
      createFallbackSubset_returns ord1.mergeKeys info hs (NewLoadBalancer info ⟨hs.Hosts⟩)
    have hfb2 := hfb1
    rw [createFallbackSubset_order ord1.mergeKeys ord2.mergeKeys info hs] at hfb2
    have hcombo : ∀ q, (∃ g ∈ info.LbSubsetInfo.SubsetKeys,
          isCombination (newSubsetLoadBalancerBuilder ord1.mergeKeys info hs) g q) ↔
        (∃ g ∈ info.LbSubsetInfo.SubsetKeys,
          isCombination (newSubsetLoadBalancerBuilder ord2.mergeKeys info hs) g q) := by
      intro q
      constructor
      · rintro ⟨g, hg, hq⟩
        exact ⟨g, hg, (isCombination_order ord1.mergeKeys ord2.mergeKeys info hs g q).mp hq⟩
      · rintro ⟨g, hg, hq⟩
        exact ⟨g, hg, (isCombination_order ord1.mergeKeys ord2.mergeKeys info hs g q).mpr hq⟩
    refine ⟨_, _,
      Build_of_parts ord1.mergeKeys ord1.combinations info hs tree1 _ fb hrun1 hfb1,
      Build_of_parts ord2.mergeKeys ord2.combinations info hs tree2 _ fb hrun2 hfb2,
      ?_, ?_, rfl, rfl, ?_⟩
    · intro q
      rw [Bool.eq_iff_iff]
      show (walk tree1 q).isSome = true ↔ (walk tree2 q).isSome = true
      rw [hp1 q, hp2 q]
      constructor
      · rintro ⟨g, hg, kvs, hk, hd⟩
        exact ⟨g, hg, kvs,
          (isCombination_order ord1.mergeKeys ord2.mergeKeys info hs g kvs).mp hk, hd⟩
      · rintro ⟨g, hg, kvs, hk, hd⟩
        exact ⟨g, hg, kvs,
          (isCombination_order ord1.mergeKeys ord2.mergeKeys info hs g kvs).mpr hk, hd⟩
    · intro q
      show balancerAt tree1 q = balancerAt tree2 q
      by_cases hq : (∃ g ∈ info.LbSubsetInfo.SubsetKeys,
          isCombination (newSubsetLoadBalancerBuilder ord1.mergeKeys info hs) g q) ∧
          hs.Hosts.filter (hostMatches q) ≠ []
      · rw [ha1 q hq.1 hq.2, ha2 q ((hcombo q).mp hq.1) hq.2]
      · have hq1 : (¬ ∃ g ∈ info.LbSubsetInfo.SubsetKeys,
            isCombination (newSubsetLoadBalancerBuilder ord1.mergeKeys info hs) g q) ∨
            hs.Hosts.filter (hostMatches q) = [] := by
          by_cases hc : ∃ g ∈ info.LbSubsetInfo.SubsetKeys,
              isCombination (newSubsetLoadBalancerBuilder ord1.mergeKeys info hs) g q
          · right
            by_contra hF
            exact hq ⟨hc, hF⟩
          · exact Or.inl hc
        have hq2 : (¬ ∃ g ∈ info.LbSubsetInfo.SubsetKeys,
            isCombination (newSubsetLoadBalancerBuilder ord2.mergeKeys info hs) g q) ∨
            hs.Hosts.filter (hostMatches q) = [] := by
          rcases hq1 with h | h
          · exact Or.inl (fun hc => h ((hcombo q).mpr hc))
          · exact Or.inr h
        rw [hn1 q hq1, hn2 q hq2]
    · exact leafCountFrom_builders ord1.mergeKeys ord2.mergeKeys ord1.combinations
        ord2.combinations info hs info.LbSubsetInfo.SubsetKeys
        (fun g hg => ⟨hg, hne0 g hg⟩) 0 0
  refine ⟨?_, hboth⟩
  by_cases hex : ∃ g ∈ info.LbSubsetInfo.SubsetKeys, g = []
  · have h1 : NewSubsetLoadBalancerPreIndex ord1 info hs = none :=
      Build_fails ord1.combinations (newSubsetLoadBalancerBuilder ord1.mergeKeys info hs) hex
    have h2 : NewSubsetLoadBalancerPreIndex ord2 info hs = none :=
      Build_fails ord2.combinations (newSubsetLoadBalancerBuilder ord2.mergeKeys info hs) hex
    rw [h1, h2]
  · have hne : ∀ g ∈ info.LbSubsetInfo.SubsetKeys, g ≠ [] := fun g hg he => hex ⟨g, hg, he⟩
    obtain ⟨first, second, h1, h2, _⟩ := hboth hne
    rw [h1, h2]
    simp

/-- C13 on the scenario, built once with every range visiting its map as
stored and once with the ranges visiting the same map in different orders: the
children of `version=v2` are stored in different orders, and the two trees
agree on every path. -/
theorem Build_rebuild_stable_witness :
    (∀ g ∈ scenarioInfo.LbSubsetInfo.SubsetKeys, g.length < 4294967296) ∧
    (∃ first second,
      NewSubsetLoadBalancerPreIndex BuildOrder.stored scenarioInfo scenarioHosts =
        some first ∧
      NewSubsetLoadBalancerPreIndex BuildOrder.mixed scenarioInfo scenarioHosts =
        some second ∧
      (∀ q, (walk first.subSets q).isSome = (walk second.subSets q).isSome) ∧
      (∀ q, balancerAt first.subSets q = balancerAt second.subSets q) ∧
      first.fallbackSubset = second.fallbackSubset ∧
      first.fullLb = second.fullLb ∧
      first.LBSubsetsCreated = second.LBSubsetsCreated) ∧
    (NewSubsetLoadBalancerPreIndex BuildOrder.stored scenarioInfo scenarioHosts).map
        (fun sslb => (walk sslb.subSets [("version", "v2")]).map
          (fun e => e.Children.map (fun m => m.map
            (fun kv => (kv.1, kv.2.map (fun vs => vs.map Prod.fst)))))) =
      some (some (some [("region", some ["a", "b"])])) ∧
    (NewSubsetLoadBalancerPreIndex BuildOrder.mixed scenarioInfo scenarioHosts).map
        (fun sslb => (walk sslb.subSets [("version", "v2")]).map
          (fun e => e.Children.map (fun m => m.map
            (fun kv => (kv.1, kv.2.map (fun vs => vs.map Prod.fst)))))) =
      some (some (some [("region", some ["b", "a"])])) :=
  ⟨by decide,
    (Build_rebuild_stable BuildOrder.stored BuildOrder.mixed scenarioInfo scenarioHosts
      (by decide)).2 (by decide),
    by decide, by decide⟩

/-- C17, as stated, fails: with the key-group `[version]` configured twice the
hosts of the scenario give the count 4, while the entries of the tree that
carry a balancer are the two at `version=v1` and `version=v2`. -/
theorem Build_counts_key_group_twice :
    ∃ sslb, NewSubsetLoadBalancerPreIndex BuildOrder.stored twiceVersionInfo scenarioHosts =
        some sslb ∧
      sslb.LBSubsetsCreated = 4 ∧
      ∀ q, (balancerAt sslb.subSets q).isSome = true ↔
        (q = [("version", "v1")] ∨ q = [("version", "v2")]) := by
  have hne : ∀ g ∈ twiceVersionInfo.LbSubsetInfo.SubsetKeys,
      g ≠ [] ∧ g.length < 4294967296 := by decide
  obtain ⟨tree, hrun, _, ha, hn, _⟩ := createSubsets_builder RangeOrder.stored
    BuildOrder.stored.combinations twiceVersionInfo scenarioHosts hne
  obtain ⟨fb, hfb⟩ := createFallbackSubset_returns RangeOrder.stored twiceVersionInfo
    scenarioHosts (NewLoadBalancer twiceVersionInfo ⟨scenarioHosts.Hosts⟩)
  have hexp : expand CombinationOrder.stored
      (newSubsetLoadBalancerBuilder RangeOrder.stored twiceVersionInfo scenarioHosts)
      ["version"] [] = [[("version", "v1")], [("version", "v2")]] := by decide
  have hmem : ∀ q, (∃ g ∈ twiceVersionInfo.LbSubsetInfo.SubsetKeys,
        isCombination
          (newSubsetLoadBalancerBuilder RangeOrder.stored twiceVersionInfo scenarioHosts)
          g q) ↔ (q = [("version", "v1")] ∨ q = [("version", "v2")]) := by
    intro q
    constructor
    · rintro ⟨g, hg, hq⟩
      have hg2 : g = ["version"] := by
        simp only [twiceVersionInfo, List.mem_cons, List.mem_singleton, List.not_mem_nil,
          or_false, or_self] at hg
        exact hg
      subst hg2
      rw [← mem_expand_nil CombinationOrder.stored, hexp] at hq
      simpa using hq
    · intro hq
      refine ⟨["version"], by decide, ?_⟩
      rw [← mem_expand_nil CombinationOrder.stored, hexp]
      simpa using hq
  have hcount : leafCountFrom BuildOrder.stored.combinations
      (newSubsetLoadBalancerBuilder RangeOrder.stored twiceVersionInfo scenarioHosts) 0
      twiceVersionInfo.LbSubsetInfo.SubsetKeys = 4 := by decide
  refine ⟨_, Build_of_parts RangeOrder.stored BuildOrder.stored.combinations twiceVersionInfo
    scenarioHosts tree _ fb hrun hfb, hcount, ?_⟩
  intro q
  show (balancerAt tree q).isSome = true ↔ _
  constructor
  · intro hq
    by_contra hc
    rw [hn q (Or.inl (fun hex => hc ((hmem q).mp hex)))] at hq
    exact Bool.noConfusion hq
  · intro hq
    have hF : scenarioHosts.Hosts.filter (hostMatches q) ≠ [] := by
      rcases hq with h | h <;> subst h <;> decide
    rw [ha q ((hmem q).mpr hq) hF]
    rfl

/-- C17, amended: when the key-groups are non-empty (and of fewer than `2^32`
keys) and no two of them have the same key sequence, the value `Build` passes
to `LBSubsetsCreated` is the number of distinct paths, that is of distinct
entries, of the built tree that carry a balancer, in whatever order each
range of the build visits its map. -/
theorem LBSubsetsCreated_counts_entries (ord : BuildOrder) (info : ClusterInfo)
    (hs : HostSet)
    (hne : ∀ g ∈ info.LbSubsetInfo.SubsetKeys, g ≠ [] ∧ g.length < 4294967296)
    (hnd : info.LbSubsetInfo.SubsetKeys.Nodup) :
    ∃ sslb, ∃ paths : List SubsetMetadata,
      NewSubsetLoadBalancerPreIndex ord info hs = some sslb ∧
      paths.Nodup ∧
      (∀ q, q ∈ paths ↔ (balancerAt sslb.subSets q).isSome = true) ∧
      sslb.LBSubsetsCreated = paths.length := by
  obtain ⟨tree, hrun, _, ha, hn, _⟩ :=
    createSubsets_builder ord.mergeKeys ord.combinations info hs hne
  obtain ⟨fb, hfb⟩ :=
    createFallbackSubset_returns ord.mergeKeys info hs (NewLoadBalancer info ⟨hs.Hosts⟩)
  refine ⟨_, info.LbSubsetInfo.SubsetKeys.flatMap (fun g =>
      (expand CombinationOrder.stored (newSubsetLoadBalancerBuilder ord.mergeKeys info hs)
        g []).filter (fun kvs => decide (hs.Hosts.filter (hostMatches kvs) ≠ []))),
    Build_of_parts ord.mergeKeys ord.combinations info hs tree _ fb hrun hfb, ?_, ?_, ?_⟩
  · rw [List.nodup_flatMap]
    refine ⟨fun g _ => (nodup_expand CombinationOrder.stored _ g []).sublist
      (List.filter_sublist _), ?_⟩
    refine List.Pairwise.imp ?_ hnd
    intro g1 g2 hg kvs h1 h2
    have e1 := ((mem_expand_nil CombinationOrder.stored _ g1 kvs).mp
      (List.mem_filter.mp h1).1).1
    have e2 := ((mem_expand_nil CombinationOrder.stored _ g2 kvs).mp
      (List.mem_filter.mp h2).1).1
    exact hg (e1.symm.trans e2)
  · intro q
    show _ ↔ (balancerAt tree q).isSome = true
    rw [List.mem_flatMap]
    constructor
    · rintro ⟨g, hg, hq⟩
      obtain ⟨hq1, hq2⟩ := List.mem_filter.mp hq
      rw [ha q ⟨g, hg, (mem_expand_nil CombinationOrder.stored _ g q).mp hq1⟩
        (by simpa using hq2)]
      rfl
    · intro hq
      by_contra hc
      have hcase : (¬ ∃ g ∈ info.LbSubsetInfo.SubsetKeys,
          isCombination (newSubsetLoadBalancerBuilder ord.mergeKeys info hs) g q) ∨
          hs.Hosts.filter (hostMatches q) = [] := by
        by_cases hex : ∃ g ∈ info.LbSubsetInfo.SubsetKeys,
            isCombination (newSubsetLoadBalancerBuilder ord.mergeKeys info hs) g q
        · right
          by_contra hF
          obtain ⟨g, hg, hq1⟩ := hex
          exact hc ⟨g, hg, List.mem_filter.mpr
            ⟨(mem_expand_nil CombinationOrder.stored _ g q).mpr hq1, by simpa using hF⟩⟩
        · exact Or.inl hex
      rw [hn q hcase] at hq
      exact Bool.noConfusion hq
  · show leafCountFrom ord.combinations (newSubsetLoadBalancerBuilder ord.mergeKeys info hs) 0
        info.LbSubsetInfo.SubsetKeys = _
    rw [leafCountFrom_builders ord.mergeKeys ord.mergeKeys ord.combinations
        (fun _ => CombinationOrder.stored) info hs info.LbSubsetInfo.SubsetKeys
        (fun g hg => ⟨hg, (hne g hg).1⟩) 0 0,
      leafCountFrom_const, List.length_flatMap]
    congr 1
    apply List.map_congr_left
    intro g hg
    exact leafCount_eq CombinationOrder.stored _
      (fun kvs => hs.Hosts.filter (hostMatches kvs)) g (hne g hg).1
      (fun kvs hk => builder_combos ord.mergeKeys info hs g hg kvs hk)

/-- The amended C17 on the end-to-end scenario, built in an order that visits
the same map differently from one range to the next: five entries carry a
balancer and the count is 5. -/
theorem LBSubsetsCreated_counts_entries_witness :
    (∀ g ∈ scenarioInfo.LbSubsetInfo.SubsetKeys, g ≠ [] ∧ g.length < 4294967296) ∧
    scenarioInfo.LbSubsetInfo.SubsetKeys.Nodup ∧
    (∃ sslb, ∃ paths : List SubsetMetadata,
      NewSubsetLoadBalancerPreIndex BuildOrder.mixed scenarioInfo scenarioHosts = some sslb ∧
      paths.Nodup ∧
      (∀ q, q ∈ paths ↔ (balancerAt sslb.subSets q).isSome = true) ∧
      sslb.LBSubsetsCreated = paths.length) ∧
    (NewSubsetLoadBalancerPreIndex BuildOrder.mixed scenarioInfo scenarioHosts).map
        (fun sslb => sslb.LBSubsetsCreated) = some 5 :=
  ⟨by decide, by decide,
    LBSubsetsCreated_counts_entries BuildOrder.mixed scenarioInfo scenarioHosts
      (by decide) (by decide),
    by decide⟩

end Mosn
